import Mathlib

/-!
# Verification of the Limitless single-symbol matching engine

Shallow embedding of the order-book engine (`engine/orderbook.go`,
`engine/heap.go`, `engine/types.go`) and proofs of the specification's
claims about it.

Modelling conventions:
* Go `int64` values (prices, quantities, sequence numbers) are modelled as
  `Int`; no arithmetic in the engine can overflow in any scenario the claims
  quantify over, so no wrap-around is modelled.
* `time.Time` instants are modelled as `Nat`; the engine only ever compares
  instants (`Equal`, `Before`, `After`), never reads absolute values.
* The worker goroutine processes commands serially; we model one command
  execution as a pure state transition (`step`).  The injected clock `now`
  is passed as an argument per command (Go calls `ob.now()` possibly several
  times inside one command; all claims are insensitive to intra-command
  clock advance).
* Pointers to `orderEntry` are modelled by a unique allocation tag carried
  in each entry (`Entry.tag`); the book state tracks the next fresh tag.
  The Go `index` field always mirrors the entry's position in its slice, so
  the model uses list positions directly.
* The Go `orders` map (id → *orderEntry) is modelled as an association list
  with map semantics (`mapLookup` / `mapInsert` / `mapErase`); the stored
  value is the entry's tag.
-/

set_option maxHeartbeats 1000000

namespace Limitless

/-- Order side (`engine/types.go`). -/
inductive Side where
  | Buy
  | Sell
deriving DecidableEq, Repr, Inhabited

/-- Order execution style (`engine/types.go`). -/
inductive OrderType where
  | Limit
  | Market
deriving DecidableEq, Repr, Inhabited

/-- `engine.Order` (`engine/types.go`). -/
structure Order where
  id : String
  symbol : String
  side : Side
  type : OrderType
  price : Int
  quantity : Int
  remaining : Int
  timestamp : Nat
  sequence : Int
deriving DecidableEq, Repr, Inhabited

/-- `engine.MatchResult` (`engine/types.go`). -/
structure MatchResult where
  symbol : String
  buyOrderId : String
  sellOrderId : String
  price : Int
  quantity : Int
  timestamp : Nat
deriving DecidableEq, Repr, Inhabited

/-- `engine.BookView` (`engine/types.go`): top-of-book snapshot (copies). -/
structure BookView where
  bestBid : Option Order
  bestAsk : Option Order
deriving DecidableEq, Repr, Inhabited

/-- `engine.OrderBookConfig` (`engine/types.go`). -/
structure OrderBookConfig where
  symbol : String
  tickSize : Int
  maxDepth : Int
deriving DecidableEq, Repr, Inhabited

/-- Error kinds returned by the engine, following the spec's taxonomy (§7).
The Go code returns `error` values with distinct messages; the mapping is:
* `symbolMismatch` — "order symbol %s does not match book %s"
* `invalidQuantity` — "order quantity must be positive" /
  "amended quantity must be positive"
* `tickAlignment` — "tick size must be positive for limit orders" /
  "price must align to tick size %d"
* `notFound` — "order %s not found" -/
inductive BookError where
  | symbolMismatch
  | invalidQuantity
  | tickAlignment
  | notFound
deriving DecidableEq, Repr, Inhabited

/-- `engine.orderEntry` (`engine/heap.go`): a resting entry.  The Go struct
carries a mutable `index` field that always equals the entry's position in
its slice, so the model keeps entries positionally and adds `tag`, the
allocation identity standing in for the Go pointer. -/
structure Entry where
  tag : Nat
  order : Order
  isBid : Bool
deriving DecidableEq, Repr, Inhabited

/-! ## Association-list map with Go map semantics (id → entry tag) -/

/-- The `orders` map: order id → resting entry tag. -/
abbrev OrdersMap := List (String × Nat)

/-- Go map read: `orders[id]`. -/
def mapLookup (m : OrdersMap) (k : String) : Option Nat :=
  (m.find? (fun p => p.1 = k)).map (·.2)

/-- Go map delete: `delete(orders, id)`. -/
def mapErase (m : OrdersMap) (k : String) : OrdersMap :=
  m.filter (fun p => ¬ p.1 = k)

/-- Go map write: `orders[id] = entry`. -/
def mapInsert (m : OrdersMap) (k : String) (v : Nat) : OrdersMap :=
  (k, v) :: mapErase m k

/-! ## Positional list access and swapping

`container/heap` works on a slice with `Len/Less/Swap`; we mirror it on a
`List` with positional get (`lget`) and swap (`lswap`). -/

variable {α : Type}

/-- Positional read `q[i]` (default value out of bounds; every engine use is
in bounds). -/
def lget [Inhabited α] (l : List α) (i : Nat) : α := l.getD i default

/-- `Swap(i, j)` on a slice. -/
def lswap [Inhabited α] (l : List α) (i j : Nat) : List α :=
  (l.set i (lget l j)).set j (lget l i)

/-! ## `container/heap` algorithms

Faithful translations of Go's `container/heap` package functions `up`,
`down`, `Push`, `Pop`, `Fix`, `Remove`, specialised to a comparison
function `less`.  (`Init` is only ever run on empty queues by the engine,
where it is a no-op, so it is not modelled.) -/

/-- Fuel-indexed body of `container/heap.up` (structural recursion so that
the kernel can evaluate it; `j` strictly decreases, so `j + 1` fuel always
suffices — see `heapUp_eq`). -/
def heapUpF [Inhabited α] (less : α → α → Bool) : Nat → List α → Nat → List α
  | 0, l, _ => l
  | fuel + 1, l, j =>
    if h : (j - 1) / 2 = j then l
    else if less (lget l j) (lget l ((j - 1) / 2)) then
      heapUpF less fuel (lswap l ((j - 1) / 2) j) ((j - 1) / 2)
    else l

/-- `container/heap.up`.  (Go binds `i := (j - 1) / 2` for the parent; the
binding is inlined here.) -/
def heapUp [Inhabited α] (less : α → α → Bool) (l : List α) (j : Nat) : List α :=
  heapUpF less (j + 1) l j

/-- The child index `j` selected by one iteration of `container/heap.down`:
the left child `2*i+1`, or the right child when it exists and compares
strictly smaller. -/
def pickChild [Inhabited α] (less : α → α → Bool) (l : List α) (i n : Nat) : Nat :=
  if 2 * i + 2 < n ∧ less (lget l (2 * i + 2)) (lget l (2 * i + 1)) then 2 * i + 2
  else 2 * i + 1

/-- Fuel-indexed body of `container/heap.down` (the index rises by at
least one per iteration and stays below `n`, so `n - i` fuel suffices). -/
def heapDownAuxF [Inhabited α] (less : α → α → Bool) :
    Nat → List α → Nat → Nat → List α × Nat
  | 0, l, i, _ => (l, i)
  | fuel + 1, l, i, n =>
    if h1 : 2 * i + 1 ≥ n then (l, i)
    else
      if less (lget l (pickChild less l i n)) (lget l i) then
        heapDownAuxF less fuel (lswap l i (pickChild less l i n))
          (pickChild less l i n) n
      else (l, i)

/-- `container/heap.down` (loop body); returns the final index of the sunk
element together with the updated slice.  Go's `down` returns `i > i0`,
recovered from the final index. -/
def heapDownAux [Inhabited α] (less : α → α → Bool) (l : List α) (i n : Nat) :
    List α × Nat :=
  heapDownAuxF less (n - i) l i n

/-- `container/heap.Push`: append then sift up at the last index. -/
def heapPush [Inhabited α] (less : α → α → Bool) (l : List α) (x : α) : List α :=
  heapUp less (l ++ [x]) l.length

/-- `container/heap.Pop`: swap the root to the end, sift down over the
shortened prefix, then remove the last element (returned). -/
def heapPop [Inhabited α] (less : α → α → Bool) (l : List α) : List α × α :=
  let n := l.length - 1
  let l1 := lswap l 0 n
  let l2 := (heapDownAux less l1 0 n).1
  (l2.dropLast, lget l2 n)

/-- `container/heap.Fix`. -/
def heapFix [Inhabited α] (less : α → α → Bool) (l : List α) (i : Nat) : List α :=
  let r := heapDownAux less l i l.length
  if r.2 > i then r.1 else heapUp less r.1 i

/-- `container/heap.Remove`. -/
def heapRemove [Inhabited α] (less : α → α → Bool) (l : List α) (i : Nat) :
    List α × α :=
  let n := l.length - 1
  if i = n then (l.dropLast, lget l i)
  else
    let l1 := lswap l i n
    let r := heapDownAux less l1 i n
    let l3 := if r.2 > i then r.1 else heapUp less r.1 i
    (l3.dropLast, lget l3 n)

/-! ## The price-time comparator (`engine/heap.go`) -/

/-- `priceTimeQueue.Less` (`engine/heap.go`).  Reads the side flag from the
first entry, exactly as the Go code does; every queue the engine builds is
homogeneous in `isBid`. -/
def entryLess (a b : Entry) : Bool :=
  if a.order.price ≠ b.order.price then
    if a.isBid then a.order.price > b.order.price
    else a.order.price < b.order.price
  else if a.order.timestamp ≠ b.order.timestamp then
    a.order.timestamp < b.order.timestamp
  else a.order.sequence < b.order.sequence

/-- The side-indexed comparator: `entryLess` with the side flag supplied
externally.  On a queue whose entries all carry `isBid = β` this agrees
with `entryLess` (see `entryLess_eq_sideLess`). -/
def sideLess (β : Bool) (a b : Entry) : Bool :=
  if a.order.price ≠ b.order.price then
    if β then a.order.price > b.order.price
    else a.order.price < b.order.price
  else if a.order.timestamp ≠ b.order.timestamp then
    a.order.timestamp < b.order.timestamp
  else a.order.sequence < b.order.sequence

/-- `priceTimeQueue.peek` (`engine/heap.go`). -/
def peek (q : List Entry) : Option Entry := q.head?

/-- `priceTimeQueue.findWorstIndex` (`engine/heap.go`): linear scan for the
lowest-priority entry; `-1` on an empty queue. -/
def findWorstIndex (q : List Entry) (isBid : Bool) : Int :=
  if q.length = 0 then -1
  else
    ((List.range q.length).foldl (fun worstIdx i =>
      if isBid then
        if (lget q i).order.price < (lget q worstIdx).order.price then i
        else if (lget q i).order.price = (lget q worstIdx).order.price ∧
            (lget q i).order.timestamp > (lget q worstIdx).order.timestamp then i
        else worstIdx
      else
        if (lget q i).order.price > (lget q worstIdx).order.price then i
        else if (lget q i).order.price = (lget q worstIdx).order.price ∧
            (lget q i).order.timestamp > (lget q worstIdx).order.timestamp then i
        else worstIdx) 0 : Nat)

/-- Fuel-indexed body of `trimDepth` (each eviction shortens the queue, so
`q.length` fuel suffices). -/
def trimDepthF : Nat → Int → Bool → List Entry → OrdersMap →
    List Entry × OrdersMap
  | 0, _, _, q, orders => (q, orders)
  | fuel + 1, maxDepth, isBid, q, orders =>
    if maxDepth > 0 ∧ (q.length : Int) > maxDepth then
      let idx := findWorstIndex q isBid
      if idx < 0 then (q, orders)
      else
        let r := heapRemove entryLess q idx.toNat
        trimDepthF fuel maxDepth isBid r.1 (mapErase orders r.2.order.id)
    else (q, orders)

/-- `trimDepth` (`engine/heap.go`): while over depth, evict the worst entry
from the queue and from the orders index.  (The Go variant's `release`
argument only recycles pooled allocations and has no state semantics.) -/
def trimDepth (maxDepth : Int) (isBid : Bool) (q : List Entry)
    (orders : OrdersMap) : List Entry × OrdersMap :=
  trimDepthF q.length maxDepth isBid q orders

/-! ## The order book state (`engine/orderbook.go`) -/

/-- `engine.OrderBook` state owned by the worker goroutine.  Queue entries
are kept positionally (position = Go `index` field); `nextTag` models the
allocator supplying fresh `orderEntry` pointers. -/
structure OrderBook where
  cfg : OrderBookConfig
  bids : List Entry
  asks : List Entry
  orders : OrdersMap
  seq : Int
  nextTag : Nat
deriving DecidableEq, Repr, Inhabited

/-- `engine.NewOrderBook` (worker-state part): empty queues, empty index,
zero sequence.  `heap.Init` on an empty slice is a no-op. -/
def NewOrderBook (cfg : OrderBookConfig) : OrderBook :=
  { cfg := cfg, bids := [], asks := [], orders := [], seq := 0, nextTag := 0 }

/-- `selectOrderID` (`engine/orderbook.go`). -/
def selectOrderId (incoming resting : Order) (side : Side) : String :=
  if incoming.side = side then incoming.id else resting.id

/-- The state threaded through the matching loop in `OrderBook.match`:
the incoming order, the opposing queue, and the orders index. -/
structure LoopState where
  incoming : Order
  opposing : List Entry
  orders : OrdersMap
deriving DecidableEq, Repr, Inhabited

/-- One iteration of the matching loop in `OrderBook.match`
(`engine/orderbook.go`): `none` when the loop exits (filled, empty book, or
price stop), otherwise the emitted trade and the successor state.  Mirrors
the Go loop body: peek, price check, quantity `min`, decrement both sides
in place, emit the trade, then pop the consumed entry (and delete its id
from the index) or re-fix the top. -/
def matchStep (now : Nat) (s : LoopState) : Option (MatchResult × LoopState) :=
  if s.incoming.remaining > 0 then
    match peek s.opposing with
    | none => none
    | some best =>
      if s.incoming.type = OrderType.Limit ∧
          ((s.incoming.side = Side.Buy ∧ s.incoming.price < best.order.price) ∨
           (s.incoming.side = Side.Sell ∧ s.incoming.price > best.order.price)) then
        none
      else
        let tradedQty := min s.incoming.remaining best.order.remaining
        let tradePrice := best.order.price
        let incoming' := { s.incoming with remaining := s.incoming.remaining - tradedQty }
        let best' : Entry :=
          { best with order := { best.order with remaining := best.order.remaining - tradedQty } }
        let trade : MatchResult :=
          { symbol := s.incoming.symbol
            buyOrderId := selectOrderId s.incoming best.order Side.Buy
            sellOrderId := selectOrderId s.incoming best.order Side.Sell
            price := tradePrice
            quantity := tradedQty
            timestamp := now }
        let opposing1 := s.opposing.set 0 best'
        if best'.order.remaining = 0 then
          some (trade, ⟨incoming', (heapPop entryLess opposing1).1,
            mapErase s.orders best.order.id⟩)
        else
          some (trade, ⟨incoming', heapFix entryLess opposing1 0, s.orders⟩)
  else none

/-- Fuel-indexed body of the matching loop (each iteration either shortens
the opposing queue or fully fills the incoming order, so
`opposing.length + 1` fuel suffices). -/
def matchLoopF (now : Nat) : Nat → LoopState → LoopState × List MatchResult
  | 0, s => (s, [])
  | fuel + 1, s =>
    match matchStep now s with
    | none => (s, [])
    | some (t, s') =>
      let r := matchLoopF now fuel s'
      (r.1, t :: r.2)

/-- The matching loop of `OrderBook.match` (`engine/orderbook.go`), as the
iteration of `matchStep`; returns the final loop state and the trades
emitted, in emission order. -/
def matchLoop (now : Nat) (s : LoopState) : LoopState × List MatchResult :=
  matchLoopF now (s.opposing.length + 1) s

/-- Result of `OrderBook.match` (`engine/orderbook.go`): final incoming
order, both queues, the orders index, the emitted trades, and the next
fresh allocation tag. -/
structure MatchOut where
  incoming : Order
  opposing : List Entry
  restingQ : List Entry
  orders : OrdersMap
  trades : List MatchResult
  nextTag : Nat
deriving DecidableEq, Repr, Inhabited

/-- `OrderBook.match` (`engine/orderbook.go`): run the matching loop, then
rest the remainder of a limit order (push, record in the index, trim
depth).  Go's `opposingIsBid` parameter is unused by the body and omitted
here. -/
def matchFn (now : Nat) (incoming : Order) (opposing restingQ : List Entry)
    (orders : OrdersMap) (maxDepth : Int) (tag : Nat) : MatchOut :=
  let r := matchLoop now ⟨incoming, opposing, orders⟩
  let inc := r.1.incoming
  if inc.remaining > 0 ∧ inc.type = OrderType.Limit then
    let entry : Entry := { tag := tag, order := inc, isBid := inc.side = Side.Buy }
    let r1 := heapPush entryLess restingQ entry
    let ord2 := mapInsert r.1.orders inc.id tag
    if inc.side = Side.Buy then
      let tr := trimDepth maxDepth true r1 ord2
      ⟨inc, r.1.opposing, tr.1, tr.2, r.2, tag + 1⟩
    else
      let tr := trimDepth maxDepth false r1 ord2
      ⟨inc, r.1.opposing, tr.1, tr.2, r.2, tag + 1⟩
  else ⟨inc, r.1.opposing, restingQ, r.1.orders, r.2, tag⟩

/-- `OrderBook.processAdd` (`engine/orderbook.go`): validations in source
order, then sequence/timestamp/remaining assignment, then matching with
the side-dependent queue roles. -/
def processAdd (now : Nat) (order : Order) (ob : OrderBook) :
    OrderBook × List MatchResult × Option BookError :=
  if order.symbol ≠ ob.cfg.symbol then (ob, [], some BookError.symbolMismatch)
  else if order.quantity ≤ 0 then (ob, [], some BookError.invalidQuantity)
  else if order.type = OrderType.Limit ∧ ob.cfg.tickSize ≤ 0 then
    (ob, [], some BookError.tickAlignment)
  else if order.type = OrderType.Limit ∧
      (order.price ≤ 0 ∨ order.price % ob.cfg.tickSize ≠ 0) then
    (ob, [], some BookError.tickAlignment)
  else
    let o := { order with
      sequence := ob.seq + 1
      timestamp := now
      remaining := order.quantity }
    if o.side = Side.Buy then
      let r := matchFn now o ob.asks ob.bids ob.orders ob.cfg.maxDepth ob.nextTag
      ({ ob with
          seq := ob.seq + 1
          asks := r.opposing
          bids := r.restingQ
          orders := r.orders
          nextTag := r.nextTag }, r.trades, none)
    else
      let r := matchFn now o ob.bids ob.asks ob.orders ob.cfg.maxDepth ob.nextTag
      ({ ob with
          seq := ob.seq + 1
          bids := r.opposing
          asks := r.restingQ
          orders := r.orders
          nextTag := r.nextTag }, r.trades, none)

/-- Position of the entry with allocation tag `tag` in queue `q` (the Go
`entry.index` field for a live entry). -/
def findTagIdx (q : List Entry) (tag : Nat) : Nat :=
  q.findIdx (fun e => e.tag = tag)

/-- Dereference an entry tag against the book's two queues (the Go map
stores the `*orderEntry` directly). -/
def derefTag (ob : OrderBook) (tag : Nat) : Option Entry :=
  match ob.bids.find? (fun e => e.tag = tag) with
  | some e => some e
  | none => ob.asks.find? (fun e => e.tag = tag)

/-- `OrderBook.processCancel` (`engine/orderbook.go`): index lookup, heap
removal by handle on the entry's side, index delete.  The `derefTag = none`
branch is unreachable for books built by the engine (the index only holds
live entries) and returns the state unchanged. -/
def processCancel (id : String) (ob : OrderBook) : OrderBook × Option BookError :=
  match mapLookup ob.orders id with
  | none => (ob, some BookError.notFound)
  | some tag =>
    match derefTag ob tag with
    | none => (ob, none)
    | some entry =>
      if entry.isBid then
        ({ ob with
            bids := (heapRemove entryLess ob.bids (findTagIdx ob.bids tag)).1
            orders := mapErase ob.orders id }, none)
      else
        ({ ob with
            asks := (heapRemove entryLess ob.asks (findTagIdx ob.asks tag)).1
            orders := mapErase ob.orders id }, none)

/-- The quantity step of `OrderBook.processAmend`: set `Quantity`, cap
`Remaining` (`engine/orderbook.go`). -/
def amendQty (o : Order) (q : Int) : Order :=
  { o with
    quantity := q
    remaining := if o.remaining > q then q else o.remaining }

/-- `OrderBook.processAmend` (`engine/orderbook.go`).  Mirrors the source's
mutation order faithfully: the quantity update is written through the entry
pointer *before* the price validation runs, so an amend that supplies a
valid quantity and an invalid price returns an error with the quantity
change already applied.  On full success: assign a fresh sequence and
timestamp, re-fix the entry's heap position, trim depth. -/
def processAmend (now : Nat) (id : String) (newPrice newQty : Option Int)
    (ob : OrderBook) : OrderBook × Option BookError :=
  match mapLookup ob.orders id with
  | none => (ob, some BookError.notFound)
  | some tag =>
    match derefTag ob tag with
    | none => (ob, none)
    | some entry =>
      -- write-back of the in-place mutation of `entry.order`
      let writeBack : Order → OrderBook := fun o =>
        if entry.isBid then
          { ob with bids := ob.bids.set (findTagIdx ob.bids tag) { entry with order := o } }
        else
          { ob with asks := ob.asks.set (findTagIdx ob.asks tag) { entry with order := o } }
      -- successful tail: fresh sequence and timestamp, heap fix, depth trim
      let finish : Order → OrderBook × Option BookError := fun o =>
        let o' := { o with sequence := ob.seq + 1, timestamp := now }
        if entry.isBid then
          let q1 := ob.bids.set (findTagIdx ob.bids tag) { entry with order := o' }
          let q2 := heapFix entryLess q1 (findTagIdx ob.bids tag)
          let tr := trimDepth ob.cfg.maxDepth true q2 ob.orders
          ({ ob with bids := tr.1, orders := tr.2, seq := ob.seq + 1 }, none)
        else
          let q1 := ob.asks.set (findTagIdx ob.asks tag) { entry with order := o' }
          let q2 := heapFix entryLess q1 (findTagIdx ob.asks tag)
          let tr := trimDepth ob.cfg.maxDepth false q2 ob.orders
          ({ ob with asks := tr.1, orders := tr.2, seq := ob.seq + 1 }, none)
      match newQty with
      | some q =>
        if q ≤ 0 then (ob, some BookError.invalidQuantity)
        else
          match newPrice with
          | some p =>
            if p ≤ 0 ∨ ob.cfg.tickSize ≤ 0 ∨ p % ob.cfg.tickSize ≠ 0 then
              (writeBack (amendQty entry.order q), some BookError.tickAlignment)
            else finish { amendQty entry.order q with price := p }
          | none => finish (amendQty entry.order q)
      | none =>
        match newPrice with
        | some p =>
          if p ≤ 0 ∨ ob.cfg.tickSize ≤ 0 ∨ p % ob.cfg.tickSize ≠ 0 then
            (ob, some BookError.tickAlignment)
          else finish { entry.order with price := p }
        | none => finish entry.order

/-- `OrderBook.snapshotView` (`engine/orderbook.go`): copies of the two
queue tops. -/
def snapshotView (ob : OrderBook) : BookView :=
  { bestBid := (peek ob.bids).map (·.order)
    bestAsk := (peek ob.asks).map (·.order) }

/-- A state-changing client command (`requestAdd` / `requestCancel` /
`requestAmend`). -/
inductive Command where
  | submit (order : Order)
  | cancel (id : String)
  | amend (id : String) (newPrice newQty : Option Int)
deriving DecidableEq, Repr, Inhabited

/-- One iteration of `OrderBook.run` (`engine/orderbook.go`) for a
state-changing command: process it, and on success publish one
top-of-book view.  Returns the new state, the trades sent on the trade
channel, the views offered to the update channel, and the reply. -/
def step (now : Nat) (c : Command) (ob : OrderBook) :
    OrderBook × List MatchResult × List BookView × Option BookError :=
  match c with
  | Command.submit o =>
    let r := processAdd now o ob
    (r.1, r.2.1, if r.2.2 = none then [snapshotView r.1] else [], r.2.2)
  | Command.cancel id =>
    let r := processCancel id ob
    (r.1, [], if r.2 = none then [snapshotView r.1] else [], r.2)
  | Command.amend id p q =>
    let r := processAmend now id p q ob
    (r.1, [], if r.2 = none then [snapshotView r.1] else [], r.2)

/-- Serial execution of a command sequence by the worker loop; each command
carries the clock value observed while it runs. -/
def runCommands (cmds : List (Nat × Command)) (ob : OrderBook) : OrderBook :=
  match cmds with
  | [] => ob
  | (now, c) :: rest => runCommands rest (step now c ob).1

/-! ## The binary-heap invariant and its preservation

`container/heap` maintains a min-heap for the `Less` relation: no element
compares strictly below its parent.  `heapInvTo l n` restricts the
invariant to the prefix `[0, n)` (during `Pop`/`Remove` the last slot
holds the parked element about to be truncated). -/

/-- Heap order on the prefix `[0, n)`: no child is `less` than its parent. -/
def heapInvTo [Inhabited α] (less : α → α → Bool) (l : List α) (n : Nat) : Prop :=
  ∀ c, 1 ≤ c → c < n → less (lget l c) (lget l ((c - 1) / 2)) = false

/-- Heap order on the whole slice. -/
def heapInv [Inhabited α] (less : α → α → Bool) (l : List α) : Prop :=
  heapInvTo less l l.length

/-- The comparison is a strict weak order: asymmetric, transitive, and with
transitive complement.  `priceTimeQueue.Less` restricted to one side is of
this shape (lexicographic price / timestamp / sequence). -/
def IsSWO (less : α → α → Bool) : Prop :=
  (∀ a b, less a b = true → less b a = false) ∧
  (∀ a b c, less a b = true → less b c = true → less a c = true) ∧
  (∀ a b c, less a b = false → less b c = false → less a c = false)

/-- All entries of a queue rest on the same side. -/
def homog (β : Bool) (q : List Entry) : Prop := ∀ e ∈ q, e.isBid = β

/-- Loop states reachable by iterating `matchStep` with the same clock. -/
def MatchReaches (now : Nat) : LoopState → LoopState → Prop :=
  Relation.ReflTransGen (fun a b => ∃ t, matchStep now a = some (t, b))

/-- The incoming order prepared by an accepted submit, as the matching
loop first sees it. -/
def prepared (now : Nat) (order : Order) (ob : OrderBook) : Order :=
  { order with
    sequence := ob.seq + 1
    timestamp := now
    remaining := order.quantity }

/-- The loop state at the start of matching for a submit. -/
def submitLoopState (now : Nat) (order : Order) (ob : OrderBook) : LoopState :=
  ⟨prepared now order ob,
    if order.side = Side.Buy then ob.asks else ob.bids, ob.orders⟩

/-! ## Concrete scenario fixtures for witnesses -/

/-- A client order as submitted (engine-assigned fields zeroed). -/
def mkOrder (id : String) (sd : Side) (ty : OrderType) (p q : Int) : Order :=
  ⟨id, "S", sd, ty, p, q, 0, 0, 0⟩

def cfgS : OrderBookConfig := ⟨"S", 1, 10⟩

/-- Book with one resting ask `ask1` at 101 for 5. -/
def bookAsk1 : OrderBook :=
  (step 0 (Command.submit (mkOrder "ask1" Side.Sell OrderType.Limit 101 5))
    (NewOrderBook cfgS)).1

/-- Tick-2 book with one resting bid `b1` at 10 for 5. -/
def bookC3 : OrderBook :=
  (step 0 (Command.submit (mkOrder "b1" Side.Buy OrderType.Limit 10 5))
    (NewOrderBook ⟨"S", 2, 0⟩)).1

/-- The single state change an erroring command can leave behind: the
command was an amend carrying both a positive new quantity and a
tick-invalid new price, and the target entry's order has the quantity
update written through (quantity set, remaining capped) while everything
else is as before. -/
def amendWrite (ob : OrderBook) (tag : Nat) (entry : Entry) (q : Int) : OrderBook :=
  if entry.isBid then
    { ob with bids := ob.bids.set (findTagIdx ob.bids tag) { entry with order := amendQty entry.order q } }
  else
    { ob with asks := ob.asks.set (findTagIdx ob.asks tag) { entry with order := amendQty entry.order q } }

def amendQtyException (c : Command) (ob ob2 : OrderBook) (e : BookError) : Prop :=
  ∃ id p q tag entry, c = Command.amend id (some p) (some q) ∧
    mapLookup ob.orders id = some tag ∧ derefTag ob tag = some entry ∧
    0 < q ∧ (p ≤ 0 ∨ ob.cfg.tickSize ≤ 0 ∨ p % ob.cfg.tickSize ≠ 0) ∧
    e = BookError.tickAlignment ∧ ob2 = amendWrite ob tag entry q

/-! ## Well-formed queues: homogeneous side flags and heap order -/

def WFQueue (β : Bool) (q : List Entry) : Prop :=
  homog β q ∧ heapInv (sideLess β) q

/-! ### The matching loop preserves queue well-formedness; surviving
entries keep everything but `remaining` -/

/-- `e` is `f` with at most the `remaining` field rewritten (the only
in-place mutation the matching loop performs on a resting entry). -/
def keyEq (e f : Entry) : Prop :=
  e.tag = f.tag ∧ e.isBid = f.isBid ∧
    e.order = { f.order with remaining := e.order.remaining }

def bookAsks2 : OrderBook :=
  runCommands
    [(0, Command.submit (mkOrder "a1" Side.Sell OrderType.Limit 100 5)),
     (0, Command.submit (mkOrder "a2" Side.Sell OrderType.Limit 101 5))]
    (NewOrderBook cfgS)

/-- The loop state of a marketable buy over `bookAsks2`. -/
def sC7 : LoopState :=
  submitLoopState 1 (mkOrder "b" Side.Buy OrderType.Limit 102 3) bookAsks2

def tC7 : MatchResult :=
  ⟨"S", "b", "a1", 100, 3, 1⟩

def s2C7 : LoopState :=
  ⟨⟨"b", "S", Side.Buy, OrderType.Limit, 102, 3, 0, 1, 3⟩,
   [⟨0, ⟨"a1", "S", Side.Sell, OrderType.Limit, 100, 5, 2, 0, 1⟩, false⟩,
    ⟨1, ⟨"a2", "S", Side.Sell, OrderType.Limit, 101, 5, 5, 0, 2⟩, false⟩],
   [("a2", 1), ("a1", 0)]⟩

/-! ### The resting book invariant: well-formed sides, never crossed -/

/-- No resting bid prices at or above any resting ask. -/
def Uncrossed (bids asks : List Entry) : Prop :=
  ∀ b ∈ bids, ∀ a ∈ asks, b.order.price < a.order.price

def BookWF (ob : OrderBook) : Prop :=
  WFQueue true ob.bids ∧ WFQueue false ob.asks ∧ Uncrossed ob.bids ob.asks

def cmdsC4w : List (Nat × Command) :=
  [(0, Command.submit (mkOrder "b1" Side.Buy OrderType.Limit 5 2)),
   (1, Command.submit (mkOrder "a1" Side.Sell OrderType.Limit 10 2)),
   (2, Command.submit (mkOrder "b2" Side.Buy OrderType.Limit 7 1)),
   (3, Command.submit (mkOrder "m1" Side.Buy OrderType.Market 0 1)),
   (4, Command.cancel "b2")]

def bookC4w : OrderBook := runCommands cmdsC4w (NewOrderBook cfgS)

/-- Whether a command is an amend. -/
def isAmend : Command → Bool
  | Command.amend _ _ _ => true
  | _ => false

/-! ### Successful amends: the `finish` tail of `processAmend` -/

/-- The success tail of `processAmend` (`engine/orderbook.go`): write the
amended order back with a fresh sequence and timestamp, re-fix its heap
position, trim depth on its side. -/
def amendFinish (now : Nat) (ob : OrderBook) (tag : Nat) (entry : Entry)
    (o : Order) : OrderBook :=
  if entry.isBid then
    { ob with
        bids := (trimDepth ob.cfg.maxDepth true
          (heapFix entryLess
            (ob.bids.set (findTagIdx ob.bids tag)
              { entry with order := { o with sequence := ob.seq + 1, timestamp := now } })
            (findTagIdx ob.bids tag)) ob.orders).1
        orders := (trimDepth ob.cfg.maxDepth true
          (heapFix entryLess
            (ob.bids.set (findTagIdx ob.bids tag)
              { entry with order := { o with sequence := ob.seq + 1, timestamp := now } })
            (findTagIdx ob.bids tag)) ob.orders).2
        seq := ob.seq + 1 }
  else
    { ob with
        asks := (trimDepth ob.cfg.maxDepth false
          (heapFix entryLess
            (ob.asks.set (findTagIdx ob.asks tag)
              { entry with order := { o with sequence := ob.seq + 1, timestamp := now } })
            (findTagIdx ob.asks tag)) ob.orders).1
        orders := (trimDepth ob.cfg.maxDepth false
          (heapFix entryLess
            (ob.asks.set (findTagIdx ob.asks tag)
              { entry with order := { o with sequence := ob.seq + 1, timestamp := now } })
            (findTagIdx ob.asks tag)) ob.orders).2
        seq := ob.seq + 1 }

def entryC10 : Entry := ⟨0, ⟨"ask1", "S", Side.Sell, OrderType.Limit, 101, 5, 5, 0, 1⟩, false⟩

/-! ### Depth trimming: the evicted entry is the worst of its side -/

/-- `e` has strictly worse queue priority than `f` for eviction purposes
(`findWorstIndex`): worse price — lower for bids, higher for asks — or
equal price and strictly later timestamp. -/
def worseThan (isBid : Bool) (e f : Entry) : Prop :=
  (if isBid then e.order.price < f.order.price
   else e.order.price > f.order.price) ∨
  (e.order.price = f.order.price ∧ e.order.timestamp > f.order.timestamp)

/-- The body of `findWorstIndex`'s scan, folded over the first `n`
indices. -/
def worstFoldN (q : List Entry) (isBid : Bool) (n : Nat) : Nat :=
  (List.range n).foldl (fun worstIdx i =>
    if isBid then
      if (lget q i).order.price < (lget q worstIdx).order.price then i
      else if (lget q i).order.price = (lget q worstIdx).order.price ∧
          (lget q i).order.timestamp > (lget q worstIdx).order.timestamp then i
      else worstIdx
    else
      if (lget q i).order.price > (lget q worstIdx).order.price then i
      else if (lget q i).order.price = (lget q worstIdx).order.price ∧
          (lget q i).order.timestamp > (lget q worstIdx).order.timestamp then i
      else worstIdx) 0

/-- Both queues within the configured depth (trivial when the bound is
not positive). -/
def DepthOK (ob : OrderBook) : Prop :=
  0 < ob.cfg.maxDepth →
    (ob.bids.length : Int) ≤ ob.cfg.maxDepth ∧
    (ob.asks.length : Int) ≤ ob.cfg.maxDepth

/-! ### The orders index against the queues (C5) -/

/-- Allocation tags of a queue. -/
def tagsOf (l : List Entry) : List Nat := l.map (fun e => e.tag)

/-- Index/queue coupling for one queue `q`, with the sibling queue
`other` held fixed: tags are globally distinct and below the allocation
bound, every index binding points at a resting entry with that tag and
id, and every resting entry is indexed under its id at its tag. -/
structure LInv (other q : List Entry) (orders : OrdersMap) (bound : Nat) :
    Prop where
  nodup : (tagsOf (other ++ q)).Nodup
  fresh : ∀ e, e ∈ other ∨ e ∈ q → e.tag < bound
  lookup : ∀ id tag, mapLookup orders id = some tag →
    ∃ e, (e ∈ other ∨ e ∈ q) ∧ e.tag = tag ∧ e.order.id = id
  covers : ∀ e, e ∈ other ∨ e ∈ q → mapLookup orders e.order.id = some e.tag

/-- The book-level index invariant: homogeneous sides, and the orders
index coupled to the two queues with globally distinct, bounded tags. -/
def IndexInv (ob : OrderBook) : Prop :=
  homog true ob.bids ∧ homog false ob.asks ∧
    LInv ob.bids ob.asks ob.orders ob.nextTag

/-- A run never submits an order whose id is already bound in the orders
index (the spec leaves duplicate-id submits an open point; the code
overwrites the binding and orphans the old resting entry). -/
def goodRunB : List (Nat × Command) → OrderBook → Bool
  | [], _ => true
  | (now, c) :: rest, ob =>
    (match c with
     | Command.submit o => mapLookup ob.orders o.id == none
     | _ => true) && goodRunB rest (step now c ob).1

def bookC5w : OrderBook :=
  runCommands
    [(0, Command.submit (mkOrder "x" Side.Buy OrderType.Limit 10 1)),
     (1, Command.submit (mkOrder "y" Side.Sell OrderType.Limit 20 1))]
    (NewOrderBook cfgS)

/-! ## Theorems -/

theorem heapUpF_irrel [Inhabited α] (less : α → α → Bool) :
    ∀ (fuel1 fuel2 : Nat) (l : List α) (j : Nat), j < fuel1 → j < fuel2 →
      heapUpF less fuel1 l j = heapUpF less fuel2 l j := by
  intro fuel1
  induction fuel1 with
  | zero => intro fuel2 l j h1; omega
  | succ f1 ih =>
    intro fuel2 l j h1 h2
    cases fuel2 with
    | zero => omega
    | succ f2 =>
      rw [heapUpF, heapUpF]
      by_cases h : (j - 1) / 2 = j
      · rw [dif_pos h, dif_pos h]
      · rw [dif_neg h, dif_neg h]
        by_cases hl : less (lget l j) (lget l ((j - 1) / 2)) = true
        · rw [if_pos hl, if_pos hl]
          exact ih f2 _ _ (by omega) (by omega)
        · rw [if_neg hl, if_neg hl]

/-- The loop equation of `container/heap.up`. -/
theorem heapUp_eq [Inhabited α] (less : α → α → Bool) (l : List α) (j : Nat) :
    heapUp less l j =
      if h : (j - 1) / 2 = j then l
      else if less (lget l j) (lget l ((j - 1) / 2)) then
        heapUp less (lswap l ((j - 1) / 2) j) ((j - 1) / 2)
      else l := by
  rw [heapUp, heapUpF]
  by_cases h : (j - 1) / 2 = j
  · rw [dif_pos h, dif_pos h]
  · rw [dif_neg h, dif_neg h]
    by_cases hl : less (lget l j) (lget l ((j - 1) / 2)) = true
    · rw [if_pos hl, if_pos hl, heapUp]
      exact heapUpF_irrel less j _ _ _ (by omega) (by omega)
    · rw [if_neg hl, if_neg hl]

/-- Induction along the recursion of `container/heap.up`. -/
theorem heapUp_ind [Inhabited α] (less : α → α → Bool)
    (motive : List α → Nat → Prop)
    (case1 : ∀ (l : List α) (j : Nat), (j - 1) / 2 = j → motive l j)
    (case2 : ∀ (l : List α) (j : Nat), ¬(j - 1) / 2 = j →
      less (lget l j) (lget l ((j - 1) / 2)) = true →
      motive (lswap l ((j - 1) / 2) j) ((j - 1) / 2) → motive l j)
    (case3 : ∀ (l : List α) (j : Nat), ¬(j - 1) / 2 = j →
      ¬less (lget l j) (lget l ((j - 1) / 2)) = true → motive l j) :
    ∀ (l : List α) (j : Nat), motive l j := by
  intro l j
  induction j using Nat.strong_induction_on generalizing l with
  | _ j ih =>
    by_cases h : (j - 1) / 2 = j
    · exact case1 l j h
    · by_cases hl : less (lget l j) (lget l ((j - 1) / 2)) = true
      · exact case2 l j h hl (ih ((j - 1) / 2) (by omega) _)
      · exact case3 l j h hl

theorem pickChild_cases [Inhabited α] (less : α → α → Bool) (l : List α) (i n : Nat) :
    pickChild less l i n = 2 * i + 1 ∨
      (pickChild less l i n = 2 * i + 2 ∧ 2 * i + 2 < n) := by
  rw [pickChild]
  split
  · next h => exact Or.inr ⟨rfl, h.1⟩
  · exact Or.inl rfl

theorem heapDownAuxF_irrel [Inhabited α] (less : α → α → Bool) :
    ∀ (fuel1 fuel2 : Nat) (l : List α) (i n : Nat), n - i ≤ fuel1 →
      n - i ≤ fuel2 → heapDownAuxF less fuel1 l i n = heapDownAuxF less fuel2 l i n := by
  intro fuel1
  induction fuel1 with
  | zero =>
    intro fuel2 l i n h1 h2
    have hni : 2 * i + 1 ≥ n := by omega
    cases fuel2 with
    | zero => rfl
    | succ f2 =>
      rw [heapDownAuxF, heapDownAuxF, dif_pos hni]
  | succ f1 ih =>
    intro fuel2 l i n h1 h2
    cases fuel2 with
    | zero =>
      have hni : 2 * i + 1 ≥ n := by omega
      rw [heapDownAuxF, heapDownAuxF, dif_pos hni]
    | succ f2 =>
      rw [heapDownAuxF, heapDownAuxF]
      by_cases h : 2 * i + 1 ≥ n
      · rw [dif_pos h, dif_pos h]
      · rw [dif_neg h, dif_neg h]
        by_cases hl : less (lget l (pickChild less l i n)) (lget l i) = true
        · rw [if_pos hl, if_pos hl]
          have hk : i < pickChild less l i n ∧ pickChild less l i n < n := by
            rcases pickChild_cases less l i n with hc | ⟨hc, hcn⟩ <;> omega
          exact ih f2 _ _ n (by omega) (by omega)
        · rw [if_neg hl, if_neg hl]

/-- The loop equation of `container/heap.down`. -/
theorem heapDownAux_eq [Inhabited α] (less : α → α → Bool) (l : List α)
    (i n : Nat) :
    heapDownAux less l i n =
      if h1 : 2 * i + 1 ≥ n then (l, i)
      else
        if less (lget l (pickChild less l i n)) (lget l i) then
          heapDownAux less (lswap l i (pickChild less l i n))
            (pickChild less l i n) n
        else (l, i) := by
  have hwrap : ∀ (l' : List α) (i' : Nat),
      heapDownAux less l' i' n = heapDownAuxF less (n - i') l' i' n :=
    fun _ _ => rfl
  rw [hwrap l i]
  by_cases h : 2 * i + 1 ≥ n
  · rcases Nat.eq_zero_or_pos (n - i) with h0 | h0
    · rw [h0, dif_pos h]
      rfl
    · obtain ⟨f, hf⟩ : ∃ f, n - i = f + 1 := ⟨n - i - 1, by omega⟩
      rw [hf, heapDownAuxF, dif_pos h, dif_pos h]
  · obtain ⟨f, hf⟩ : ∃ f, n - i = f + 1 := ⟨n - i - 1, by omega⟩
    rw [hf, heapDownAuxF, dif_neg h, dif_neg h]
    by_cases hl : less (lget l (pickChild less l i n)) (lget l i) = true
    · rw [if_pos hl, if_pos hl, hwrap]
      have hk : i < pickChild less l i n ∧ pickChild less l i n < n := by
        rcases pickChild_cases less l i n with hc | ⟨hc, hcn⟩ <;> omega
      exact heapDownAuxF_irrel less _ _ _ _ n (by omega) (by omega)
    · rw [if_neg hl, if_neg hl]

/-- Induction along the recursion of `container/heap.down`. -/
theorem heapDownAux_ind [Inhabited α] (less : α → α → Bool)
    (motive : List α → Nat → Nat → Prop)
    (case1 : ∀ (l : List α) (i n : Nat), 2 * i + 1 ≥ n → motive l i n)
    (case2 : ∀ (l : List α) (i n : Nat), ¬2 * i + 1 ≥ n →
      less (lget l (pickChild less l i n)) (lget l i) = true →
      motive (lswap l i (pickChild less l i n)) (pickChild less l i n) n →
      motive l i n)
    (case3 : ∀ (l : List α) (i n : Nat), ¬2 * i + 1 ≥ n →
      ¬less (lget l (pickChild less l i n)) (lget l i) = true → motive l i n) :
    ∀ (l : List α) (i n : Nat), motive l i n := by
  intro l i n
  have key : ∀ (fuel : Nat) (l : List α) (i : Nat), n - i ≤ fuel →
      motive l i n := by
    intro fuel
    induction fuel with
    | zero =>
      intro l i h
      exact case1 l i n (by omega)
    | succ f ih =>
      intro l i h
      by_cases h1 : 2 * i + 1 ≥ n
      · exact case1 l i n h1
      · by_cases hl : less (lget l (pickChild less l i n)) (lget l i) = true
        · have hk : i < pickChild less l i n ∧ pickChild less l i n < n := by
            rcases pickChild_cases less l i n with hc | ⟨hc, hcn⟩ <;> omega
          exact case2 l i n h1 hl (ih _ _ (by omega))
        · exact case3 l i n h1 hl
  exact key (n - i) l i le_rfl

/-! ### Length preservation for heap operations -/

theorem lswap_length [Inhabited α] (l : List α) (i j : Nat) :
    (lswap l i j).length = l.length := by
  simp [lswap]

theorem heapUp_length [Inhabited α] (less : α → α → Bool) (l : List α) (j : Nat) :
    (heapUp less l j).length = l.length := by
  induction l, j using heapUp_ind less with
  | case1 l j h => rw [heapUp_eq]; simp [h]
  | case2 l j h hl ih =>
    rw [heapUp_eq]
    simp only [h, dite_false, hl, if_true]
    rw [ih, lswap_length]
  | case3 l j h hl =>
    rw [heapUp_eq]
    simp [h, hl]

theorem heapDownAux_length [Inhabited α] (less : α → α → Bool) (l : List α)
    (i n : Nat) : (heapDownAux less l i n).1.length = l.length := by
  induction l, i, n using heapDownAux_ind less with
  | case1 l i n h => rw [heapDownAux_eq]; simp [h]
  | case2 l i n h hl ih =>
    rw [heapDownAux_eq]
    simp only [h, dite_false, hl, if_true]
    rw [ih, lswap_length]
  | case3 l i n h hl =>
    rw [heapDownAux_eq]
    simp [h, hl]

theorem heapRemove_length [Inhabited α] (less : α → α → Bool) (l : List α)
    (i : Nat) : (heapRemove less l i).1.length = l.length - 1 := by
  rw [heapRemove]
  split
  · simp
  · dsimp only
    split <;>
      simp [List.length_dropLast, heapDownAux_length, heapUp_length, lswap_length]

theorem heapPop_length [Inhabited α] (less : α → α → Bool) (l : List α) :
    (heapPop less l).1.length = l.length - 1 := by
  rw [heapPop]
  simp [heapDownAux_length, lswap_length]

theorem heapFix_length [Inhabited α] (less : α → α → Bool) (l : List α) (i : Nat) :
    (heapFix less l i).length = l.length := by
  rw [heapFix]
  split <;> simp [heapDownAux_length, heapUp_length]

theorem trimDepthF_irrel :
    ∀ (fuel1 fuel2 : Nat) (maxDepth : Int) (isBid : Bool) (q : List Entry)
      (orders : OrdersMap), q.length ≤ fuel1 → q.length ≤ fuel2 →
      trimDepthF fuel1 maxDepth isBid q orders =
        trimDepthF fuel2 maxDepth isBid q orders := by
  intro fuel1
  induction fuel1 with
  | zero =>
    intro fuel2 maxDepth isBid q orders h1 h2
    have hq : q.length = 0 := by omega
    have hcond : ¬(maxDepth > 0 ∧ (q.length : Int) > maxDepth) := by
      rw [hq]
      rintro ⟨ha, hb⟩
      simp at hb
      omega
    cases fuel2 with
    | zero => rfl
    | succ f2 =>
      rw [trimDepthF, trimDepthF, if_neg hcond]
  | succ f1 ih =>
    intro fuel2 maxDepth isBid q orders h1 h2
    cases fuel2 with
    | zero =>
      have hq : q.length = 0 := by omega
      have hcond : ¬(maxDepth > 0 ∧ (q.length : Int) > maxDepth) := by
        rw [hq]
        rintro ⟨ha, hb⟩
        simp at hb
        omega
      rw [trimDepthF, trimDepthF, if_neg hcond]
    | succ f2 =>
      rw [trimDepthF, trimDepthF]
      by_cases hcond : maxDepth > 0 ∧ (q.length : Int) > maxDepth
      · rw [if_pos hcond, if_pos hcond]
        dsimp only
        by_cases hidx : findWorstIndex q isBid < 0
        · rw [if_pos hidx, if_pos hidx]
        · rw [if_neg hidx, if_neg hidx]
          have hlen : (heapRemove entryLess q
              (findWorstIndex q isBid).toNat).1.length = q.length - 1 :=
            heapRemove_length ..
          have hq : 0 < q.length := by
            by_contra hq0
            have : q.length = 0 := by omega
            rw [this] at hcond
            simp at hcond
            omega
          exact ih f2 maxDepth isBid _ _ (by omega) (by omega)
      · rw [if_neg hcond, if_neg hcond]

/-- The loop equation of `trimDepth`. -/
theorem trimDepth_eq (maxDepth : Int) (isBid : Bool) (q : List Entry)
    (orders : OrdersMap) :
    trimDepth maxDepth isBid q orders =
      if maxDepth > 0 ∧ (q.length : Int) > maxDepth then
        if findWorstIndex q isBid < 0 then (q, orders)
        else
          trimDepth maxDepth isBid
            (heapRemove entryLess q (findWorstIndex q isBid).toNat).1
            (mapErase orders
              (heapRemove entryLess q (findWorstIndex q isBid).toNat).2.order.id)
      else (q, orders) := by
  rw [trimDepth,
    trimDepthF_irrel q.length (q.length + 1) maxDepth isBid q orders le_rfl
      (by omega),
    trimDepthF]
  by_cases hcond : maxDepth > 0 ∧ (q.length : Int) > maxDepth
  · rw [if_pos hcond, if_pos hcond]
    dsimp only
    by_cases hidx : findWorstIndex q isBid < 0
    · rw [if_pos hidx, if_pos hidx]
    · rw [if_neg hidx, if_neg hidx, trimDepth]
      have hq : 0 < q.length := by
        by_contra hq0
        have h0 : q.length = 0 := by omega
        rw [h0] at hcond
        simp at hcond
        omega
      have hlen : (heapRemove entryLess q
          (findWorstIndex q isBid).toNat).1.length = q.length - 1 :=
        heapRemove_length ..
      exact trimDepthF_irrel _ _ maxDepth isBid _ _ (by omega) (by omega)
  · rw [if_neg hcond, if_neg hcond]

theorem matchStep_measure (now : Nat) (s : LoopState) (t : MatchResult)
    (s' : LoopState) (h : matchStep now s = some (t, s')) :
    s'.opposing.length < s.opposing.length ∨
      (s'.opposing.length = s.opposing.length ∧ s'.incoming.remaining = 0) := by
  rw [matchStep] at h
  split at h
  · next hrem =>
    split at h
    · exact absurd h (by simp)
    · next best hbest =>
      have hlen : 0 < s.opposing.length := by
        have hne : s.opposing ≠ [] := by
          intro he
          rw [he] at hbest
          simp [peek] at hbest
        exact List.length_pos.mpr hne
      split at h
      · exact absurd h (by simp)
      · dsimp only at h
        split at h
        · -- pop branch: the opposing queue shrinks
          injection h with hx
          injection hx with h1 h2
          subst h2
          left
          dsimp only
          rw [heapPop_length]
          simp only [List.length_set]
          omega
        · -- fix branch: the incoming order is fully filled
          next hne =>
          injection h with hx
          injection hx with h1 h2
          subst h2
          dsimp only at hne ⊢
          right
          constructor
          · rw [heapFix_length, List.length_set]
          · have hmin : min s.incoming.remaining best.order.remaining =
                s.incoming.remaining := by
              rcases min_cases s.incoming.remaining best.order.remaining with
                ⟨h1, _⟩ | ⟨h1, _⟩
              · exact h1
              · exfalso; apply hne; rw [h1]; ring
            rw [hmin]
            ring
  · exact absurd h (by simp)

theorem matchStep_none_of_filled (now : Nat) (s : LoopState)
    (h : s.incoming.remaining ≤ 0) : matchStep now s = none := by
  rw [matchStep, if_neg (by omega)]

theorem matchStep_shrink_or_stop (now : Nat) (s : LoopState) (t : MatchResult)
    (s' : LoopState) (h : matchStep now s = some (t, s')) :
    s'.opposing.length < s.opposing.length ∨ matchStep now s' = none := by
  rcases matchStep_measure now s t s' h with hlt | ⟨_, hz⟩
  · exact Or.inl hlt
  · exact Or.inr (matchStep_none_of_filled now s' (by omega))

theorem matchLoopF_stopped (now : Nat) (s : LoopState)
    (h : matchStep now s = none) :
    ∀ fuel, matchLoopF now fuel s = (s, []) := by
  intro fuel
  cases fuel with
  | zero => rfl
  | succ f =>
    rw [matchLoopF, h]

theorem matchLoopF_irrel (now : Nat) :
    ∀ (fuel1 fuel2 : Nat) (s : LoopState), s.opposing.length < fuel1 →
      s.opposing.length < fuel2 →
      matchLoopF now fuel1 s = matchLoopF now fuel2 s := by
  intro fuel1
  induction fuel1 with
  | zero => intro fuel2 s h1; omega
  | succ f1 ih =>
    intro fuel2 s h1 h2
    cases fuel2 with
    | zero => omega
    | succ f2 =>
      rw [matchLoopF, matchLoopF]
      cases hstep : matchStep now s with
      | none => rfl
      | some ts =>
        obtain ⟨t, s'⟩ := ts
        dsimp only
        rcases matchStep_shrink_or_stop now s t s' hstep with hlt | hstop
        · rw [ih f2 s' (by omega) (by omega)]
        · rw [matchLoopF_stopped now s' hstop, matchLoopF_stopped now s' hstop]

/-- The loop equation of the matching loop. -/
theorem matchLoop_eq (now : Nat) (s : LoopState) :
    matchLoop now s =
      match matchStep now s with
      | none => (s, [])
      | some (t, s') =>
        let r := matchLoop now s'
        (r.1, t :: r.2) := by
  have hwrap : ∀ s' : LoopState,
      matchLoop now s' = matchLoopF now (s'.opposing.length + 1) s' :=
    fun _ => rfl
  rw [hwrap s, matchLoopF]
  cases hstep : matchStep now s with
  | none => rfl
  | some ts =>
    obtain ⟨t, s'⟩ := ts
    dsimp only
    rw [hwrap s']
    rcases matchStep_shrink_or_stop now s t s' hstep with hlt | hstop
    · rw [matchLoopF_irrel now s.opposing.length (s'.opposing.length + 1) s'
        (by omega) (by omega)]
    · rw [matchLoopF_stopped now s' hstop, matchLoopF_stopped now s' hstop]

/-- Induction along the matching loop. -/
theorem matchLoop_ind (now : Nat) (motive : LoopState → Prop)
    (case1 : ∀ s, matchStep now s = none → motive s)
    (case2 : ∀ s t s', matchStep now s = some (t, s') → motive s' → motive s) :
    ∀ s, motive s := by
  have key : ∀ (n : Nat) (s : LoopState), s.opposing.length ≤ n → motive s := by
    intro n
    induction n with
    | zero =>
      intro s hs
      cases hstep : matchStep now s with
      | none => exact case1 s hstep
      | some ts =>
        obtain ⟨t, s'⟩ := ts
        rcases matchStep_shrink_or_stop now s t s' hstep with hlt | hstop
        · omega
        · exact case2 s t s' hstep (case1 s' hstop)
    | succ n ih =>
      intro s hs
      cases hstep : matchStep now s with
      | none => exact case1 s hstep
      | some ts =>
        obtain ⟨t, s'⟩ := ts
        rcases matchStep_shrink_or_stop now s t s' hstep with hlt | hstop
        · exact case2 s t s' hstep (ih s' (by omega))
        · exact case2 s t s' hstep (case1 s' hstop)
  exact fun s => key s.opposing.length s le_rfl

/-! ## Basic facts about `lget`, `lswap` and list surgery -/

theorem lget_eq_getElem [Inhabited α] (l : List α) (i : Nat) (h : i < l.length) :
    lget l i = l[i] := by
  rw [lget, List.getD_eq_getElem?_getD, List.getElem?_eq_getElem h]
  rfl

theorem lget_mem [Inhabited α] (l : List α) (i : Nat) (h : i < l.length) :
    lget l i ∈ l := by
  rw [lget_eq_getElem l i h]
  exact List.getElem_mem h

theorem lget_cons_succ [Inhabited α] (a : α) (l : List α) (i : Nat) :
    lget (a :: l) (i + 1) = lget l i := by
  simp [lget]

theorem lget_set_eq [Inhabited α] (l : List α) (i : Nat) (a : α)
    (h : i < l.length) : lget (l.set i a) i = a := by
  rw [lget_eq_getElem _ i (by simpa using h)]
  simp [List.getElem_set, h]

theorem lget_set_ne [Inhabited α] (l : List α) (i k : Nat) (a : α)
    (h : i ≠ k) : lget (l.set i a) k = lget l k := by
  by_cases hk : k < l.length
  · rw [lget_eq_getElem _ k (by simpa using hk), lget_eq_getElem _ k hk]
    simp [List.getElem_set, h]
  · rw [lget, lget, List.getD_eq_getElem?_getD, List.getD_eq_getElem?_getD]
    rw [List.getElem?_eq_none (by simpa using Nat.le_of_not_lt hk),
      List.getElem?_eq_none (by exact Nat.le_of_not_lt hk)]

theorem lget_lswap [Inhabited α] (l : List α) (i j k : Nat)
    (hi : i < l.length) (hj : j < l.length) :
    lget (lswap l i j) k =
      if k = j then lget l i else if k = i then lget l j else lget l k := by
  rw [lswap]
  by_cases hkj : k = j
  · subst hkj
    simp only [if_true]
    exact lget_set_eq _ k _ (by simpa using hj)
  · rw [lget_set_ne _ j k _ (fun h => hkj h.symm)]
    by_cases hki : k = i
    · subst hki
      simp only [hkj, if_false, if_true]
      exact lget_set_eq _ k _ hi
    · simp only [hkj, hki, if_false]
      exact lget_set_ne _ i k _ (fun h => hki h.symm)

theorem set_lget_self [Inhabited α] (l : List α) (i : Nat) :
    l.set i (lget l i) = l := by
  apply List.ext_getElem?
  intro k
  rw [List.getElem?_set]
  by_cases hik : i = k
  · subst hik
    by_cases hi : i < l.length
    · simp [hi, lget_eq_getElem l i hi, List.getElem?_eq_getElem hi]
    · simp [hi, List.getElem?_eq_none (Nat.le_of_not_lt hi)]
  · simp [hik]

theorem perm_lget_cons_eraseIdx [Inhabited α] :
    ∀ (l : List α) (i : Nat), i < l.length →
      l.Perm (lget l i :: l.eraseIdx i)
  | [], i, h => by simp at h
  | a :: l, 0, _ => by simp [lget]
  | a :: l, i + 1, h => by
    rw [lget_cons_succ, List.eraseIdx_cons_succ]
    have ih := perm_lget_cons_eraseIdx l i (by simpa using h)
    exact (ih.cons a).trans (List.Perm.swap _ _ _)

theorem set_lget_cons_perm [Inhabited α] :
    ∀ (l : List α) (i : Nat) (x : α), i < l.length →
      (lget l i :: l.set i x).Perm (x :: l)
  | [], i, x, h => by simp at h
  | a :: l, 0, x, _ => by
    simp only [lget, List.getD]
    simp [List.Perm.swap]
  | a :: l, i + 1, x, h => by
    rw [lget_cons_succ, List.set_cons_succ]
    have ih := set_lget_cons_perm l i x (by simpa using h)
    exact ((List.Perm.swap _ _ _).trans (ih.cons a)).trans (List.Perm.swap _ _ _)

theorem lswap_perm [Inhabited α] :
    ∀ (l : List α) (i j : Nat), i < l.length → j < l.length →
      (lswap l i j).Perm l := by
  intro l i j hi hj
  induction l generalizing i j with
  | nil => simp at hi
  | cons a t ih =>
    have hget0 : lget (a :: t) 0 = a := by simp [lget, List.getD]
    match i, j with
    | 0, 0 =>
      have heq : lswap (a :: t) 0 0 = a :: t := by
        rw [lswap, hget0]
        rfl
      rw [heq]
    | 0, j' + 1 =>
      rw [lswap]
      have hj' : j' < t.length := by simpa using hj
      have h0 : (a :: t).set 0 (lget (a :: t) (j' + 1)) = lget t j' :: t := by
        rw [lget_cons_succ]; rfl
      rw [h0, hget0]
      have h1 : (lget t j' :: t).set (j' + 1) a = lget t j' :: t.set j' a := rfl
      rw [h1]
      exact set_lget_cons_perm t j' a hj'
    | i' + 1, 0 =>
      rw [lswap]
      have hi' : i' < t.length := by simpa using hi
      have h0 : (a :: t).set (i' + 1) (lget (a :: t) 0) = a :: t.set i' a := by
        rw [hget0]; rfl
      rw [h0, lget_cons_succ]
      have h1 : (a :: t.set i' a).set 0 (lget t i') = lget t i' :: t.set i' a := rfl
      rw [h1]
      exact set_lget_cons_perm t i' a hi'
    | i' + 1, j' + 1 =>
      have hswap : lswap (a :: t) (i' + 1) (j' + 1) = a :: lswap t i' j' := by
        rw [lswap, lswap, lget_cons_succ, lget_cons_succ]
        rfl
      rw [hswap]
      exact (ih i' j' (by simpa using hi) (by simpa using hj)).cons a

theorem lget_dropLast [Inhabited α] (l : List α) (k : Nat)
    (h : k < l.length - 1) : lget l.dropLast k = lget l k := by
  rw [lget_eq_getElem _ k (by simpa using h), lget_eq_getElem _ k (by omega)]
  rw [List.getElem_dropLast]

theorem dropLast_append_lget [Inhabited α] (l : List α) (h : l ≠ []) :
    l.dropLast ++ [lget l (l.length - 1)] = l := by
  have h1 : lget l (l.length - 1) = l.getLast h := by
    rw [List.getLast_eq_getElem]
    exact lget_eq_getElem _ _ (by
      have := List.length_pos.mpr h
      omega)
  rw [h1]
  exact List.dropLast_append_getLast h

/-! ## Heap operations permute their input and do not touch the parked
suffix -/

theorem heapUp_perm [Inhabited α] (less : α → α → Bool) :
    ∀ (l : List α) (j : Nat), j < l.length → (heapUp less l j).Perm l := by
  intro l j
  induction l, j using heapUp_ind less with
  | case1 l j h =>
    intro hj
    rw [heapUp_eq]
    simp [h]
  | case2 l j h hl ih =>
    intro hj
    rw [heapUp_eq]
    simp only [h, dite_false, hl, if_true]
    have hp : (j - 1) / 2 < l.length := by omega
    have h1 := ih (by rw [lswap_length]; omega)
    exact h1.trans (lswap_perm l _ j hp hj)
  | case3 l j h hl =>
    intro hj
    rw [heapUp_eq]
    simp [h, hl]

theorem heapUp_lget_ge [Inhabited α] (less : α → α → Bool) (n : Nat) :
    ∀ (l : List α) (j : Nat), n ≤ l.length → j < n → ∀ k, n ≤ k →
      lget (heapUp less l j) k = lget l k := by
  intro l j
  induction l, j using heapUp_ind less with
  | case1 l j h =>
    intro hn hj k hk
    rw [heapUp_eq]
    simp [h]
  | case2 l j h hl ih =>
    intro hn hj k hk
    rw [heapUp_eq]
    simp only [h, dite_false, hl, if_true]
    have hp : (j - 1) / 2 < l.length := by omega
    have hjl : j < l.length := by omega
    rw [ih (by rw [lswap_length]; omega) (by omega) k hk]
    rw [lget_lswap l _ j k hp hjl]
    have hkj : k ≠ j := by omega
    have hkp : k ≠ (j - 1) / 2 := by omega
    simp [hkj, hkp]
  | case3 l j h hl =>
    intro hn hj k hk
    rw [heapUp_eq]
    simp [h, hl]

theorem heapDownAux_perm [Inhabited α] (less : α → α → Bool) :
    ∀ (l : List α) (i n : Nat), n ≤ l.length →
      (heapDownAux less l i n).1.Perm l := by
  intro l i n
  induction l, i, n using heapDownAux_ind less with
  | case1 l i n h =>
    intro hn
    rw [heapDownAux_eq]
    simp [h]
  | case2 l i n h hl ih =>
    intro hn
    rw [heapDownAux_eq]
    simp only [h, dite_false, hl, if_true]
    have hil : i < l.length := by omega
    have hpk : pickChild less l i n < l.length := by
      rcases pickChild_cases less l i n with hc | ⟨hc, hcn⟩ <;> omega
    have h1 := ih (by rw [lswap_length]; omega)
    exact h1.trans (lswap_perm l i _ hil hpk)
  | case3 l i n h hl =>
    intro hn
    rw [heapDownAux_eq]
    simp [h, hl]

theorem heapDownAux_lget_ge [Inhabited α] (less : α → α → Bool) :
    ∀ (l : List α) (i n : Nat), n ≤ l.length → ∀ k, n ≤ k →
      lget (heapDownAux less l i n).1 k = lget l k := by
  intro l i n
  induction l, i, n using heapDownAux_ind less with
  | case1 l i n h =>
    intro hn k hk
    rw [heapDownAux_eq]
    simp [h]
  | case2 l i n h hl ih =>
    intro hn k hk
    rw [heapDownAux_eq]
    simp only [h, dite_false, hl, if_true]
    have hil : i < l.length := by omega
    have hpk : pickChild less l i n < l.length := by
      rcases pickChild_cases less l i n with hc | ⟨hc, hcn⟩ <;> omega
    rw [ih (by rw [lswap_length]; omega) k hk]
    rw [lget_lswap l i _ k hil hpk]
    have hki : k ≠ i := by omega
    have hkp : k ≠ pickChild less l i n := by
      rcases pickChild_cases less l i n with hc | ⟨hc, hcn⟩ <;> omega
    simp [hki, hkp]
  | case3 l i n h hl =>
    intro hn k hk
    rw [heapDownAux_eq]
    simp [h, hl]

theorem heapDownAux_snd_ge [Inhabited α] (less : α → α → Bool) :
    ∀ (l : List α) (i n : Nat), i ≤ (heapDownAux less l i n).2 := by
  intro l i n
  induction l, i, n using heapDownAux_ind less with
  | case1 l i n h =>
    rw [heapDownAux_eq]
    simp [h]
  | case2 l i n h hl ih =>
    rw [heapDownAux_eq]
    simp only [h, dite_false, hl, if_true]
    have : pickChild less l i n > i := by
      rcases pickChild_cases less l i n with hc | ⟨hc, hcn⟩ <;> omega
    omega
  | case3 l i n h hl =>
    rw [heapDownAux_eq]
    simp [h, hl]

theorem heapDownAux_snd_lt [Inhabited α] (less : α → α → Bool) :
    ∀ (l : List α) (i n : Nat), i < n → (heapDownAux less l i n).2 < n := by
  intro l i n
  induction l, i, n using heapDownAux_ind less with
  | case1 l i n h =>
    intro hi
    rw [heapDownAux_eq]
    simp [h]
    omega
  | case2 l i n h hl ih =>
    intro hi
    rw [heapDownAux_eq]
    simp only [h, dite_false, hl, if_true]
    exact ih (by rcases pickChild_cases less l i n with hc | ⟨hc, hcn⟩ <;> omega)
  | case3 l i n h hl =>
    intro hi
    rw [heapDownAux_eq]
    simp [h, hl]
    omega

theorem heapDownAux_no_move [Inhabited α] (less : α → α → Bool) :
    ∀ (l : List α) (i n : Nat), (heapDownAux less l i n).2 = i →
      (heapDownAux less l i n).1 = l := by
  intro l i n
  induction l, i, n using heapDownAux_ind less with
  | case1 l i n h =>
    intro _
    rw [heapDownAux_eq]
    simp [h]
  | case2 l i n h hl ih =>
    intro hf
    exfalso
    rw [heapDownAux_eq] at hf
    simp only [h, dite_false, hl, if_true] at hf
    have h1 := heapDownAux_snd_ge less
      (lswap l i (pickChild less l i n)) (pickChild less l i n) n
    have h2 : pickChild less l i n > i := by
      rcases pickChild_cases less l i n with hc | ⟨hc, hcn⟩ <;> omega
    omega
  | case3 l i n h hl =>
    intro _
    rw [heapDownAux_eq]
    simp [h, hl]

theorem heapPush_perm [Inhabited α] (less : α → α → Bool) (l : List α) (x : α) :
    (heapPush less l x).Perm (x :: l) := by
  rw [heapPush]
  have h1 := heapUp_perm less (l ++ [x]) l.length (by simp)
  exact h1.trans (List.perm_append_singleton x l)

theorem head_eq_lget_zero [Inhabited α] (l : List α) (h : l ≠ []) :
    l = lget l 0 :: l.tail := by
  rcases l with _ | ⟨a, t⟩
  · exact absurd rfl h
  · simp [lget, List.getD]

theorem heapPop_snd [Inhabited α] (less : α → α → Bool) (l : List α)
    (h : l ≠ []) : (heapPop less l).2 = lget l 0 := by
  rw [heapPop]
  have hlen : 0 < l.length := List.length_pos.mpr h
  have h2 := heapDownAux_lget_ge less (lswap l 0 (l.length - 1)) 0 (l.length - 1)
    (by rw [lswap_length]; omega) (l.length - 1) le_rfl
  dsimp only
  rw [h2, lget_lswap l 0 (l.length - 1) (l.length - 1) (by omega) (by omega)]
  simp

theorem heapPop_perm [Inhabited α] (less : α → α → Bool) (l : List α)
    (h : l ≠ []) : (heapPop less l).1.Perm l.tail := by
  have hlen : 0 < l.length := List.length_pos.mpr h
  have hswl : (lswap l 0 (l.length - 1)).length = l.length := lswap_length ..
  set l2 := (heapDownAux less (lswap l 0 (l.length - 1)) 0 (l.length - 1)).1 with hl2
  have hlen2 : l2.length = l.length := by
    rw [hl2, heapDownAux_length, hswl]
  have hne2 : l2 ≠ [] := by
    intro he
    rw [he] at hlen2
    simp at hlen2
    omega
  have hsplit : l2.dropLast ++ [lget l2 (l2.length - 1)] = l2 :=
    dropLast_append_lget l2 hne2
  have hval : lget l2 (l.length - 1) = lget l 0 := by
    rw [hl2, heapDownAux_lget_ge less _ 0 (l.length - 1) (by omega) _ le_rfl]
    rw [lget_lswap l 0 (l.length - 1) (l.length - 1) (by omega) (by omega)]
    simp
  have hperm2 : l2.Perm l := by
    rw [hl2]
    exact (heapDownAux_perm less _ 0 (l.length - 1) (by omega)).trans
      (lswap_perm l 0 (l.length - 1) (by omega) (by omega))
  -- (dropLast ++ [root]) ~ l = root :: tail, hence dropLast ~ tail
  have hx : (l2.dropLast ++ [lget l 0]).Perm (lget l 0 :: l.tail) := by
    rw [← hlen2] at hval
    rw [hval] at hsplit
    rw [hsplit]
    exact hperm2.trans (by rw [← head_eq_lget_zero l h])
  have hy : (lget l 0 :: l2.dropLast).Perm (lget l 0 :: l.tail) :=
    (List.perm_append_singleton _ _).symm.trans hx
  have := hy.cons_inv
  rw [heapPop]
  exact this

theorem heapFix_perm [Inhabited α] (less : α → α → Bool) (l : List α) (i : Nat)
    (hi : i < l.length) : (heapFix less l i).Perm l := by
  rw [heapFix]
  have hperm := heapDownAux_perm less l i l.length le_rfl
  split
  · exact hperm
  · have hlen : (heapDownAux less l i l.length).1.length = l.length :=
      heapDownAux_length ..
    exact (heapUp_perm less _ i (by omega)).trans hperm

theorem eraseIdx_last [Inhabited α] (l : List α) :
    l.eraseIdx (l.length - 1) = l.dropLast := by
  rw [List.eraseIdx_eq_take_drop_succ, List.dropLast_eq_take]
  rcases Nat.eq_zero_or_pos l.length with h | h
  · simp [List.take_of_length_le, h, List.drop_of_length_le]
  · rw [Nat.sub_add_cancel h, List.drop_length]
    simp

theorem heapRemove_snd [Inhabited α] (less : α → α → Bool) (l : List α) (i : Nat)
    (hi : i < l.length) : (heapRemove less l i).2 = lget l i := by
  rw [heapRemove]
  split
  · rfl
  · next hne =>
    dsimp only
    have hin : i < l.length - 1 := by omega
    have hswl : (lswap l i (l.length - 1)).length = l.length := lswap_length ..
    have hd := heapDownAux_lget_ge less (lswap l i (l.length - 1)) i
      (l.length - 1) (by omega) (l.length - 1) le_rfl
    have hval : lget (lswap l i (l.length - 1)) (l.length - 1) = lget l i := by
      rw [lget_lswap l i (l.length - 1) (l.length - 1) hi (by omega)]
      simp
    split
    · rw [hd, hval]
    · rw [heapUp_lget_ge less (l.length - 1) _ i
        (by rw [heapDownAux_length, hswl]; omega) hin _ le_rfl, hd, hval]

theorem heapRemove_perm [Inhabited α] (less : α → α → Bool) (l : List α) (i : Nat)
    (hi : i < l.length) : (heapRemove less l i).1.Perm (l.eraseIdx i) := by
  rw [heapRemove]
  split
  · next he =>
    rw [he, eraseIdx_last]
  · next hne =>
    dsimp only
    have hin : i < l.length - 1 := by omega
    have hswl : (lswap l i (l.length - 1)).length = l.length := lswap_length ..
    -- the final slice before truncation
    set r := heapDownAux less (lswap l i (l.length - 1)) i (l.length - 1) with hr
    have hrlen : r.1.length = l.length := by
      rw [hr, heapDownAux_length, hswl]
    have hrperm : r.1.Perm l := by
      rw [hr]
      exact (heapDownAux_perm less _ i (l.length - 1) (by omega)).trans
        (lswap_perm l i (l.length - 1) hi (by omega))
    have hrval : lget r.1 (l.length - 1) = lget l i := by
      rw [hr, heapDownAux_lget_ge less _ i (l.length - 1) (by omega) _ le_rfl]
      rw [lget_lswap l i (l.length - 1) (l.length - 1) hi (by omega)]
      simp
    have key : ∀ (l3 : List α), l3.length = l.length →
        l3.Perm l → lget l3 (l.length - 1) = lget l i →
        l3.dropLast.Perm (l.eraseIdx i) := by
      intro l3 h3len h3perm h3val
      have h3ne : l3 ≠ [] := by
        intro he
        rw [he] at h3len
        simp at h3len
        omega
      have hsplit : l3.dropLast ++ [lget l i] = l3 := by
        rw [← h3val, ← h3len]
        exact dropLast_append_lget l3 h3ne
      have hperm0 : (l3.dropLast ++ [lget l i]).Perm (lget l i :: l.eraseIdx i) := by
        rw [hsplit]
        exact h3perm.trans (perm_lget_cons_eraseIdx l i hi)
      have := ((List.perm_append_singleton _ _).symm.trans hperm0).cons_inv
      exact this
    split
    · exact key r.1 hrlen hrperm hrval
    · have huplen : (heapUp less r.1 i).length = l.length := by
        rw [heapUp_length, hrlen]
      exact key (heapUp less r.1 i) huplen
        ((heapUp_perm less r.1 i (by omega)).trans hrperm)
        (by rw [heapUp_lget_ge less (l.length - 1) r.1 i (by omega) hin _ le_rfl,
          hrval])

theorem IsSWO.irrefl {less : α → α → Bool} (hw : IsSWO less) (a : α) :
    less a a = false := by
  cases hb : less a a with
  | true => exact absurd (hw.1 a a hb) (by simp [hb])
  | false => rfl

/-- If `s` is not below `v` and `x` is strictly below `v`, then `s` is not
below `x` (else transitivity would put `s` below `v`). -/
theorem IsSWO.not_lt_of_ge_of_lt {less : α → α → Bool} (hw : IsSWO less)
    {s v x : α} (h1 : less s v = false) (h2 : less x v = true) :
    less s x = false := by
  cases hb : less s x with
  | false => rfl
  | true => exact absurd (hw.2.1 s x v hb h2) (by simp [h1])

/-- If `a` is strictly below `b` and `a` is not below `x`, then `b` is not
below `x`. -/
theorem IsSWO.not_lt_of_lt_of_ge {less : α → α → Bool} (hw : IsSWO less)
    {a b x : α} (h1 : less a b = true) (h2 : less a x = false) :
    less b x = false := by
  cases hb : less b x with
  | false => rfl
  | true => exact absurd (hw.2.1 a b x h1 hb) (by simp [h2])

theorem lget_append_left [Inhabited α] (l l' : List α) (c : Nat)
    (h : c < l.length) : lget (l ++ l') c = lget l c := by
  rw [lget_eq_getElem _ c (by simp; omega), lget_eq_getElem _ c h]
  exact List.getElem_append_left ..

theorem lget_append_right_self [Inhabited α] (l : List α) (x : α) :
    lget (l ++ [x]) l.length = x := by
  rw [lget_eq_getElem _ _ (by simp)]
  simp

/-- Sift-up correctness: if every parent-child pair except the edge from
`j` up to its parent is ordered, and `j`'s children (if any) sit at or
below `j`'s parent, then `up` restores the full heap order on `[0, n)`. -/
theorem heapUp_heapInvTo [Inhabited α] {less : α → α → Bool} (hw : IsSWO less)
    (n : Nat) :
    ∀ (l : List α) (j : Nat), n ≤ l.length → j < n →
      (∀ c, 1 ≤ c → c < n → c ≠ j →
        less (lget l c) (lget l ((c - 1) / 2)) = false) →
      (1 ≤ j → ∀ c, c < n → (c = 2 * j + 1 ∨ c = 2 * j + 2) →
        less (lget l c) (lget l ((j - 1) / 2)) = false) →
      heapInvTo less (heapUp less l j) n := by
  intro l j
  induction l, j using heapUp_ind less with
  | case1 l j h =>
    intro hn hj h1 h3
    rw [heapUp_eq]
    simp only [h, dite_true]
    intro c hc1 hcn
    exact h1 c hc1 hcn (by omega)
  | case2 l j h hl ih =>
    intro hn hj h1 h3
    have hj1 : 1 ≤ j := by omega
    have hpj : (j - 1) / 2 < j := by omega
    have hjl : j < l.length := by omega
    have hpl : (j - 1) / 2 < l.length := by omega
    rw [heapUp_eq]
    simp only [h, dite_false, hl, if_true]
    have hval : ∀ k, lget (lswap l ((j - 1) / 2) j) k =
        if k = j then lget l ((j - 1) / 2)
        else if k = (j - 1) / 2 then lget l j else lget l k :=
      fun k => lget_lswap l _ j k hpl hjl
    have vj : lget (lswap l ((j - 1) / 2) j) j = lget l ((j - 1) / 2) := by
      rw [hval j, if_pos rfl]
    have vp : lget (lswap l ((j - 1) / 2) j) ((j - 1) / 2) = lget l j := by
      rw [hval _, if_neg (by omega), if_pos rfl]
    have vother : ∀ k, k ≠ j → k ≠ (j - 1) / 2 →
        lget (lswap l ((j - 1) / 2) j) k = lget l k := by
      intro k hk1 hk2
      rw [hval k, if_neg hk1, if_neg hk2]
    apply ih (by rw [lswap_length]; omega) (by omega)
    · -- edges except the parent position's own up-edge
      intro c hc1 hcn hcp
      by_cases hcj : c = j
      · -- the swapped edge `j → parent j`, now ordered by asymmetry
        subst hcj
        rw [vj, vp]
        exact hw.1 _ _ hl
      · by_cases hparj : (c - 1) / 2 = j
        · -- `c` is a child of `j`; its parent slot now holds the old parent
          have hcc : c = 2 * j + 1 ∨ c = 2 * j + 2 := by omega
          rw [vother c hcj (by omega), hparj, vj]
          exact h3 hj1 c hcn hcc
        · by_cases hcsib : (c - 1) / 2 = (j - 1) / 2
          · -- `c` hangs off the parent position, which now holds `l[j]`
            rw [vother c hcj hcp, hcsib, vp]
            have hold : less (lget l c) (lget l ((c - 1) / 2)) = false :=
              h1 c hc1 hcn hcj
            rw [hcsib] at hold
            exact hw.not_lt_of_ge_of_lt hold hl
          · -- untouched edge
            rw [vother c hcj hcp, vother _ hparj hcsib]
            exact h1 c hc1 hcn hcj
    · -- children of the parent position sit at or below the grandparent
      intro hp1 c hcn hcc
      have hgpj : ((j - 1) / 2 - 1) / 2 ≠ j := by omega
      have hgpp : ((j - 1) / 2 - 1) / 2 ≠ (j - 1) / 2 := by omega
      rw [vother _ hgpj hgpp]
      by_cases hcj : c = j
      · subst hcj
        rw [vj]
        exact h1 _ hp1 (by omega) (by omega)
      · have hcpne : c ≠ (j - 1) / 2 := by omega
        rw [vother c hcj hcpne]
        have hold : less (lget l c) (lget l ((c - 1) / 2)) = false :=
          h1 c (by omega) hcn hcj
        have hparc : (c - 1) / 2 = (j - 1) / 2 := by omega
        rw [hparc] at hold
        have hpold : less (lget l ((j - 1) / 2))
            (lget l (((j - 1) / 2 - 1) / 2)) = false :=
          h1 ((j - 1) / 2) hp1 (by omega) (by omega)
        exact hw.2.2 _ _ _ hold hpold
  | case3 l j h hl =>
    intro hn hj h1 h3
    rw [heapUp_eq]
    simp only [h, dite_false, hl, if_false]
    intro c hc1 hcn
    by_cases hcj : c = j
    · subst hcj
      simpa using hl
    · exact h1 c hc1 hcn hcj

theorem pickChild_right [Inhabited α] (less : α → α → Bool) (l : List α)
    (i n : Nat) (h : pickChild less l i n = 2 * i + 2) :
    less (lget l (2 * i + 2)) (lget l (2 * i + 1)) = true := by
  rw [pickChild] at h
  split at h
  · next hc => exact hc.2
  · omega

theorem pickChild_left [Inhabited α] (less : α → α → Bool) (l : List α)
    (i n : Nat) (h : pickChild less l i n = 2 * i + 1) (h2 : 2 * i + 2 < n) :
    less (lget l (2 * i + 2)) (lget l (2 * i + 1)) = false := by
  rw [pickChild] at h
  split at h
  · omega
  · next hc =>
    cases hb : less (lget l (2 * i + 2)) (lget l (2 * i + 1)) with
    | false => rfl
    | true => exact absurd ⟨h2, hb⟩ hc

/-- Sift-down correctness: starting from a slice ordered everywhere except
on the edges incident to `i`, with `i`'s children (if any) at or below
`i`'s parent: if `down` does not move, `i`'s children are at or below
`l[i]` (and the slice is unchanged); if it moves, the heap order on
`[0, n)` holds afterwards. -/
theorem heapDownAux_spec [Inhabited α] {less : α → α → Bool} (hw : IsSWO less) :
    ∀ (l : List α) (i n : Nat), n ≤ l.length → i < n →
      (∀ c, 1 ≤ c → c < n → c ≠ i → (c - 1) / 2 ≠ i →
        less (lget l c) (lget l ((c - 1) / 2)) = false) →
      (1 ≤ i → ∀ c, c < n → (c = 2 * i + 1 ∨ c = 2 * i + 2) →
        less (lget l c) (lget l ((i - 1) / 2)) = false) →
      (((heapDownAux less l i n).2 = i →
          ∀ c, c < n → (c = 2 * i + 1 ∨ c = 2 * i + 2) →
            less (lget l c) (lget l i) = false) ∧
        (i < (heapDownAux less l i n).2 →
          heapInvTo less (heapDownAux less l i n).1 n)) := by
  intro l i n
  induction l, i, n using heapDownAux_ind less with
  | case1 l i n h =>
    intro hn hi h1 h2
    have heq : heapDownAux less l i n = (l, i) := by
      rw [heapDownAux_eq]
      simp [h]
    rw [heq]
    constructor
    · intro _ c hcn hcc
      omega
    · intro hf
      simp at hf
  | case2 l i n h hl ih =>
    intro hn hi h1 h2
    have hkc := pickChild_cases less l i n
    have hkn : pickChild less l i n < n := by omega
    have hki : i < pickChild less l i n := by omega
    have hil : i < l.length := by omega
    have hkl : pickChild less l i n < l.length := by omega
    have heq : heapDownAux less l i n =
        heapDownAux less (lswap l i (pickChild less l i n))
          (pickChild less l i n) n := by
      rw [heapDownAux_eq]
      simp [h, hl]
    have hval : ∀ m, lget (lswap l i (pickChild less l i n)) m =
        if m = pickChild less l i n then lget l i
        else if m = i then lget l (pickChild less l i n) else lget l m :=
      fun m => lget_lswap l i _ m hil hkl
    have vk : lget (lswap l i (pickChild less l i n)) (pickChild less l i n) =
        lget l i := by
      rw [hval _, if_pos rfl]
    have vi : lget (lswap l i (pickChild less l i n)) i =
        lget l (pickChild less l i n) := by
      rw [hval i, if_neg (by omega), if_pos rfl]
    have vother : ∀ m, m ≠ i → m ≠ pickChild less l i n →
        lget (lswap l i (pickChild less l i n)) m = lget l m := by
      intro m hm1 hm2
      rw [hval m, if_neg hm2, if_neg hm1]
    -- hypotheses for the recursive call at the chosen child
    have newh1 : ∀ c, 1 ≤ c → c < n → c ≠ pickChild less l i n →
        (c - 1) / 2 ≠ pickChild less l i n →
        less (lget (lswap l i (pickChild less l i n)) c)
          (lget (lswap l i (pickChild less l i n)) ((c - 1) / 2)) = false := by
      intro c hc1 hcn hck hpck
      by_cases hci : c = i
      · -- the vacated slot now holds the chosen child's value
        have hi1 : 1 ≤ i := by omega
        have hpi : (c - 1) / 2 ≠ i := by omega
        rw [hci, vi, vother _ (by omega) (by omega)]
        exact h2 (by omega) _ hkn (by omega)
      · by_cases hpci : (c - 1) / 2 = i
        · -- the sibling of the chosen child
          rw [vother c hci hck, hpci, vi]
          rcases hkc with hk | ⟨hk, hk2⟩
          · have hc2 : c = 2 * i + 2 := by omega
            rw [hc2, hk]
            exact pickChild_left less l i n hk (by omega)
          · have hc2 : c = 2 * i + 1 := by omega
            rw [hc2, hk]
            exact hw.1 _ _ (pickChild_right less l i n hk)
        · -- untouched edge
          rw [vother c hci hck, vother _ hpci hpck]
          exact h1 c hc1 hcn hci hpci
    have newh2 : 1 ≤ pickChild less l i n → ∀ c, c < n →
        (c = 2 * pickChild less l i n + 1 ∨ c = 2 * pickChild less l i n + 2) →
        less (lget (lswap l i (pickChild less l i n)) c)
          (lget (lswap l i (pickChild less l i n))
            ((pickChild less l i n - 1) / 2)) = false := by
      intro _ c hcn hcc
      have hparent : (pickChild less l i n - 1) / 2 = i := by omega
      rw [hparent, vi, vother c (by omega) (by omega)]
      have := h1 c (by omega) hcn (by omega) (by omega)
      have hpc : (c - 1) / 2 = pickChild less l i n := by omega
      rw [hpc] at this
      exact this
    have ihspec := ih (by rw [lswap_length]; omega) hkn newh1 newh2
    have hge := heapDownAux_snd_ge less (lswap l i (pickChild less l i n))
      (pickChild less l i n) n
    constructor
    · intro hf
      exfalso
      rw [heq] at hf
      omega
    · intro _
      rw [heq]
      rcases Nat.lt_or_ge (pickChild less l i n)
        (heapDownAux less (lswap l i (pickChild less l i n))
          (pickChild less l i n) n).2 with hlt | hge2
      · exact ihspec.2 hlt
      · have hfi : (heapDownAux less (lswap l i (pickChild less l i n))
            (pickChild less l i n) n).2 = pickChild less l i n := by omega
        have hnomv := heapDownAux_no_move less _ _ n hfi
        rw [hnomv]
        have hch := ihspec.1 hfi
        intro c hc1 hcn
        by_cases hck : c = pickChild less l i n
        · -- the sunk element is now ordered under the promoted child
          have hpar : (c - 1) / 2 = i := by omega
          rw [hpar, hck, vk, vi]
          exact hw.1 _ _ hl
        · by_cases hpck : (c - 1) / 2 = pickChild less l i n
          · rw [hpck]
            exact hch c hcn (by omega)
          · exact newh1 c hc1 hcn hck hpck
  | case3 l i n h hl =>
    intro hn hi h1 h2
    have hkc := pickChild_cases less l i n
    have heq : heapDownAux less l i n = (l, i) := by
      rw [heapDownAux_eq]
      simp [h, hl]
    rw [heq]
    constructor
    · intro _ c hcn hcc
      by_cases hck : c = pickChild less l i n
      · rw [hck]
        simpa using hl
      · rcases hkc with hk | ⟨hk, hk2⟩
        · -- left child chosen, `c` is the right child
          have hc2 : c = 2 * i + 2 := by omega
          have hleft := pickChild_left less l i n hk (by omega)
          rw [hk] at hl
          simp only [Bool.not_eq_true] at hl
          rw [hc2]
          exact hw.2.2 _ _ _ hleft hl
        · -- right child chosen, `c` is the left child
          have hc2 : c = 2 * i + 1 := by omega
          have hright := pickChild_right less l i n hk
          rw [hk] at hl
          simp only [Bool.not_eq_true] at hl
          rw [hc2]
          exact hw.not_lt_of_lt_of_ge hright hl
    · intro hf
      simp at hf

/-- Truncating the last slot of a slice that is heap-ordered on the
shortened prefix leaves a heap. -/
theorem heapInv_dropLast [Inhabited α] {less : α → α → Bool} (l : List α)
    (h : heapInvTo less l (l.length - 1)) : heapInv less l.dropLast := by
  intro c hc1 hcn
  rw [List.length_dropLast] at hcn
  rw [lget_dropLast l c hcn, lget_dropLast l _ (by omega)]
  exact h c hc1 hcn

/-- `Fix` precondition: ordered except on edges incident to `i`, and `i`'s
children at or below `i`'s parent.  Restores the full heap. -/
theorem heapFix_heapInv [Inhabited α] {less : α → α → Bool} (hw : IsSWO less)
    (l : List α) (i : Nat) (hi : i < l.length)
    (h1 : ∀ c, 1 ≤ c → c < l.length → c ≠ i → (c - 1) / 2 ≠ i →
      less (lget l c) (lget l ((c - 1) / 2)) = false)
    (h2 : 1 ≤ i → ∀ c, c < l.length → (c = 2 * i + 1 ∨ c = 2 * i + 2) →
      less (lget l c) (lget l ((i - 1) / 2)) = false) :
    heapInv less (heapFix less l i) := by
  have hspec := heapDownAux_spec hw l i l.length le_rfl hi h1 h2
  have hge := heapDownAux_snd_ge less l i l.length
  rw [heapFix]
  split
  · next hmv =>
    have hinv := hspec.2 (by omega)
    rw [heapInv, heapDownAux_length]
    exact hinv
  · next hmv =>
    have hfi : (heapDownAux less l i l.length).2 = i := by omega
    have hnomv := heapDownAux_no_move less l i l.length hfi
    rw [hnomv]
    have hch := hspec.1 hfi
    have := heapUp_heapInvTo hw l.length l i le_rfl hi
      (by
        intro c hc1 hcn hci
        by_cases hpci : (c - 1) / 2 = i
        · rw [hpci]
          exact hch c hcn (by omega)
        · exact h1 c hc1 hcn hci hpci)
      h2
    rw [heapInv, heapUp_length]
    exact this

/-- `Push` preserves the heap invariant. -/
theorem heapPush_heapInv [Inhabited α] {less : α → α → Bool} (hw : IsSWO less)
    (l : List α) (x : α) (h : heapInv less l) :
    heapInv less (heapPush less l x) := by
  rw [heapPush, heapInv, heapUp_length]
  have hlen : (l ++ [x]).length = l.length + 1 := by simp
  rw [hlen]
  apply heapUp_heapInvTo hw (l.length + 1) (l ++ [x]) l.length (by simp)
    (by omega)
  · intro c hc1 hcn hcl
    have hc : c < l.length := by omega
    rw [lget_append_left l [x] c hc, lget_append_left l [x] _ (by omega)]
    exact h c hc1 hc
  · intro hl1 c hcn hcc
    omega

/-- `Pop` preserves the heap invariant. -/
theorem heapPop_heapInv [Inhabited α] {less : α → α → Bool} (hw : IsSWO less)
    (l : List α) (h : heapInv less l) : heapInv less (heapPop less l).1 := by
  rw [heapPop]
  dsimp only
  rcases Nat.lt_or_ge l.length 2 with hsmall | hbig
  · -- zero or one element: the result is empty
    have : ∀ (m : List α), m.length ≤ 1 → heapInv less m.dropLast := by
      intro m hm
      intro c hc1 hcn
      rw [List.length_dropLast] at hcn
      omega
    apply this
    rw [heapDownAux_length, lswap_length]
    omega
  · apply heapInv_dropLast
    have hlen : (heapDownAux less (lswap l 0 (l.length - 1)) 0
        (l.length - 1)).1.length = l.length := by
      rw [heapDownAux_length, lswap_length]
    rw [hlen]
    have hval : ∀ m, m ≠ 0 → m ≠ l.length - 1 →
        lget (lswap l 0 (l.length - 1)) m = lget l m := by
      intro m h1 h2
      rw [lget_lswap l 0 (l.length - 1) m (by omega) (by omega),
        if_neg h2, if_neg h1]
    have hspec := heapDownAux_spec hw (lswap l 0 (l.length - 1)) 0
      (l.length - 1) (by rw [lswap_length]; omega) (by omega)
      (by
        intro c hc1 hcn hci hpci
        rw [hval c (by omega) (by omega), hval _ hpci (by omega)]
        exact h c hc1 (by omega))
      (by omega)
    have hge := heapDownAux_snd_ge less (lswap l 0 (l.length - 1)) 0
      (l.length - 1)
    rcases Nat.eq_or_lt_of_le hge with hfi | hmv
    · have hnomv := heapDownAux_no_move less _ _ _ hfi.symm
      rw [hnomv]
      have hch := hspec.1 hfi.symm
      intro c hc1 hcn
      by_cases hpci : (c - 1) / 2 = 0
      · rw [hpci]
        exact hch c hcn (by omega)
      · rw [hval c (by omega) (by omega), hval _ hpci (by omega)]
        exact h c hc1 (by omega)
    · exact hspec.2 hmv

/-- `Remove` preserves the heap invariant. -/
theorem heapRemove_heapInv [Inhabited α] {less : α → α → Bool} (hw : IsSWO less)
    (l : List α) (i : Nat) (hi : i < l.length) (h : heapInv less l) :
    heapInv less (heapRemove less l i).1 := by
  rw [heapRemove]
  split
  · -- removing the final leaf
    dsimp only
    apply heapInv_dropLast
    intro c hc1 hcn
    exact h c hc1 (by omega)
  · next hne =>
    dsimp only
    have hin : i < l.length - 1 := by omega
    have hval : ∀ m, m ≠ i → m ≠ l.length - 1 →
        lget (lswap l i (l.length - 1)) m = lget l m := by
      intro m h1 h2
      rw [lget_lswap l i (l.length - 1) m (by omega) (by omega),
        if_neg h2, if_neg h1]
    have hh1 : ∀ c, 1 ≤ c → c < l.length - 1 → c ≠ i → (c - 1) / 2 ≠ i →
        less (lget (lswap l i (l.length - 1)) c)
          (lget (lswap l i (l.length - 1)) ((c - 1) / 2)) = false := by
      intro c hc1 hcn hci hpci
      rw [hval c hci (by omega), hval _ hpci (by omega)]
      exact h c hc1 (by omega)
    have hh2 : 1 ≤ i → ∀ c, c < l.length - 1 →
        (c = 2 * i + 1 ∨ c = 2 * i + 2) →
        less (lget (lswap l i (l.length - 1)) c)
          (lget (lswap l i (l.length - 1)) ((i - 1) / 2)) = false := by
      intro hi1 c hcn hcc
      rw [hval c (by omega) (by omega), hval _ (by omega) (by omega)]
      have hcv : less (lget l c) (lget l i) = false := by
        have := h c (by omega) (by omega)
        have hpc : (c - 1) / 2 = i := by omega
        rw [hpc] at this
        exact this
      have hiv : less (lget l i) (lget l ((i - 1) / 2)) = false :=
        h i hi1 (by omega)
      exact hw.2.2 _ _ _ hcv hiv
    have hspec := heapDownAux_spec hw (lswap l i (l.length - 1)) i
      (l.length - 1) (by rw [lswap_length]; omega) hin hh1 hh2
    have hge := heapDownAux_snd_ge less (lswap l i (l.length - 1)) i
      (l.length - 1)
    have hdlen : (heapDownAux less (lswap l i (l.length - 1)) i
        (l.length - 1)).1.length = l.length := by
      rw [heapDownAux_length, lswap_length]
    split
    · next hmv =>
      apply heapInv_dropLast
      rw [hdlen]
      exact hspec.2 (by omega)
    · next hmv =>
      have hfi : (heapDownAux less (lswap l i (l.length - 1)) i
          (l.length - 1)).2 = i := by omega
      have hnomv := heapDownAux_no_move less _ _ _ hfi
      rw [hnomv]
      have hch := hspec.1 hfi
      apply heapInv_dropLast
      rw [heapUp_length, lswap_length]
      apply heapUp_heapInvTo hw (l.length - 1) _ i (by rw [lswap_length]; omega)
        hin
      · intro c hc1 hcn hci
        by_cases hpci : (c - 1) / 2 = i
        · rw [hpci]
          exact hch c hcn (by omega)
        · exact hh1 c hc1 hcn hci hpci
      · exact hh2

/-- In a heap-ordered prefix, the root is a minimum: no element of the
prefix is strictly below `l[0]`. -/
theorem heapInvTo_root_min [Inhabited α] {less : α → α → Bool} (hw : IsSWO less)
    (l : List α) (n : Nat) (h : heapInvTo less l n) :
    ∀ k, k < n → less (lget l k) (lget l 0) = false := by
  intro k
  induction k using Nat.strong_induction_on with
  | _ k ih =>
    intro hk
    rcases Nat.eq_zero_or_pos k with h0 | h1
    · rw [h0]
      exact hw.irrefl _
    · have hedge := h k h1 hk
      have hpar := ih ((k - 1) / 2) (by omega) (by omega)
      exact hw.2.2 _ _ _ hedge hpar

/-! ## The side comparator is a strict weak order; congruence with
`entryLess` on homogeneous queues -/

theorem sideLess_isSWO (β : Bool) : IsSWO (sideLess β) := by
  refine ⟨?_, ?_, ?_⟩
  · intro a b h
    rw [sideLess] at h ⊢
    split_ifs at h ⊢ <;> simp_all <;> omega
  · intro a b c h1 h2
    rw [sideLess] at h1 h2 ⊢
    split_ifs at h1 h2 ⊢ <;> simp_all <;> omega
  · intro a b c h1 h2
    rw [sideLess] at h1 h2 ⊢
    split_ifs at h1 h2 ⊢ <;> simp_all <;> omega

theorem entryLess_eq_sideLess (β : Bool) (a b : Entry) (ha : a.isBid = β) :
    entryLess a b = sideLess β a b := by
  rw [entryLess, sideLess, ha]

theorem homog_agree {β : Bool} {q : List Entry} (h : homog β q) :
    ∀ a b, a ∈ q → b ∈ q → entryLess a b = sideLess β a b :=
  fun a b ha _ => entryLess_eq_sideLess β a b (h a ha)

theorem heapUp_congr [Inhabited α] (less less' : α → α → Bool) :
    ∀ (l : List α) (j : Nat), j < l.length →
      (∀ a b, a ∈ l → b ∈ l → less a b = less' a b) →
      heapUp less l j = heapUp less' l j := by
  intro l j
  induction l, j using heapUp_ind less with
  | case1 l j h =>
    intro hj hag
    conv_lhs => rw [heapUp_eq]
    conv_rhs => rw [heapUp_eq]
    simp [h]
  | case2 l j h hl ih =>
    intro hj hag
    have hpl : (j - 1) / 2 < l.length := by omega
    have hg : less' (lget l j) (lget l ((j - 1) / 2)) = true := by
      rw [← hag _ _ (lget_mem l j hj) (lget_mem l _ hpl)]
      exact hl
    conv_lhs => rw [heapUp_eq]
    conv_rhs => rw [heapUp_eq]
    simp only [h, dite_false, hl, hg, if_true]
    apply ih (by rw [lswap_length]; omega)
    intro a b ha hb
    have hperm := lswap_perm l ((j - 1) / 2) j hpl hj
    exact hag a b (hperm.mem_iff.mp ha) (hperm.mem_iff.mp hb)
  | case3 l j h hl =>
    intro hj hag
    have hpl : (j - 1) / 2 < l.length := by omega
    have hg : less' (lget l j) (lget l ((j - 1) / 2)) = false := by
      rw [← hag _ _ (lget_mem l j hj) (lget_mem l _ hpl)]
      simpa using hl
    conv_lhs => rw [heapUp_eq]
    conv_rhs => rw [heapUp_eq]
    simp [h, hl, hg]

theorem pickChild_congr [Inhabited α] (less less' : α → α → Bool) (l : List α)
    (i n : Nat) (hn : n ≤ l.length)
    (hag : ∀ a b, a ∈ l → b ∈ l → less a b = less' a b) :
    pickChild less l i n = pickChild less' l i n := by
  rw [pickChild, pickChild]
  by_cases h2 : 2 * i + 2 < n
  · rw [hag _ _ (lget_mem l _ (by omega)) (lget_mem l _ (by omega))]
  · simp [h2]

theorem heapDownAux_congr [Inhabited α] (less less' : α → α → Bool) :
    ∀ (l : List α) (i n : Nat), n ≤ l.length →
      (∀ a b, a ∈ l → b ∈ l → less a b = less' a b) →
      heapDownAux less l i n = heapDownAux less' l i n := by
  intro l i n
  induction l, i, n using heapDownAux_ind less with
  | case1 l i n h =>
    intro hn hag
    conv_lhs => rw [heapDownAux_eq]
    conv_rhs => rw [heapDownAux_eq]
    simp [h]
  | case2 l i n h hl ih =>
    intro hn hag
    have hpk := pickChild_congr less less' l i n hn hag
    have hkl : pickChild less l i n < l.length := by
      rcases pickChild_cases less l i n with hc | ⟨hc, hcn⟩ <;> omega
    have hil : i < l.length := by omega
    have hg : less' (lget l (pickChild less' l i n)) (lget l i) = true := by
      rw [← hpk, ← hag _ _ (lget_mem l _ hkl) (lget_mem l i hil)]
      exact hl
    conv_lhs => rw [heapDownAux_eq]
    conv_rhs => rw [heapDownAux_eq]
    simp only [h, dite_false, hl, hg, if_true]
    rw [← hpk]
    apply ih (by rw [lswap_length]; omega)
    intro a b ha hb
    have hperm := lswap_perm l i (pickChild less l i n) hil hkl
    exact hag a b (hperm.mem_iff.mp ha) (hperm.mem_iff.mp hb)
  | case3 l i n h hl =>
    intro hn hag
    have hpk := pickChild_congr less less' l i n hn hag
    have hkl : pickChild less l i n < l.length := by
      rcases pickChild_cases less l i n with hc | ⟨hc, hcn⟩ <;> omega
    have hil : i < l.length := by omega
    have hg : less' (lget l (pickChild less' l i n)) (lget l i) = false := by
      rw [← hpk, ← hag _ _ (lget_mem l _ hkl) (lget_mem l i hil)]
      simpa using hl
    conv_lhs => rw [heapDownAux_eq]
    conv_rhs => rw [heapDownAux_eq]
    simp [h, hl, hg]

theorem heapPush_congr [Inhabited α] (less less' : α → α → Bool) (l : List α)
    (x : α) (hag : ∀ a b, a ∈ l ++ [x] → b ∈ l ++ [x] → less a b = less' a b) :
    heapPush less l x = heapPush less' l x := by
  rw [heapPush, heapPush]
  exact heapUp_congr less less' (l ++ [x]) l.length (by simp) hag

theorem heapPop_congr [Inhabited α] (less less' : α → α → Bool) (l : List α)
    (hag : ∀ a b, a ∈ l → b ∈ l → less a b = less' a b) :
    heapPop less l = heapPop less' l := by
  rcases List.eq_nil_or_concat l with hnil | ⟨l', x, hx⟩
  · subst hnil
    have hd : ∀ (f : α → α → Bool), heapDownAux f ([] : List α) 0 0 = ([], 0) := by
      intro f
      rw [heapDownAux_eq]
      simp
    rw [heapPop, heapPop]
    have hsw : lswap ([] : List α) 0 0 = [] := rfl
    simp only [List.length_nil, Nat.zero_sub, hsw, hd]
  · have hne : l ≠ [] := by
      subst hx
      simp
    have hlen : 0 < l.length := List.length_pos.mpr hne
    rw [heapPop, heapPop]
    have hperm := lswap_perm l 0 (l.length - 1) (by omega) (by omega)
    have hag1 : ∀ a b, a ∈ lswap l 0 (l.length - 1) →
        b ∈ lswap l 0 (l.length - 1) → less a b = less' a b := by
      intro a b ha hb
      exact hag a b (hperm.mem_iff.mp ha) (hperm.mem_iff.mp hb)
    rw [heapDownAux_congr less less' _ 0 (l.length - 1)
      (by rw [lswap_length]; omega) hag1]

theorem heapFix_congr [Inhabited α] (less less' : α → α → Bool) (l : List α)
    (i : Nat) (hi : i < l.length)
    (hag : ∀ a b, a ∈ l → b ∈ l → less a b = less' a b) :
    heapFix less l i = heapFix less' l i := by
  rw [heapFix, heapFix]
  rw [heapDownAux_congr less less' l i l.length le_rfl hag]
  have hperm := heapDownAux_perm less' l i l.length le_rfl
  have hag1 : ∀ a b, a ∈ (heapDownAux less' l i l.length).1 →
      b ∈ (heapDownAux less' l i l.length).1 → less a b = less' a b := by
    intro a b ha hb
    exact hag a b (hperm.mem_iff.mp ha) (hperm.mem_iff.mp hb)
  split
  · rfl
  · rw [heapUp_congr less less' _ i (by rw [heapDownAux_length]; omega) hag1]

theorem heapRemove_congr [Inhabited α] (less less' : α → α → Bool) (l : List α)
    (i : Nat) (hi : i < l.length)
    (hag : ∀ a b, a ∈ l → b ∈ l → less a b = less' a b) :
    heapRemove less l i = heapRemove less' l i := by
  rw [heapRemove, heapRemove]
  split
  · rfl
  · next hne =>
    dsimp only
    have hperm := lswap_perm l i (l.length - 1) hi (by omega)
    have hag1 : ∀ a b, a ∈ lswap l i (l.length - 1) →
        b ∈ lswap l i (l.length - 1) → less a b = less' a b := by
      intro a b ha hb
      exact hag a b (hperm.mem_iff.mp ha) (hperm.mem_iff.mp hb)
    rw [heapDownAux_congr less less' _ i (l.length - 1)
      (by rw [lswap_length]; omega) hag1]
    have hperm2 := heapDownAux_perm less' (lswap l i (l.length - 1)) i
      (l.length - 1) (by rw [lswap_length]; omega)
    have hag2 : ∀ a b,
        a ∈ (heapDownAux less' (lswap l i (l.length - 1)) i (l.length - 1)).1 →
        b ∈ (heapDownAux less' (lswap l i (l.length - 1)) i (l.length - 1)).1 →
        less a b = less' a b := by
      intro a b ha hb
      exact hag1 a b (hperm2.mem_iff.mp ha) (hperm2.mem_iff.mp hb)
    split
    · rfl
    · rw [heapUp_congr less less' _ i
        (by rw [heapDownAux_length, lswap_length]; omega) hag2]

/-! ## Map lemmas -/

theorem mapLookup_insert_self (m : OrdersMap) (k : String) (v : Nat) :
    mapLookup (mapInsert m k v) k = some v := by
  simp [mapLookup, mapInsert, List.find?]

theorem mapLookup_erase_self (m : OrdersMap) (k : String) :
    mapLookup (mapErase m k) k = none := by
  rw [mapLookup, List.find?_eq_none.mpr]
  · rfl
  · intro p hp
    rw [mapErase] at hp
    have := List.of_mem_filter hp
    simpa using this

theorem mapLookup_erase_ne (m : OrdersMap) (k k' : String) (h : k' ≠ k) :
    mapLookup (mapErase m k) k' = mapLookup m k' := by
  rw [mapLookup, mapLookup, mapErase]
  induction m with
  | nil => rfl
  | cons p rest ih =>
    by_cases hpk : p.1 = k
    · rw [List.filter_cons_of_neg (by simpa using hpk)]
      rw [List.find?_cons_of_neg _ (by simp [hpk]; exact fun hh => h hh.symm)]
      exact ih
    · rw [List.filter_cons_of_pos (by simpa using hpk)]
      by_cases hpk' : p.1 = k'
      · rw [List.find?_cons_of_pos _ (by simpa using hpk'),
          List.find?_cons_of_pos _ (by simpa using hpk')]
      · rw [List.find?_cons_of_neg _ (by simpa using hpk'),
          List.find?_cons_of_neg _ (by simpa using hpk')]
        exact ih

theorem mapLookup_insert_ne (m : OrdersMap) (k k' : String) (v : Nat)
    (h : k' ≠ k) : mapLookup (mapInsert m k v) k' = mapLookup m k' := by
  rw [mapInsert, mapLookup,
    List.find?_cons_of_neg _ (by simp; exact fun hh => h hh.symm)]
  exact mapLookup_erase_ne m k k' h

/-! ## Matching-loop lemmas -/

/-- Decomposition of one `matchStep`: on success it emitted a trade against
the current opposing top, priced at the resting order's price, sized at the
minimum of the two remaining quantities; the incoming remainder drops by
exactly the traded quantity. -/
theorem matchStep_emit (now : Nat) (s : LoopState) (t : MatchResult)
    (s' : LoopState) (h : matchStep now s = some (t, s')) :
    ∃ best, peek s.opposing = some best ∧
      t.price = best.order.price ∧
      t.quantity = min s.incoming.remaining best.order.remaining ∧
      t.symbol = s.incoming.symbol ∧
      t.buyOrderId = selectOrderId s.incoming best.order Side.Buy ∧
      t.sellOrderId = selectOrderId s.incoming best.order Side.Sell ∧
      t.timestamp = now ∧
      s'.incoming = { s.incoming with
        remaining := s.incoming.remaining - t.quantity } ∧
      0 < s.incoming.remaining := by
  rw [matchStep] at h
  split at h
  · next hrem =>
    split at h
    · exact absurd h (by simp)
    · next best hbest =>
      split at h
      · exact absurd h (by simp)
      · dsimp only at h
        split at h <;>
        · injection h with hx
          injection hx with h1 h2
          subst h1
          subst h2
          exact ⟨best, hbest, rfl, rfl, rfl, rfl, rfl, rfl, rfl, hrem⟩
  · exact absurd h (by simp)

/-- On success the opposing queue either loses its top (fully consumed,
whose id is dropped from the index) or keeps it with reduced remaining. -/
theorem matchStep_queues (now : Nat) (s : LoopState) (t : MatchResult)
    (s' : LoopState) (h : matchStep now s = some (t, s')) :
    ∃ best, peek s.opposing = some best ∧
      (let best' : Entry := { best with order :=
          { best.order with remaining := best.order.remaining - t.quantity } }
       (best'.order.remaining = 0 ∧
          s'.opposing = (heapPop entryLess (s.opposing.set 0 best')).1 ∧
          s'.orders = mapErase s.orders best.order.id) ∨
        (best'.order.remaining ≠ 0 ∧
          s'.opposing = heapFix entryLess (s.opposing.set 0 best') 0 ∧
          s'.orders = s.orders)) := by
  rw [matchStep] at h
  split at h
  · next hrem =>
    split at h
    · exact absurd h (by simp)
    · next best hbest =>
      split at h
      · exact absurd h (by simp)
      · dsimp only at h
        split at h
        · next hz =>
          injection h with hx
          injection hx with h1 h2
          subst h1
          subst h2
          exact ⟨best, hbest, Or.inl ⟨hz, rfl, rfl⟩⟩
        · next hz =>
          injection h with hx
          injection hx with h1 h2
          subst h1
          subst h2
          exact ⟨best, hbest, Or.inr ⟨hz, rfl, rfl⟩⟩
  · exact absurd h (by simp)

/-- The loop runs to quiescence: its final state admits no further step. -/
theorem matchLoop_final (now : Nat) :
    ∀ s : LoopState, matchStep now (matchLoop now s).1 = none := by
  intro s
  induction s using matchLoop_ind now with
  | case1 s h =>
    rw [matchLoop_eq]
    split
    · exact h
    · next t s' hs => rw [hs] at h; exact absurd h (by simp)
  | case2 s t s' h ih =>
    rw [matchLoop_eq]
    split
    · next hn => rw [hn] at h; exact absurd h (by simp)
    · next t2 s2 hs =>
      rw [hs] at h
      injection h with hx
      injection hx with h1 h2
      subst h1
      subst h2
      exact ih

/-- Conservation through the loop: traded quantity plus the final
remainder equals the initial remainder. -/
theorem matchLoop_conservation (now : Nat) :
    ∀ s : LoopState,
      ((matchLoop now s).2.map (·.quantity)).sum +
        (matchLoop now s).1.incoming.remaining = s.incoming.remaining := by
  intro s
  induction s using matchLoop_ind now with
  | case1 s h =>
    rw [matchLoop_eq]
    split
    · simp
    · next t s' hs => rw [hs] at h; exact absurd h (by simp)
  | case2 s t s' h ih =>
    rw [matchLoop_eq]
    split
    · next hn => rw [hn] at h; exact absurd h (by simp)
    · next t2 s2 hs =>
      rw [hs] at h
      injection h with hx
      injection hx with h1 h2
      subst h1
      subst h2
      dsimp only
      obtain ⟨best, _, _, _, _, _, _, _, hinc, _⟩ :=
        matchStep_emit now s t2 s2 hs
      have : s2.incoming.remaining = s.incoming.remaining - t2.quantity := by
        rw [hinc]
      rw [List.map_cons, List.sum_cons]
      omega

/-- Every trade of a loop run is emitted by some `matchStep` from a
reachable intermediate state. -/
theorem matchLoop_trades_reach (now : Nat) :
    ∀ s : LoopState, ∀ t ∈ (matchLoop now s).2,
      ∃ s' s'', MatchReaches now s s' ∧ matchStep now s' = some (t, s'') := by
  intro s
  induction s using matchLoop_ind now with
  | case1 s h =>
    rw [matchLoop_eq]
    split
    · intro t ht
      simp at ht
    · next t s' hs => rw [hs] at h; exact absurd h (by simp)
  | case2 s t s' h ih =>
    rw [matchLoop_eq]
    split
    · next hn => rw [hn] at h; exact absurd h (by simp)
    · next t2 s2 hs =>
      rw [hs] at h
      injection h with hx
      injection hx with h1 h2
      subst h1
      subst h2
      dsimp only
      intro u hu
      rw [List.mem_cons] at hu
      rcases hu with rfl | hu
      · exact ⟨s, s2, Relation.ReflTransGen.refl, hs⟩
      · obtain ⟨s3, s4, hr, hstep⟩ := ih u hu
        exact ⟨s3, s4, Relation.ReflTransGen.head ⟨t2, hs⟩ hr, hstep⟩

theorem matchFn_trades (now : Nat) (incoming : Order)
    (opposing restingQ : List Entry) (orders : OrdersMap) (maxDepth : Int)
    (tag : Nat) :
    (matchFn now incoming opposing restingQ orders maxDepth tag).trades =
      (matchLoop now ⟨incoming, opposing, orders⟩).2 := by
  rw [matchFn]
  dsimp only
  split
  · split <;> rfl
  · rfl

theorem processAdd_trades_cases (now : Nat) (order : Order) (ob : OrderBook) :
    (processAdd now order ob).2.1 = [] ∨
      (processAdd now order ob).2.1 =
        (matchLoop now (submitLoopState now order ob)).2 := by
  rw [processAdd]
  by_cases h1 : order.symbol ≠ ob.cfg.symbol
  · rw [if_pos h1]; exact Or.inl rfl
  · rw [if_neg h1]
    by_cases h2 : order.quantity ≤ 0
    · rw [if_pos h2]; exact Or.inl rfl
    · rw [if_neg h2]
      by_cases h3 : order.type = OrderType.Limit ∧ ob.cfg.tickSize ≤ 0
      · rw [if_pos h3]; exact Or.inl rfl
      · rw [if_neg h3]
        by_cases h4 : order.type = OrderType.Limit ∧
            (order.price ≤ 0 ∨ order.price % ob.cfg.tickSize ≠ 0)
        · rw [if_pos h4]; exact Or.inl rfl
        · rw [if_neg h4]
          right
          dsimp only
          by_cases hbuy : order.side = Side.Buy
          · rw [if_pos hbuy]
            dsimp only
            rw [matchFn_trades, submitLoopState, if_pos hbuy]
            rfl
          · rw [if_neg hbuy]
            dsimp only
            rw [matchFn_trades, submitLoopState, if_neg hbuy]
            rfl

theorem processAdd_trades_mem (now : Nat) (order : Order) (ob : OrderBook) :
    ∀ t ∈ (processAdd now order ob).2.1,
      t ∈ (matchLoop now (submitLoopState now order ob)).2 := by
  intro t ht
  rcases processAdd_trades_cases now order ob with h | h
  · rw [h] at ht
    simp at ht
  · rw [h] at ht
    exact ht

theorem processAdd_err_none_iff (now : Nat) (order : Order) (ob : OrderBook) :
    (processAdd now order ob).2.2 = none ↔
      (order.symbol = ob.cfg.symbol ∧ 0 < order.quantity ∧
        (order.type = OrderType.Limit →
          (0 < ob.cfg.tickSize ∧ 0 < order.price ∧
            order.price % ob.cfg.tickSize = 0))) := by
  rw [processAdd]
  by_cases h1 : order.symbol ≠ ob.cfg.symbol
  · rw [if_pos h1]
    constructor
    · intro hc; exact absurd hc (by simp)
    · rintro ⟨ha, _, _⟩; exact absurd ha h1
  · rw [if_neg h1]
    by_cases h2 : order.quantity ≤ 0
    · rw [if_pos h2]
      constructor
      · intro hc; exact absurd hc (by simp)
      · rintro ⟨_, hb, _⟩; omega
    · rw [if_neg h2]
      by_cases h3 : order.type = OrderType.Limit ∧ ob.cfg.tickSize ≤ 0
      · rw [if_pos h3]
        constructor
        · intro hc; exact absurd hc (by simp)
        · rintro ⟨_, _, hc⟩
          have := (hc h3.1).1
          omega
      · rw [if_neg h3]
        by_cases h4 : order.type = OrderType.Limit ∧
            (order.price ≤ 0 ∨ order.price % ob.cfg.tickSize ≠ 0)
        · rw [if_pos h4]
          constructor
          · intro hc; exact absurd hc (by simp)
          · rintro ⟨_, _, hc⟩
            obtain ⟨_, hp, hm⟩ := hc h4.1
            rcases h4.2 with hh | hh
            · omega
            · exact absurd hm hh
        · rw [if_neg h4]
          dsimp only
          have hRHS : order.symbol = ob.cfg.symbol ∧ 0 < order.quantity ∧
              (order.type = OrderType.Limit →
                (0 < ob.cfg.tickSize ∧ 0 < order.price ∧
                  order.price % ob.cfg.tickSize = 0)) := by
            refine ⟨by tauto, by omega, ?_⟩
            intro hlim
            refine ⟨?_, ?_, ?_⟩
            · by_contra hc; exact h3 ⟨hlim, by omega⟩
            · by_contra hc; exact h4 ⟨hlim, Or.inl (by omega)⟩
            · by_contra hc; exact h4 ⟨hlim, Or.inr hc⟩
          split <;> exact iff_of_true rfl hRHS

theorem processAdd_trades_eq (now : Nat) (order : Order) (ob : OrderBook)
    (hok : (processAdd now order ob).2.2 = none) :
    (processAdd now order ob).2.1 =
      (matchLoop now (submitLoopState now order ob)).2 := by
  rcases processAdd_trades_cases now order ob with h | h
  · rw [processAdd] at h hok ⊢
    by_cases h1 : order.symbol ≠ ob.cfg.symbol
    · rw [if_pos h1] at hok; exact absurd hok (by simp)
    · rw [if_neg h1] at h hok ⊢
      by_cases h2 : order.quantity ≤ 0
      · rw [if_pos h2] at hok; exact absurd hok (by simp)
      · rw [if_neg h2] at h hok ⊢
        by_cases h3 : order.type = OrderType.Limit ∧ ob.cfg.tickSize ≤ 0
        · rw [if_pos h3] at hok; exact absurd hok (by simp)
        · rw [if_neg h3] at h hok ⊢
          by_cases h4 : order.type = OrderType.Limit ∧
              (order.price ≤ 0 ∨ order.price % ob.cfg.tickSize ≠ 0)
          · rw [if_pos h4] at hok; exact absurd hok (by simp)
          · rw [if_neg h4]
            dsimp only
            by_cases hbuy : order.side = Side.Buy
            · rw [if_pos hbuy]
              dsimp only
              rw [matchFn_trades, submitLoopState, if_pos hbuy]
              rfl
            · rw [if_neg hbuy]
              dsimp only
              rw [matchFn_trades, submitLoopState, if_neg hbuy]
              rfl
  · exact h

/-- C1: every trade emitted while processing a submit is produced by a
matching-loop step from a reachable loop state, at the resting (book-side)
top order's price — never the incoming order's price when they differ —
with quantity `min(incoming.remaining, resting.remaining)` at that
moment. -/
theorem claim_trade_price_and_quantity (now : Nat) (order : Order)
    (ob : OrderBook) :
    ∀ t ∈ (processAdd now order ob).2.1,
      ∃ s' best,
        MatchReaches now (submitLoopState now order ob) s' ∧
        peek s'.opposing = some best ∧
        t.price = best.order.price ∧
        t.quantity = min s'.incoming.remaining best.order.remaining ∧
        (s'.incoming.price ≠ best.order.price → t.price ≠ s'.incoming.price) := by
  intro t ht
  have hmem := processAdd_trades_mem now order ob t ht
  obtain ⟨s', s'', hreach, hstep⟩ :=
    matchLoop_trades_reach now (submitLoopState now order ob) t hmem
  obtain ⟨best, hbest, hprice, hqty, _⟩ := matchStep_emit now s' t s'' hstep
  refine ⟨s', best, hreach, hbest, hprice, hqty, ?_⟩
  intro hne
  rw [hprice]
  exact fun heq => hne heq.symm

/-- C1 witness: the basic limit cross (test scenario S1). -/
theorem claim_trade_price_and_quantity_witness :
    (⟨"S", "bid1", "ask1", 101, 3, 1⟩ : MatchResult) ∈
      (processAdd 1
        ⟨"bid1", "S", Side.Buy, OrderType.Limit, 102, 3, 0, 0, 0⟩
        ((step 0 (Command.submit
          ⟨"ask1", "S", Side.Sell, OrderType.Limit, 101, 5, 0, 0, 0⟩)
          (NewOrderBook ⟨"S", 1, 10⟩)).1)).2.1 ∧
    (∃ s' best, MatchReaches 1
        (submitLoopState 1
          ⟨"bid1", "S", Side.Buy, OrderType.Limit, 102, 3, 0, 0, 0⟩
          ((step 0 (Command.submit
            ⟨"ask1", "S", Side.Sell, OrderType.Limit, 101, 5, 0, 0, 0⟩)
            (NewOrderBook ⟨"S", 1, 10⟩)).1)) s' ∧
      peek s'.opposing = some best ∧
      (⟨"S", "bid1", "ask1", 101, 3, 1⟩ : MatchResult).price =
        best.order.price ∧
      (⟨"S", "bid1", "ask1", 101, 3, 1⟩ : MatchResult).quantity =
        min s'.incoming.remaining best.order.remaining ∧
      (s'.incoming.price ≠ best.order.price →
        (⟨"S", "bid1", "ask1", 101, 3, 1⟩ : MatchResult).price ≠
          s'.incoming.price)) :=
  ⟨by decide, claim_trade_price_and_quantity 1 _ _ _ (by decide)⟩

/-- C2: over a submit, traded quantities plus the final incoming remainder
equal the initial quantity; each loop step trades
`min(incoming.remaining, resting.remaining)` and decrements both the
incoming remainder and the resting counterparty by exactly that amount. -/
theorem claim_conservation_of_shares :
    (∀ (now : Nat) (s : LoopState),
      ((matchLoop now s).2.map (·.quantity)).sum +
        (matchLoop now s).1.incoming.remaining = s.incoming.remaining) ∧
    (∀ (now : Nat) (s : LoopState) (t : MatchResult) (s' : LoopState),
      matchStep now s = some (t, s') →
      ∃ best, peek s.opposing = some best ∧
        t.quantity = min s.incoming.remaining best.order.remaining ∧
        s'.incoming.remaining = s.incoming.remaining - t.quantity ∧
        ((best.order.remaining - t.quantity = 0 ∧
            s'.opposing = (heapPop entryLess (s.opposing.set 0
              { best with order := { best.order with
                remaining := best.order.remaining - t.quantity } })).1 ∧
            s'.orders = mapErase s.orders best.order.id) ∨
          (best.order.remaining - t.quantity ≠ 0 ∧
            s'.opposing = heapFix entryLess (s.opposing.set 0
              { best with order := { best.order with
                remaining := best.order.remaining - t.quantity } }) 0 ∧
            s'.orders = s.orders))) ∧
    (∀ (now : Nat) (order : Order) (ob : OrderBook),
      (processAdd now order ob).2.2 = none →
      (((processAdd now order ob).2.1.map (·.quantity)).sum +
        (matchLoop now (submitLoopState now order ob)).1.incoming.remaining =
        order.quantity)) := by
  refine ⟨matchLoop_conservation, ?_, ?_⟩
  · intro now s t s' h
    obtain ⟨best, hbest, _, hqty, _, _, _, _, hinc, _⟩ :=
      matchStep_emit now s t s' h
    obtain ⟨best2, hbest2, hdec⟩ := matchStep_queues now s t s' h
    rw [hbest] at hbest2
    injection hbest2 with hbb
    subst hbb
    refine ⟨best, hbest, hqty, by rw [hinc], ?_⟩
    simpa using hdec
  · intro now order ob hok
    rw [processAdd_trades_eq now order ob hok]
    have hrem : (submitLoopState now order ob).incoming.remaining =
        order.quantity := rfl
    rw [matchLoop_conservation now (submitLoopState now order ob), hrem]

/-- C2 witness: basic limit cross, 3 shares traded, 0 remaining. -/
theorem claim_conservation_of_shares_witness :
    ((processAdd 1 (mkOrder "bid1" Side.Buy OrderType.Limit 102 3)
        bookAsk1).2.1.map (·.quantity)).sum +
      (matchLoop 1 (submitLoopState 1
        (mkOrder "bid1" Side.Buy OrderType.Limit 102 3)
        bookAsk1)).1.incoming.remaining =
      (mkOrder "bid1" Side.Buy OrderType.Limit 102 3).quantity :=
  claim_conservation_of_shares.2.2 1
    (mkOrder "bid1" Side.Buy OrderType.Limit 102 3) bookAsk1 (by decide)

theorem processAdd_err_spec (now : Nat) (order : Order) (ob : OrderBook) :
    (processAdd now order ob).2.2 =
      (if order.symbol ≠ ob.cfg.symbol then some BookError.symbolMismatch
       else if order.quantity ≤ 0 then some BookError.invalidQuantity
       else if order.type = OrderType.Limit ∧ ob.cfg.tickSize ≤ 0 then
         some BookError.tickAlignment
       else if order.type = OrderType.Limit ∧
           (order.price ≤ 0 ∨ order.price % ob.cfg.tickSize ≠ 0) then
         some BookError.tickAlignment
       else none) := by
  rw [processAdd]
  by_cases h1 : order.symbol ≠ ob.cfg.symbol
  · rw [if_pos h1, if_pos h1]
  · rw [if_neg h1, if_neg h1]
    by_cases h2 : order.quantity ≤ 0
    · rw [if_pos h2, if_pos h2]
    · rw [if_neg h2, if_neg h2]
      by_cases h3 : order.type = OrderType.Limit ∧ ob.cfg.tickSize ≤ 0
      · rw [if_pos h3, if_pos h3]
      · rw [if_neg h3, if_neg h3]
        by_cases h4 : order.type = OrderType.Limit ∧
            (order.price ≤ 0 ∨ order.price % ob.cfg.tickSize ≠ 0)
        · rw [if_pos h4, if_pos h4]
        · rw [if_neg h4, if_neg h4]
          dsimp only
          split <;> rfl

/-- C6: a submit errs exactly on symbol mismatch, non-positive quantity,
or (for limit orders only) tick/price misalignment, in that order; market
orders never have their price validated, so a market submit with matching
symbol and positive quantity always succeeds. -/
theorem claim_submit_validation (now : Nat) (order : Order) (ob : OrderBook) :
    ((processAdd now order ob).2.2 = some BookError.symbolMismatch ↔
      order.symbol ≠ ob.cfg.symbol) ∧
    ((processAdd now order ob).2.2 = some BookError.invalidQuantity ↔
      (order.symbol = ob.cfg.symbol ∧ order.quantity ≤ 0)) ∧
    ((processAdd now order ob).2.2 = some BookError.tickAlignment ↔
      (order.symbol = ob.cfg.symbol ∧ 0 < order.quantity ∧
        order.type = OrderType.Limit ∧
        (ob.cfg.tickSize ≤ 0 ∨ order.price ≤ 0 ∨
          order.price % ob.cfg.tickSize ≠ 0))) ∧
    ((processAdd now order ob).2.2 = none ↔
      (order.symbol = ob.cfg.symbol ∧ 0 < order.quantity ∧
        (order.type = OrderType.Limit →
          (0 < ob.cfg.tickSize ∧ 0 < order.price ∧
            order.price % ob.cfg.tickSize = 0)))) ∧
    (order.type = OrderType.Market → order.symbol = ob.cfg.symbol →
      0 < order.quantity → (processAdd now order ob).2.2 = none) := by
  refine ⟨?_, ?_, ?_, processAdd_err_none_iff now order ob, ?_⟩
  · rw [processAdd_err_spec]
    by_cases h1 : order.symbol ≠ ob.cfg.symbol
    · rw [if_pos h1]
      exact iff_of_true rfl h1
    · rw [if_neg h1]
      by_cases h2 : order.quantity ≤ 0
      · rw [if_pos h2]
        exact iff_of_false (by simp) h1
      · rw [if_neg h2]
        by_cases h3 : order.type = OrderType.Limit ∧ ob.cfg.tickSize ≤ 0
        · rw [if_pos h3]
          exact iff_of_false (by simp) h1
        · rw [if_neg h3]
          by_cases h4 : order.type = OrderType.Limit ∧
              (order.price ≤ 0 ∨ order.price % ob.cfg.tickSize ≠ 0)
          · rw [if_pos h4]
            exact iff_of_false (by simp) h1
          · rw [if_neg h4]
            exact iff_of_false (by simp) h1
  · rw [processAdd_err_spec]
    by_cases h1 : order.symbol ≠ ob.cfg.symbol
    · rw [if_pos h1]
      exact iff_of_false (by simp) (fun hh => h1 (by rw [hh.1]))
    · rw [if_neg h1]
      by_cases h2 : order.quantity ≤ 0
      · rw [if_pos h2]
        exact iff_of_true rfl ⟨not_ne_iff.mp h1, h2⟩
      · rw [if_neg h2]
        by_cases h3 : order.type = OrderType.Limit ∧ ob.cfg.tickSize ≤ 0
        · rw [if_pos h3]
          exact iff_of_false (by simp) (fun hh => h2 hh.2)
        · rw [if_neg h3]
          by_cases h4 : order.type = OrderType.Limit ∧
              (order.price ≤ 0 ∨ order.price % ob.cfg.tickSize ≠ 0)
          · rw [if_pos h4]
            exact iff_of_false (by simp) (fun hh => h2 hh.2)
          · rw [if_neg h4]
            exact iff_of_false (by simp) (fun hh => h2 hh.2)
  · rw [processAdd_err_spec]
    by_cases h1 : order.symbol ≠ ob.cfg.symbol
    · rw [if_pos h1]
      exact iff_of_false (by simp) (fun hh => h1 hh.1)
    · rw [if_neg h1]
      by_cases h2 : order.quantity ≤ 0
      · rw [if_pos h2]
        exact iff_of_false (by simp) (fun hh => by omega)
      · rw [if_neg h2]
        by_cases h3 : order.type = OrderType.Limit ∧ ob.cfg.tickSize ≤ 0
        · rw [if_pos h3]
          exact iff_of_true rfl
            ⟨not_ne_iff.mp h1, by omega, h3.1, Or.inl h3.2⟩
        · rw [if_neg h3]
          by_cases h4 : order.type = OrderType.Limit ∧
              (order.price ≤ 0 ∨ order.price % ob.cfg.tickSize ≠ 0)
          · rw [if_pos h4]
            refine iff_of_true rfl ⟨not_ne_iff.mp h1, by omega, h4.1, ?_⟩
            rcases h4.2 with h | h
            · exact Or.inr (Or.inl h)
            · exact Or.inr (Or.inr h)
          · rw [if_neg h4]
            refine iff_of_false (by simp) ?_
            rintro ⟨_, _, hlim, hdisj⟩
            rcases hdisj with h | h | h
            · exact h3 ⟨hlim, h⟩
            · exact h4 ⟨hlim, Or.inl h⟩
            · exact h4 ⟨hlim, Or.inr h⟩
  · intro hm hs hq
    rw [processAdd_err_none_iff]
    refine ⟨hs, hq, fun hlim => ?_⟩
    rw [hm] at hlim
    exact absurd hlim (by simp)

/-- C6 witness: a market submit with an unaligned price succeeds on a
tick-5 book; a limit submit at price 12 on the same book fails. -/
theorem claim_submit_validation_witness :
    ((processAdd 0 (mkOrder "m" Side.Buy OrderType.Market 12 1)
        (NewOrderBook ⟨"S", 5, 0⟩)).2.2 = none) ∧
    ((processAdd 0 (mkOrder "x" Side.Buy OrderType.Limit 12 1)
        (NewOrderBook ⟨"S", 5, 0⟩)).2.2 = some BookError.tickAlignment) :=
  ⟨(claim_submit_validation 0 _ _).2.2.2.2 (by decide) (by decide) (by decide),
    ((claim_submit_validation 0 _ _).2.2.1).mpr (by decide)⟩

/-- An erroring submit returns the book and trade list untouched. -/
theorem processAdd_err_frame (now : Nat) (order : Order) (ob : OrderBook)
    (e : BookError) (h : (processAdd now order ob).2.2 = some e) :
    (processAdd now order ob).1 = ob ∧ (processAdd now order ob).2.1 = [] := by
  rw [processAdd] at h ⊢
  split_ifs at h ⊢
  · exact ⟨rfl, rfl⟩
  · exact ⟨rfl, rfl⟩
  · exact ⟨rfl, rfl⟩
  · exact ⟨rfl, rfl⟩
  · exfalso
    revert h
    dsimp only
    split <;> exact fun h => Option.noConfusion h

/-- An erroring cancel returns the book untouched. -/
theorem processCancel_err_frame (id : String) (ob : OrderBook) (e : BookError)
    (h : (processCancel id ob).2 = some e) :
    (processCancel id ob).1 = ob := by
  rw [processCancel] at h ⊢
  rcases hm : mapLookup ob.orders id with _ | tag
  · rfl
  · rw [hm] at h
    dsimp only at h ⊢
    rcases hd : derefTag ob tag with _ | entry
    · rfl
    · rw [hd] at h
      dsimp only at h ⊢
      by_cases hb : entry.isBid
      · rw [if_pos hb] at h
        exact Option.noConfusion h
      · rw [if_neg hb] at h
        exact Option.noConfusion h

theorem processAmend_notFound (now : Nat) (id : String) (p q : Option Int)
    (ob : OrderBook) (hm : mapLookup ob.orders id = none) :
    processAmend now id p q ob = (ob, some BookError.notFound) := by
  rw [processAmend, hm]

theorem processAmend_stale (now : Nat) (id : String) (p q : Option Int)
    (ob : OrderBook) (tag : Nat) (hm : mapLookup ob.orders id = some tag)
    (hd : derefTag ob tag = none) :
    processAmend now id p q ob = (ob, none) := by
  rw [processAmend, hm]
  dsimp only
  rw [hd]

theorem processAmend_badQty (now : Nat) (id : String) (p : Option Int) (qv : Int)
    (ob : OrderBook) (tag : Nat) (entry : Entry)
    (hm : mapLookup ob.orders id = some tag) (hd : derefTag ob tag = some entry)
    (hq : qv ≤ 0) :
    processAmend now id p (some qv) ob = (ob, some BookError.invalidQuantity) := by
  rw [processAmend, hm]
  dsimp only
  rw [hd]
  dsimp only
  rw [if_pos hq]

/-- The C3 bug branch: positive quantity, tick-invalid price — the error is
returned with the quantity mutation written back. -/
theorem processAmend_qtyBadPrice (now : Nat) (id : String) (pv qv : Int)
    (ob : OrderBook) (tag : Nat) (entry : Entry)
    (hm : mapLookup ob.orders id = some tag) (hd : derefTag ob tag = some entry)
    (hq : ¬ qv ≤ 0)
    (hp : pv ≤ 0 ∨ ob.cfg.tickSize ≤ 0 ∨ pv % ob.cfg.tickSize ≠ 0) :
    processAmend now id (some pv) (some qv) ob =
      (amendWrite ob tag entry qv, some BookError.tickAlignment) := by
  rw [processAmend, hm]
  dsimp only
  rw [hd]
  dsimp only
  rw [if_neg hq]
  rw [if_pos hp]
  rw [amendWrite]

theorem processAmend_qtyGoodPrice_err (now : Nat) (id : String) (pv qv : Int)
    (ob : OrderBook) (tag : Nat) (entry : Entry)
    (hm : mapLookup ob.orders id = some tag) (hd : derefTag ob tag = some entry)
    (hq : ¬ qv ≤ 0)
    (hp : ¬ (pv ≤ 0 ∨ ob.cfg.tickSize ≤ 0 ∨ pv % ob.cfg.tickSize ≠ 0)) :
    (processAmend now id (some pv) (some qv) ob).2 = none := by
  rw [processAmend, hm]
  dsimp only
  rw [hd]
  dsimp only
  rw [if_neg hq]
  rw [if_neg hp]
  split <;> rfl

theorem processAmend_qtyOnly_err (now : Nat) (id : String) (qv : Int)
    (ob : OrderBook) (tag : Nat) (entry : Entry)
    (hm : mapLookup ob.orders id = some tag) (hd : derefTag ob tag = some entry)
    (hq : ¬ qv ≤ 0) :
    (processAmend now id none (some qv) ob).2 = none := by
  rw [processAmend, hm]
  dsimp only
  rw [hd]
  dsimp only
  rw [if_neg hq]
  split <;> rfl

theorem processAmend_badPriceOnly (now : Nat) (id : String) (pv : Int)
    (ob : OrderBook) (tag : Nat) (entry : Entry)
    (hm : mapLookup ob.orders id = some tag) (hd : derefTag ob tag = some entry)
    (hp : pv ≤ 0 ∨ ob.cfg.tickSize ≤ 0 ∨ pv % ob.cfg.tickSize ≠ 0) :
    processAmend now id (some pv) none ob = (ob, some BookError.tickAlignment) := by
  rw [processAmend, hm]
  dsimp only
  rw [hd]
  dsimp only
  rw [if_pos hp]

theorem processAmend_goodPriceOnly_err (now : Nat) (id : String) (pv : Int)
    (ob : OrderBook) (tag : Nat) (entry : Entry)
    (hm : mapLookup ob.orders id = some tag) (hd : derefTag ob tag = some entry)
    (hp : ¬ (pv ≤ 0 ∨ ob.cfg.tickSize ≤ 0 ∨ pv % ob.cfg.tickSize ≠ 0)) :
    (processAmend now id (some pv) none ob).2 = none := by
  rw [processAmend, hm]
  dsimp only
  rw [hd]
  dsimp only
  rw [if_neg hp]
  split <;> rfl

theorem processAmend_noop_err (now : Nat) (id : String)
    (ob : OrderBook) (tag : Nat) (entry : Entry)
    (hm : mapLookup ob.orders id = some tag) (hd : derefTag ob tag = some entry) :
    (processAmend now id none none ob).2 = none := by
  rw [processAmend, hm]
  dsimp only
  rw [hd]
  dsimp only
  split <;> rfl

/-- An erroring amend leaves the book untouched, except when it carries
both a positive quantity and an invalid price: then the quantity mutation
survives the error. -/
theorem processAmend_err_cases (now : Nat) (id : String) (p q : Option Int)
    (ob : OrderBook) (e : BookError)
    (h : (processAmend now id p q ob).2 = some e) :
    (processAmend now id p q ob).1 = ob ∨
      amendQtyException (Command.amend id p q) ob (processAmend now id p q ob).1 e := by
  rcases hm : mapLookup ob.orders id with _ | tag
  · exact Or.inl (by rw [processAmend_notFound now id p q ob hm])
  · rcases hd : derefTag ob tag with _ | entry
    · exact Or.inl (by rw [processAmend_stale now id p q ob tag hm hd])
    · rcases q with _ | qv
      · rcases p with _ | pv
        · rw [processAmend_noop_err now id ob tag entry hm hd] at h
          exact Option.noConfusion h
        · by_cases hp : pv ≤ 0 ∨ ob.cfg.tickSize ≤ 0 ∨ pv % ob.cfg.tickSize ≠ 0
          · exact Or.inl (by rw [processAmend_badPriceOnly now id pv ob tag entry hm hd hp])
          · rw [processAmend_goodPriceOnly_err now id pv ob tag entry hm hd hp] at h
            exact Option.noConfusion h
      · by_cases hq : qv ≤ 0
        · exact Or.inl (by rw [processAmend_badQty now id p qv ob tag entry hm hd hq])
        · rcases p with _ | pv
          · rw [processAmend_qtyOnly_err now id qv ob tag entry hm hd hq] at h
            exact Option.noConfusion h
          · by_cases hp : pv ≤ 0 ∨ ob.cfg.tickSize ≤ 0 ∨ pv % ob.cfg.tickSize ≠ 0
            · have hc := processAmend_qtyBadPrice now id pv qv ob tag entry hm hd hq hp
              rw [hc] at h
              exact Or.inr ⟨id, pv, qv, tag, entry, rfl, hm, hd, by omega, hp,
                (Option.some.inj h).symm, by rw [hc]⟩
            · rw [processAmend_qtyGoodPrice_err now id pv qv ob tag entry hm hd hq hp] at h
              exact Option.noConfusion h

/-- C3 (amended): a command that returns an error emits no trades and no
view updates, and leaves the book state exactly unchanged — except that an
amend supplying both a valid (positive) new quantity and an invalid new
price returns a tick-alignment error with the quantity mutation already
applied to the resting entry, refuting the claim's final sentence. -/
theorem claim_error_state_frame (now : Nat) (c : Command) (ob : OrderBook)
    (e : BookError) (herr : (step now c ob).2.2.2 = some e) :
    (step now c ob).2.1 = [] ∧ (step now c ob).2.2.1 = [] ∧
    ((step now c ob).1 = ob ∨ amendQtyException c ob (step now c ob).1 e) := by
  rcases c with o | id | ⟨id, p, q⟩
  · rw [step] at herr ⊢
    dsimp only at herr ⊢
    have hfr := processAdd_err_frame now o ob e herr
    refine ⟨hfr.2, ?_, Or.inl hfr.1⟩
    rw [if_neg (by rw [herr]; exact fun hh => Option.noConfusion hh)]
  · rw [step] at herr ⊢
    dsimp only at herr ⊢
    refine ⟨rfl, ?_, Or.inl (processCancel_err_frame id ob e herr)⟩
    rw [if_neg (by rw [herr]; exact fun hh => Option.noConfusion hh)]
  · rw [step] at herr ⊢
    dsimp only at herr ⊢
    refine ⟨rfl, ?_, processAmend_err_cases now id p q ob e herr⟩
    rw [if_neg (by rw [herr]; exact fun hh => Option.noConfusion hh)]

/-- C3 witness: a cancel of an unknown id errs and the frame holds. -/
theorem claim_error_state_frame_witness :
    (step 0 (Command.cancel "zz") (NewOrderBook cfgS)).2.1 = [] ∧
    (step 0 (Command.cancel "zz") (NewOrderBook cfgS)).2.2.1 = [] ∧
    ((step 0 (Command.cancel "zz") (NewOrderBook cfgS)).1 = NewOrderBook cfgS ∨
      amendQtyException (Command.cancel "zz") (NewOrderBook cfgS)
        (step 0 (Command.cancel "zz") (NewOrderBook cfgS)).1 BookError.notFound) :=
  claim_error_state_frame 0 (Command.cancel "zz") (NewOrderBook cfgS)
    BookError.notFound (by decide)

/-- C3 counterexample to the original claim: on a tick-2 book holding bid
`b1` (price 10, quantity 5), amending `b1` to price 7 and quantity 2
returns a tick-alignment error, yet the resting order's quantity has
changed from 5 to 2. -/
theorem claim_error_state_frame_counterexample :
    (step 1 (Command.amend "b1" (some 7) (some 2)) bookC3).2.2.2 =
        some BookError.tickAlignment ∧
    bookC3.bids.map (fun en => en.order.quantity) = [5] ∧
    (step 1 (Command.amend "b1" (some 7) (some 2)) bookC3).1.bids.map
        (fun en => en.order.quantity) = [2] := by decide

theorem homog_of_subset {β : Bool} {q q' : List Entry}
    (hsub : ∀ e ∈ q', e ∈ q) (h : homog β q) : homog β q' :=
  fun e he => h e (hsub e he)

/-- The comparator only reads price, timestamp and sequence (and the left
side flag), never `remaining` or the other order fields. -/
theorem sideLess_congr_left (β : Bool) (a a' b : Entry)
    (h1 : a'.order.price = a.order.price)
    (h2 : a'.order.timestamp = a.order.timestamp)
    (h3 : a'.order.sequence = a.order.sequence) :
    sideLess β a' b = sideLess β a b := by
  rw [sideLess, sideLess, h1, h2, h3]

theorem sideLess_congr_right (β : Bool) (a b b' : Entry)
    (h1 : b'.order.price = b.order.price)
    (h2 : b'.order.timestamp = b.order.timestamp)
    (h3 : b'.order.sequence = b.order.sequence) :
    sideLess β a b' = sideLess β a b := by
  rw [sideLess, sideLess, h1, h2, h3]

/-- Replacing one element with a comparison-equivalent one keeps the heap
order. -/
theorem heapInv_set_key [Inhabited α] {less : α → α → Bool} (l : List α)
    (i : Nat) (a : α) (h : heapInv less l)
    (hl : ∀ x, less a x = less (lget l i) x)
    (hr : ∀ x, less x a = less x (lget l i)) :
    heapInv less (l.set i a) := by
  intro c hc1 hcn
  rw [List.length_set] at hcn
  have hcp : (c - 1) / 2 ≠ c := by omega
  by_cases hci : c = i
  · subst hci
    rw [lget_set_eq l c a hcn, lget_set_ne l c ((c - 1) / 2) a (fun hh => hcp hh.symm)]
    rw [hl]
    exact h c hc1 hcn
  · rw [lget_set_ne l i c a (fun hh => hci hh.symm)]
    by_cases hpi : (c - 1) / 2 = i
    · rw [hpi, lget_set_eq l i a (by omega), hr, ← hpi]
      exact h c hc1 hcn
    · rw [lget_set_ne l i ((c - 1) / 2) a (fun hh => hpi hh.symm)]
      exact h c hc1 hcn

/-- Replacing an element then calling `Fix` there restores the heap order. -/
theorem heapFix_set_heapInv [Inhabited α] {less : α → α → Bool} (hw : IsSWO less)
    (l : List α) (i : Nat) (a : α) (hi : i < l.length) (h : heapInv less l) :
    heapInv less (heapFix less (l.set i a) i) := by
  apply heapFix_heapInv hw (l.set i a) i (by rw [List.length_set]; exact hi)
  · intro c hc1 hcn hci hpci
    rw [List.length_set] at hcn
    rw [lget_set_ne l i c a (fun hh => hci hh.symm),
      lget_set_ne l i ((c - 1) / 2) a (fun hh => hpci hh.symm)]
    exact h c hc1 hcn
  · intro hi1 c hcn hcc
    rw [List.length_set] at hcn
    have hci : c ≠ i := by omega
    have hpii : (i - 1) / 2 ≠ i := by omega
    rw [lget_set_ne l i c a (fun hh => hci hh.symm),
      lget_set_ne l i ((i - 1) / 2) a (fun hh => hpii hh.symm)]
    have hcv : less (lget l c) (lget l i) = false := by
      have := h c (by omega) hcn
      have hpc : (c - 1) / 2 = i := by omega
      rw [hpc] at this
      exact this
    exact hw.2.2 _ _ _ hcv (h i hi1 hi)

/-- `Fix` on an already heap-ordered list keeps the order. -/
theorem heapFix_heapInv_of_heapInv [Inhabited α] {less : α → α → Bool}
    (hw : IsSWO less) (l : List α) (i : Nat) (hi : i < l.length)
    (h : heapInv less l) : heapInv less (heapFix less l i) := by
  apply heapFix_heapInv hw l i hi
  · intro c hc1 hcn _ _
    exact h c hc1 hcn
  · intro hi1 c hcn hcc
    have hcv : less (lget l c) (lget l i) = false := by
      have := h c (by omega) hcn
      have hpc : (c - 1) / 2 = i := by omega
      rw [hpc] at this
      exact this
    exact hw.2.2 _ _ _ hcv (h i hi1 hi)

theorem heapPop_nil [Inhabited α] (less : α → α → Bool) :
    (heapPop less ([] : List α)).1 = [] := by
  rw [heapPop]
  dsimp only
  rw [show lswap ([] : List α) 0 ([].length - 1) = [] from rfl,
    heapDownAux_eq]
  simp

theorem heapPop_subset [Inhabited α] (less : α → α → Bool) (l : List α) :
    ∀ e ∈ (heapPop less l).1, e ∈ l := by
  rcases List.eq_nil_or_concat l with hnil | ⟨l', x, hx⟩
  · subst hnil
    rw [heapPop_nil]
    intro e he
    exact absurd he (List.not_mem_nil e)
  · have hne : l ≠ [] := by subst hx; simp
    intro e he
    have := (heapPop_perm less l hne).mem_iff.mp he
    exact List.mem_of_mem_tail this

/-! ### `WFQueue` preservation by the queue operations (run with
`entryLess`, transferred to `sideLess` on homogeneous queues) -/

theorem WFQueue_pop (β : Bool) (q : List Entry) (h : WFQueue β q) :
    WFQueue β (heapPop entryLess q).1 := by
  rw [heapPop_congr entryLess (sideLess β) q (homog_agree h.1)]
  refine ⟨homog_of_subset (heapPop_subset (sideLess β) q) h.1, ?_⟩
  exact heapPop_heapInv (sideLess_isSWO β) q h.2

theorem WFQueue_push (β : Bool) (q : List Entry) (x : Entry) (hx : x.isBid = β)
    (h : WFQueue β q) : WFQueue β (heapPush entryLess q x) := by
  have hhom : homog β (q ++ [x]) := by
    intro e he
    rcases List.mem_append.mp he with h1 | h1
    · exact h.1 e h1
    · rw [List.mem_singleton.mp h1]
      exact hx
  rw [heapPush_congr entryLess (sideLess β) q x (homog_agree hhom)]
  have hperm := heapPush_perm (sideLess β) q x
  refine ⟨homog_of_subset (fun e he => ?_) hhom, ?_⟩
  · rcases List.mem_cons.mp (hperm.mem_iff.mp he) with h1 | h1
    · rw [h1]; exact List.mem_append.mpr (Or.inr (List.mem_singleton.mpr rfl))
    · exact List.mem_append.mpr (Or.inl h1)
  · exact heapPush_heapInv (sideLess_isSWO β) q x h.2

theorem WFQueue_remove (β : Bool) (q : List Entry) (i : Nat) (hi : i < q.length)
    (h : WFQueue β q) : WFQueue β (heapRemove entryLess q i).1 := by
  rw [heapRemove_congr entryLess (sideLess β) q i hi (homog_agree h.1)]
  have hperm := heapRemove_perm (sideLess β) q i hi
  refine ⟨homog_of_subset (fun e he => ?_) h.1, ?_⟩
  · exact List.mem_of_mem_eraseIdx (hperm.mem_iff.mp he)
  · exact heapRemove_heapInv (sideLess_isSWO β) q i hi h.2

theorem WFQueue_fix_set (β : Bool) (q : List Entry) (i : Nat) (a : Entry)
    (hi : i < q.length) (ha : a.isBid = β) (h : WFQueue β q) :
    WFQueue β (heapFix entryLess (q.set i a) i) := by
  have hhom : homog β (q.set i a) := by
    intro e he
    rcases List.mem_or_eq_of_mem_set he with h1 | h1
    · exact h.1 e h1
    · rw [h1]; exact ha
  rw [heapFix_congr entryLess (sideLess β) (q.set i a) i
    (by rw [List.length_set]; exact hi) (homog_agree hhom)]
  have hperm := heapFix_perm (sideLess β) (q.set i a) i
    (by rw [List.length_set]; exact hi)
  refine ⟨homog_of_subset (fun e he => hperm.mem_iff.mp he) hhom, ?_⟩
  exact heapFix_set_heapInv (sideLess_isSWO β) q i a hi h.2

/-! ### Bounds for `findWorstIndex` -/

theorem foldl_inv {ι γ : Type} (P : γ → Prop) (l : List ι) (f : γ → ι → γ)
    (a : γ) (h0 : P a) (hstep : ∀ acc x, x ∈ l → P acc → P (f acc x)) :
    P (l.foldl f a) := by
  induction l generalizing a with
  | nil => exact h0
  | cons x xs ih =>
    rw [List.foldl_cons]
    exact ih (f a x) (hstep a x (List.mem_cons_self x xs) h0)
      (fun acc y hy hacc => hstep acc y (List.mem_cons_of_mem x hy) hacc)

theorem findWorstIndex_nonneg (q : List Entry) (isBid : Bool)
    (h : q.length ≠ 0) : 0 ≤ findWorstIndex q isBid := by
  rw [findWorstIndex, if_neg h]
  exact Int.natCast_nonneg _

theorem findWorstIndex_toNat_lt (q : List Entry) (isBid : Bool)
    (h : q.length ≠ 0) : (findWorstIndex q isBid).toNat < q.length := by
  rw [findWorstIndex, if_neg h, Int.toNat_natCast]
  apply foldl_inv (fun acc => acc < q.length)
  · omega
  · intro acc x hx hacc
    have hxl : x < q.length := List.mem_range.mp hx
    split_ifs <;> omega

/-! ### Depth trimming preserves well-formedness and only drops entries -/

theorem trimDepth_WF (β : Bool) :
    ∀ (n : Nat) (q : List Entry), q.length ≤ n →
      ∀ (orders : OrdersMap) (maxDepth : Int), WFQueue β q →
      WFQueue β (trimDepth maxDepth β q orders).1 ∧
        (∀ e ∈ (trimDepth maxDepth β q orders).1, e ∈ q) := by
  intro n
  induction n with
  | zero =>
    intro q hq orders maxDepth h
    have hq0 : q.length = 0 := by omega
    rw [trimDepth_eq, if_neg (by rw [hq0]; rintro ⟨h1, h2⟩; simp at h2; omega)]
    exact ⟨h, fun e he => he⟩
  | succ m ih =>
    intro q hq orders maxDepth h
    rw [trimDepth_eq]
    by_cases hcond : maxDepth > 0 ∧ (q.length : Int) > maxDepth
    · rw [if_pos hcond]
      have hlen : q.length ≠ 0 := by
        intro h0
        rw [h0] at hcond
        simp at hcond
        omega
      rw [if_neg (by
        have := findWorstIndex_nonneg q β hlen
        omega)]
      have hidx := findWorstIndex_toNat_lt q β hlen
      have hwf := WFQueue_remove β q _ hidx h
      have hsub : ∀ e ∈ (heapRemove entryLess q (findWorstIndex q β).toNat).1,
          e ∈ q := by
        intro e he
        exact List.mem_of_mem_eraseIdx
          ((heapRemove_perm entryLess q _ hidx).mem_iff.mp he)
      have hshort : (heapRemove entryLess q (findWorstIndex q β).toNat).1.length =
          q.length - 1 := heapRemove_length ..
      obtain ⟨h1, h2⟩ := ih _ (by omega) _ maxDepth hwf
      exact ⟨h1, fun e he => hsub e (h2 e he)⟩
    · rw [if_neg hcond]
      exact ⟨h, fun e he => he⟩

theorem keyEq_refl (e : Entry) : keyEq e e := ⟨rfl, rfl, rfl⟩

theorem keyEq_trans {e f g : Entry} (h1 : keyEq e f) (h2 : keyEq f g) :
    keyEq e g := by
  obtain ⟨ht1, hb1, ho1⟩ := h1
  obtain ⟨ht2, hb2, ho2⟩ := h2
  refine ⟨ht1.trans ht2, hb1.trans hb2, ?_⟩
  rw [ho1, ho2]

theorem keyEq_fields {e f : Entry} (h : keyEq e f) :
    e.tag = f.tag ∧ e.isBid = f.isBid ∧ e.order.id = f.order.id ∧
    e.order.symbol = f.order.symbol ∧ e.order.side = f.order.side ∧
    e.order.type = f.order.type ∧ e.order.price = f.order.price ∧
    e.order.quantity = f.order.quantity ∧
    e.order.timestamp = f.order.timestamp ∧
    e.order.sequence = f.order.sequence := by
  obtain ⟨ht, hb, ho⟩ := h
  refine ⟨ht, hb, ?_, ?_, ?_, ?_, ?_, ?_, ?_, ?_⟩ <;> rw [ho]

theorem peek_mem (q : List Entry) (best : Entry) (h : peek q = some best) :
    best ∈ q := by
  rw [peek] at h
  exact List.mem_of_mem_head? h

theorem peek_lget_zero (q : List Entry) (best : Entry) (h : peek q = some best) :
    lget q 0 = best ∧ q ≠ [] := by
  rw [peek] at h
  have hne : q ≠ [] := by
    intro h0
    rw [h0] at h
    exact Option.noConfusion h
  constructor
  · have := head_eq_lget_zero q hne
    rw [this] at h
    simpa using h
  · exact hne

theorem matchStep_WF (now : Nat) (s : LoopState) (t : MatchResult)
    (s' : LoopState) (β : Bool) (h : matchStep now s = some (t, s'))
    (hwf : WFQueue β s.opposing) : WFQueue β s'.opposing := by
  obtain ⟨best, hpeek, hcases⟩ := matchStep_queues now s t s' h
  obtain ⟨hz, hne⟩ := peek_lget_zero s.opposing best hpeek
  have hlen : 0 < s.opposing.length := List.length_pos.mpr hne
  have hbb : best.isBid = β := hwf.1 best (peek_mem s.opposing best hpeek)
  rcases hcases with ⟨_, hop, _⟩ | ⟨_, hop, _⟩
  · rw [hop]
    apply WFQueue_pop β
    have hset : WFQueue β (s.opposing.set 0
        { best with order := { best.order with remaining := best.order.remaining - t.quantity } }) := by
      refine ⟨?_, ?_⟩
      · intro e he
        rcases List.mem_or_eq_of_mem_set he with h1 | h1
        · exact hwf.1 e h1
        · rw [h1]; exact hbb
      · apply heapInv_set_key s.opposing 0 _ hwf.2
        · intro x
          rw [hz]
          exact sideLess_congr_left β best _ x rfl rfl rfl
        · intro x
          rw [hz]
          exact sideLess_congr_right β x best _ rfl rfl rfl
    exact hset
  · rw [hop]
    exact WFQueue_fix_set β s.opposing 0 _ hlen hbb hwf

theorem matchStep_opposing_keyEq (now : Nat) (s : LoopState) (t : MatchResult)
    (s' : LoopState) (h : matchStep now s = some (t, s')) :
    ∀ e ∈ s'.opposing, ∃ f ∈ s.opposing, keyEq e f := by
  obtain ⟨best, hpeek, hcases⟩ := matchStep_queues now s t s' h
  have hmem := peek_mem s.opposing best hpeek
  have hkey : keyEq { best with order :=
      { best.order with remaining := best.order.remaining - t.quantity } } best :=
    ⟨rfl, rfl, rfl⟩
  have hofset : ∀ e ∈ s.opposing.set 0 { best with order :=
      { best.order with remaining := best.order.remaining - t.quantity } },
      ∃ f ∈ s.opposing, keyEq e f := by
    intro e he
    rcases List.mem_or_eq_of_mem_set he with h1 | h1
    · exact ⟨e, h1, keyEq_refl e⟩
    · rw [h1]
      exact ⟨best, hmem, hkey⟩
  rcases hcases with ⟨_, hop, _⟩ | ⟨_, hop, _⟩
  · rw [hop]
    intro e he
    exact hofset e (heapPop_subset entryLess _ e he)
  · rw [hop]
    intro e he
    have hlen : 0 < s.opposing.length :=
      List.length_pos.mpr (peek_lget_zero s.opposing best hpeek).2
    have hperm := heapFix_perm entryLess (s.opposing.set 0 { best with order :=
      { best.order with remaining := best.order.remaining - t.quantity } }) 0
      (by rw [List.length_set]; exact hlen)
    exact hofset e (hperm.mem_iff.mp he)

theorem matchLoop_WF (now : Nat) (β : Bool) :
    ∀ s : LoopState, WFQueue β s.opposing →
      WFQueue β (matchLoop now s).1.opposing := by
  intro s
  induction s using matchLoop_ind now with
  | case1 s h =>
    intro hwf
    rw [matchLoop_eq]
    split
    · exact hwf
    · next t s' hs => rw [hs] at h; exact absurd h (by simp)
  | case2 s t s' h ih =>
    intro hwf
    rw [matchLoop_eq]
    split
    · next hn => rw [hn] at h; exact absurd h (by simp)
    · next t2 s2 hs =>
      rw [hs] at h
      injection h with hx
      injection hx with h1 h2
      subst h1
      subst h2
      exact ih (matchStep_WF now s t2 s2 β hs hwf)

theorem matchLoop_opposing_keyEq (now : Nat) :
    ∀ s : LoopState, ∀ e ∈ (matchLoop now s).1.opposing,
      ∃ f ∈ s.opposing, keyEq e f := by
  intro s
  induction s using matchLoop_ind now with
  | case1 s h =>
    rw [matchLoop_eq]
    split
    · exact fun e he => ⟨e, he, keyEq_refl e⟩
    · next t s' hs => rw [hs] at h; exact absurd h (by simp)
  | case2 s t s' h ih =>
    rw [matchLoop_eq]
    split
    · next hn => rw [hn] at h; exact absurd h (by simp)
    · next t2 s2 hs =>
      rw [hs] at h
      injection h with hx
      injection hx with h1 h2
      subst h1
      subst h2
      intro e he
      obtain ⟨f, hf, hef⟩ := ih e he
      obtain ⟨g, hg, hfg⟩ := matchStep_opposing_keyEq now s t2 s2 hs f hf
      exact ⟨g, hg, keyEq_trans hef hfg⟩

/-- Why the loop stopped: filled, empty opposing queue, or the limit price
check. -/
theorem matchStep_none_cases (now : Nat) (s : LoopState)
    (h : matchStep now s = none) :
    s.incoming.remaining ≤ 0 ∨ peek s.opposing = none ∨
      (∃ best, peek s.opposing = some best ∧
        s.incoming.type = OrderType.Limit ∧
        ((s.incoming.side = Side.Buy ∧ s.incoming.price < best.order.price) ∨
         (s.incoming.side = Side.Sell ∧ s.incoming.price > best.order.price))) := by
  rw [matchStep] at h
  split at h
  · next hrem =>
    split at h
    · next hpeek => exact Or.inr (Or.inl hpeek)
    · next best hpeek =>
      split at h
      · next hprice => exact Or.inr (Or.inr ⟨best, hpeek, hprice.1, hprice.2⟩)
      · exfalso
        revert h
        dsimp only
        split <;> exact fun h => Option.noConfusion h
  · next hrem => exact Or.inl (by omega)

/-! ### The queue top is priority-maximal -/

theorem WFQueue_root_max (β : Bool) (q : List Entry) (best : Entry)
    (h : WFQueue β q) (hpeek : peek q = some best) :
    ∀ e ∈ q, sideLess β e best = false := by
  intro e he
  obtain ⟨hz, hne⟩ := peek_lget_zero q best hpeek
  obtain ⟨k, hk, hke⟩ := List.getElem_of_mem he
  have := heapInvTo_root_min (sideLess_isSWO β) q q.length h.2 k hk
  rw [hz] at this
  rw [← hke, ← lget_eq_getElem q k hk]
  exact this

theorem sideLess_false_consequences (β : Bool) (e b : Entry)
    (h : sideLess β e b = false) :
    (β = true → e.order.price ≤ b.order.price) ∧
    (β = false → b.order.price ≤ e.order.price) ∧
    (e.order.price = b.order.price → b.order.timestamp ≤ e.order.timestamp ∧
      (e.order.timestamp = b.order.timestamp →
        b.order.sequence ≤ e.order.sequence)) := by
  rw [sideLess] at h
  split_ifs at h <;> simp_all <;> omega

theorem MatchReaches_WF (now : Nat) (β : Bool) (s s1 : LoopState)
    (hreach : MatchReaches now s s1) (hwf : WFQueue β s.opposing) :
    WFQueue β s1.opposing := by
  induction hreach with
  | refl => exact hwf
  | tail h1 h2 ih =>
    obtain ⟨t, hstep⟩ := h2
    exact matchStep_WF now _ t _ β hstep ih

/-- C7: during a submit's matching loop over a well-formed opposing queue,
every trade consumes the priority-maximal resting entry: no resting entry
compares strictly better than the traded counterparty under the
price-time-sequence comparator — for bids no higher price, for asks no
lower price, on price ties no earlier timestamp, and on timestamp ties no
lower sequence. -/
theorem claim_price_time_priority (now : Nat) (β : Bool) (s s1 s2 : LoopState)
    (t : MatchResult) (hwf : WFQueue β s.opposing)
    (hreach : MatchReaches now s s1)
    (hstep : matchStep now s1 = some (t, s2)) :
    ∃ best, peek s1.opposing = some best ∧ t.price = best.order.price ∧
      t.quantity = min s1.incoming.remaining best.order.remaining ∧
      ∀ e ∈ s1.opposing, sideLess β e best = false ∧
        (β = true → e.order.price ≤ best.order.price) ∧
        (β = false → best.order.price ≤ e.order.price) ∧
        (e.order.price = best.order.price →
          best.order.timestamp ≤ e.order.timestamp ∧
          (e.order.timestamp = best.order.timestamp →
            best.order.sequence ≤ e.order.sequence)) := by
  have hwf1 := MatchReaches_WF now β s s1 hreach hwf
  obtain ⟨best, hpeek, hprice, hqty, _⟩ := matchStep_emit now s1 t s2 hstep
  refine ⟨best, hpeek, hprice, hqty, ?_⟩
  intro e he
  have hmax := WFQueue_root_max β s1.opposing best hwf1 hpeek e he
  exact ⟨hmax, sideLess_false_consequences β e best hmax⟩

/-- Decidable sufficient check for `heapInv` (used to discharge concrete
instances). -/
theorem heapInv_of_all [Inhabited α] (less : α → α → Bool) (l : List α)
    (h : ((List.range l.length).all
      (fun c => decide (c = 0) || !less (lget l c) (lget l ((c - 1) / 2)))) = true) :
    heapInv less l := by
  intro c hc1 hcn
  have hx := List.all_eq_true.mp h c (List.mem_range.mpr hcn)
  simp only [Bool.or_eq_true, decide_eq_true_eq, Bool.not_eq_eq_eq_not,
    Bool.not_true] at hx
  rcases hx with h0 | h0
  · omega
  · simpa using h0

theorem MatchReaches_refl (now : Nat) (s : LoopState) : MatchReaches now s s :=
  Relation.ReflTransGen.refl

/-- Decidable sufficient check for `homog`. -/
theorem homog_of_all (β : Bool) (q : List Entry)
    (h : (q.all fun e => e.isBid == β) = true) : homog β q := by
  intro e he
  have := List.all_eq_true.mp h e he
  simpa using this

/-- C7 witness: on a two-ask book the marketable buy trades against the
lower-priced ask first. -/
theorem claim_price_time_priority_witness :
    ∃ best, peek sC7.opposing = some best ∧ tC7.price = best.order.price ∧
      tC7.quantity = min sC7.incoming.remaining best.order.remaining ∧
      ∀ e ∈ sC7.opposing, sideLess false e best = false ∧
        (false = true → e.order.price ≤ best.order.price) ∧
        (false = false → best.order.price ≤ e.order.price) ∧
        (e.order.price = best.order.price →
          best.order.timestamp ≤ e.order.timestamp ∧
          (e.order.timestamp = best.order.timestamp →
            best.order.sequence ≤ e.order.sequence)) :=
  claim_price_time_priority 1 false sC7 sC7 s2C7 tC7
    ⟨homog_of_all false sC7.opposing (by decide),
      heapInv_of_all (sideLess false) sC7.opposing (by decide)⟩
    (MatchReaches_refl 1 sC7) (by decide)

/-! ### The loop only rewrites the incoming order's `remaining` -/

theorem matchLoop_incoming_fields (now : Nat) :
    ∀ s : LoopState,
      (matchLoop now s).1.incoming.id = s.incoming.id ∧
      (matchLoop now s).1.incoming.symbol = s.incoming.symbol ∧
      (matchLoop now s).1.incoming.side = s.incoming.side ∧
      (matchLoop now s).1.incoming.type = s.incoming.type ∧
      (matchLoop now s).1.incoming.price = s.incoming.price ∧
      (matchLoop now s).1.incoming.quantity = s.incoming.quantity ∧
      (matchLoop now s).1.incoming.timestamp = s.incoming.timestamp ∧
      (matchLoop now s).1.incoming.sequence = s.incoming.sequence := by
  intro s
  induction s using matchLoop_ind now with
  | case1 s h =>
    rw [matchLoop_eq]
    split
    · exact ⟨rfl, rfl, rfl, rfl, rfl, rfl, rfl, rfl⟩
    · next t s' hs => rw [hs] at h; exact absurd h (by simp)
  | case2 s t s' h ih =>
    rw [matchLoop_eq]
    split
    · next hn => rw [hn] at h; exact absurd h (by simp)
    · next t2 s2 hs =>
      rw [hs] at h
      injection h with hx
      injection hx with h1 h2
      subst h1
      subst h2
      obtain ⟨_, _, _, _, _, _, _, _, hinc, _⟩ := matchStep_emit now s t2 s2 hs
      dsimp only
      rw [ih.1, ih.2.1, ih.2.2.1, ih.2.2.2.1, ih.2.2.2.2.1, ih.2.2.2.2.2.1,
        ih.2.2.2.2.2.2.1, ih.2.2.2.2.2.2.2, hinc]
      exact ⟨rfl, rfl, rfl, rfl, rfl, rfl, rfl, rfl⟩

/-- Case analysis of `OrderBook.match` after the loop: either the remainder
does not rest (filled or market), or it is pushed on the resting queue and
the queue is depth-trimmed, on the side given by the incoming order. -/
theorem matchFn_cases (now : Nat) (incoming : Order)
    (opposing restingQ : List Entry) (orders : OrdersMap) (maxDepth : Int)
    (tag : Nat) :
    (¬((matchLoop now ⟨incoming, opposing, orders⟩).1.incoming.remaining > 0 ∧
        (matchLoop now ⟨incoming, opposing, orders⟩).1.incoming.type = OrderType.Limit) ∧
      matchFn now incoming opposing restingQ orders maxDepth tag =
        ⟨(matchLoop now ⟨incoming, opposing, orders⟩).1.incoming,
         (matchLoop now ⟨incoming, opposing, orders⟩).1.opposing, restingQ,
         (matchLoop now ⟨incoming, opposing, orders⟩).1.orders,
         (matchLoop now ⟨incoming, opposing, orders⟩).2, tag⟩) ∨
    (((matchLoop now ⟨incoming, opposing, orders⟩).1.incoming.remaining > 0 ∧
        (matchLoop now ⟨incoming, opposing, orders⟩).1.incoming.type = OrderType.Limit) ∧
      (matchLoop now ⟨incoming, opposing, orders⟩).1.incoming.side = Side.Buy ∧
      matchFn now incoming opposing restingQ orders maxDepth tag =
        ⟨(matchLoop now ⟨incoming, opposing, orders⟩).1.incoming,
         (matchLoop now ⟨incoming, opposing, orders⟩).1.opposing,
         (trimDepth maxDepth true
           (heapPush entryLess restingQ
             ⟨tag, (matchLoop now ⟨incoming, opposing, orders⟩).1.incoming,
              (matchLoop now ⟨incoming, opposing, orders⟩).1.incoming.side = Side.Buy⟩)
           (mapInsert (matchLoop now ⟨incoming, opposing, orders⟩).1.orders
             (matchLoop now ⟨incoming, opposing, orders⟩).1.incoming.id tag)).1,
         (trimDepth maxDepth true
           (heapPush entryLess restingQ
             ⟨tag, (matchLoop now ⟨incoming, opposing, orders⟩).1.incoming,
              (matchLoop now ⟨incoming, opposing, orders⟩).1.incoming.side = Side.Buy⟩)
           (mapInsert (matchLoop now ⟨incoming, opposing, orders⟩).1.orders
             (matchLoop now ⟨incoming, opposing, orders⟩).1.incoming.id tag)).2,
         (matchLoop now ⟨incoming, opposing, orders⟩).2, tag + 1⟩) ∨
    (((matchLoop now ⟨incoming, opposing, orders⟩).1.incoming.remaining > 0 ∧
        (matchLoop now ⟨incoming, opposing, orders⟩).1.incoming.type = OrderType.Limit) ∧
      ¬(matchLoop now ⟨incoming, opposing, orders⟩).1.incoming.side = Side.Buy ∧
      matchFn now incoming opposing restingQ orders maxDepth tag =
        ⟨(matchLoop now ⟨incoming, opposing, orders⟩).1.incoming,
         (matchLoop now ⟨incoming, opposing, orders⟩).1.opposing,
         (trimDepth maxDepth false
           (heapPush entryLess restingQ
             ⟨tag, (matchLoop now ⟨incoming, opposing, orders⟩).1.incoming,
              (matchLoop now ⟨incoming, opposing, orders⟩).1.incoming.side = Side.Buy⟩)
           (mapInsert (matchLoop now ⟨incoming, opposing, orders⟩).1.orders
             (matchLoop now ⟨incoming, opposing, orders⟩).1.incoming.id tag)).1,
         (trimDepth maxDepth false
           (heapPush entryLess restingQ
             ⟨tag, (matchLoop now ⟨incoming, opposing, orders⟩).1.incoming,
              (matchLoop now ⟨incoming, opposing, orders⟩).1.incoming.side = Side.Buy⟩)
           (mapInsert (matchLoop now ⟨incoming, opposing, orders⟩).1.orders
             (matchLoop now ⟨incoming, opposing, orders⟩).1.incoming.id tag)).2,
         (matchLoop now ⟨incoming, opposing, orders⟩).2, tag + 1⟩) := by
  rw [matchFn]
  dsimp only
  by_cases hc : (matchLoop now ⟨incoming, opposing, orders⟩).1.incoming.remaining > 0 ∧
      (matchLoop now ⟨incoming, opposing, orders⟩).1.incoming.type = OrderType.Limit
  · rw [if_pos hc]
    by_cases hside : (matchLoop now ⟨incoming, opposing, orders⟩).1.incoming.side = Side.Buy
    · rw [if_pos hside]
      exact Or.inr (Or.inl ⟨hc, hside, rfl⟩)
    · rw [if_neg hside]
      exact Or.inr (Or.inr ⟨hc, hside, rfl⟩)
  · rw [if_neg hc]
    exact Or.inl ⟨hc, rfl⟩

theorem processAdd_state_buy (now : Nat) (order : Order) (ob : OrderBook)
    (hok : (processAdd now order ob).2.2 = none) (hbuy : order.side = Side.Buy) :
    (processAdd now order ob).1 =
      { ob with
          seq := ob.seq + 1
          asks := (matchFn now (prepared now order ob) ob.asks ob.bids ob.orders
            ob.cfg.maxDepth ob.nextTag).opposing
          bids := (matchFn now (prepared now order ob) ob.asks ob.bids ob.orders
            ob.cfg.maxDepth ob.nextTag).restingQ
          orders := (matchFn now (prepared now order ob) ob.asks ob.bids ob.orders
            ob.cfg.maxDepth ob.nextTag).orders
          nextTag := (matchFn now (prepared now order ob) ob.asks ob.bids ob.orders
            ob.cfg.maxDepth ob.nextTag).nextTag } := by
  obtain ⟨hs, hq, hl⟩ := (processAdd_err_none_iff now order ob).mp hok
  rw [processAdd, if_neg (by simpa using hs), if_neg (by omega),
    if_neg (by rintro ⟨hlim, ht⟩; have := (hl hlim).1; omega),
    if_neg (by
      rintro ⟨hlim, hd⟩
      obtain ⟨_, hp, hm⟩ := hl hlim
      rcases hd with hh | hh
      · omega
      · exact hh hm)]
  dsimp only
  rw [if_pos hbuy]
  rfl

theorem processAdd_state_sell (now : Nat) (order : Order) (ob : OrderBook)
    (hok : (processAdd now order ob).2.2 = none)
    (hsell : ¬ order.side = Side.Buy) :
    (processAdd now order ob).1 =
      { ob with
          seq := ob.seq + 1
          bids := (matchFn now (prepared now order ob) ob.bids ob.asks ob.orders
            ob.cfg.maxDepth ob.nextTag).opposing
          asks := (matchFn now (prepared now order ob) ob.bids ob.asks ob.orders
            ob.cfg.maxDepth ob.nextTag).restingQ
          orders := (matchFn now (prepared now order ob) ob.bids ob.asks ob.orders
            ob.cfg.maxDepth ob.nextTag).orders
          nextTag := (matchFn now (prepared now order ob) ob.bids ob.asks ob.orders
            ob.cfg.maxDepth ob.nextTag).nextTag } := by
  obtain ⟨hs, hq, hl⟩ := (processAdd_err_none_iff now order ob).mp hok
  rw [processAdd, if_neg (by simpa using hs), if_neg (by omega),
    if_neg (by rintro ⟨hlim, ht⟩; have := (hl hlim).1; omega),
    if_neg (by
      rintro ⟨hlim, hd⟩
      obtain ⟨_, hp, hm⟩ := hl hlim
      rcases hd with hh | hh
      · omega
      · exact hh hm)]
  dsimp only
  rw [if_neg hsell]
  rfl

theorem WFQueue_nil (β : Bool) : WFQueue β [] :=
  ⟨fun e he => absurd he (List.not_mem_nil e),
   fun c hc1 hcn => by simp at hcn⟩

theorem BookWF_new (cfg : OrderBookConfig) : BookWF (NewOrderBook cfg) :=
  ⟨WFQueue_nil true, WFQueue_nil false,
   fun b hb => absurd hb (List.not_mem_nil b)⟩

theorem peek_none (q : List Entry) (h : peek q = none) : q = [] := by
  rwa [peek, List.head?_eq_none_iff] at h

theorem derefTag_mem (ob : OrderBook) (tag : Nat) (entry : Entry)
    (h : derefTag ob tag = some entry) :
    (entry ∈ ob.bids ∨ entry ∈ ob.asks) ∧ entry.tag = tag := by
  rw [derefTag] at h
  rcases hfb : ob.bids.find? (fun e => e.tag = tag) with _ | e
  · rw [hfb] at h
    dsimp only at h
    refine ⟨Or.inr (List.mem_of_find?_eq_some h), ?_⟩
    have := List.find?_some h
    simpa using this
  · rw [hfb] at h
    dsimp only at h
    injection h with he
    subst he
    refine ⟨Or.inl (List.mem_of_find?_eq_some hfb), ?_⟩
    have := List.find?_some hfb
    simpa using this

theorem findTagIdx_lt (q : List Entry) (tag : Nat) (e : Entry) (he : e ∈ q)
    (ht : e.tag = tag) : findTagIdx q tag < q.length := by
  rw [findTagIdx]
  apply List.findIdx_lt_length_of_exists
  exact ⟨e, he, by simp [ht]⟩

/-- On a well-formed book, a dereferenced entry rests on the side its
`isBid` flag names, at a valid position. -/
theorem derefTag_side (ob : OrderBook) (tag : Nat) (entry : Entry)
    (hwb : homog true ob.bids) (hwa : homog false ob.asks)
    (h : derefTag ob tag = some entry) :
    (entry.isBid = true → entry ∈ ob.bids ∧ findTagIdx ob.bids tag < ob.bids.length) ∧
    (entry.isBid = false → entry ∈ ob.asks ∧ findTagIdx ob.asks tag < ob.asks.length) := by
  obtain ⟨hmem, htag⟩ := derefTag_mem ob tag entry h
  constructor
  · intro hb
    have hin : entry ∈ ob.bids := by
      rcases hmem with hm | hm
      · exact hm
      · rw [hwa entry hm] at hb
        exact absurd hb (by simp)
    exact ⟨hin, findTagIdx_lt ob.bids tag entry hin htag⟩
  · intro hb
    have hin : entry ∈ ob.asks := by
      rcases hmem with hm | hm
      · rw [hwb entry hm] at hb
        exact absurd hb (by simp)
      · exact hm
    exact ⟨hin, findTagIdx_lt ob.asks tag entry hin htag⟩

theorem processCancel_BookWF (id : String) (ob : OrderBook) (h : BookWF ob) :
    BookWF (processCancel id ob).1 := by
  rw [processCancel]
  rcases hm : mapLookup ob.orders id with _ | tag
  · exact h
  · dsimp only
    rcases hd : derefTag ob tag with _ | entry
    · exact h
    · dsimp only
      have hside := derefTag_side ob tag entry h.1.1 h.2.1.1 hd
      by_cases hb : entry.isBid
      · rw [if_pos hb]
        obtain ⟨_, hidx⟩ := hside.1 hb
        refine ⟨WFQueue_remove true ob.bids _ hidx h.1, h.2.1, ?_⟩
        intro b hb2 a ha
        have hbm : b ∈ ob.bids :=
          List.mem_of_mem_eraseIdx
            ((heapRemove_perm entryLess ob.bids _ hidx).mem_iff.mp hb2)
        exact h.2.2 b hbm a ha
      · rw [if_neg hb]
        obtain ⟨_, hidx⟩ := hside.2 (by simpa using hb)
        refine ⟨h.1, WFQueue_remove false ob.asks _ hidx h.2.1, ?_⟩
        intro b hb2 a ha
        have ham : a ∈ ob.asks :=
          List.mem_of_mem_eraseIdx
            ((heapRemove_perm entryLess ob.asks _ hidx).mem_iff.mp ha)
        exact h.2.2 b hb2 a ham

theorem processAdd_BookWF (now : Nat) (order : Order) (ob : OrderBook)
    (h : BookWF ob) : BookWF (processAdd now order ob).1 := by
  rcases herr : (processAdd now order ob).2.2 with _ | e
  case some =>
    rw [(processAdd_err_frame now order ob e herr).1]
    exact h
  case none =>
  by_cases hbuy : order.side = Side.Buy
  · rw [processAdd_state_buy now order ob herr hbuy]
    have hfields := matchLoop_incoming_fields now ⟨prepared now order ob, ob.asks, ob.orders⟩
    have hsidel : (matchLoop now ⟨prepared now order ob, ob.asks, ob.orders⟩).1.incoming.side = Side.Buy := by
      rw [hfields.2.2.1]
      exact hbuy
    have hpricel : (matchLoop now ⟨prepared now order ob, ob.asks, ob.orders⟩).1.incoming.price = order.price :=
      hfields.2.2.2.2.1
    have hWFopp : WFQueue false (matchLoop now ⟨prepared now order ob, ob.asks, ob.orders⟩).1.opposing :=
      matchLoop_WF now false _ h.2.1
    have hkeysub := matchLoop_opposing_keyEq now ⟨prepared now order ob, ob.asks, ob.orders⟩
    rcases matchFn_cases now (prepared now order ob) ob.asks ob.bids ob.orders
        ob.cfg.maxDepth ob.nextTag with ⟨hnc, heq⟩ | ⟨hc, hsideb, heq⟩ | ⟨hc, hsides, heq⟩
    · rw [heq]
      refine ⟨h.1, hWFopp, ?_⟩
      intro b hb a ha
      obtain ⟨f, hf, hkey⟩ := hkeysub a ha
      rw [(keyEq_fields hkey).2.2.2.2.2.2.1]
      exact h.2.2 b hb f hf
    · rw [heq]
      dsimp only
      have hpushWF : WFQueue true (heapPush entryLess ob.bids
          ⟨ob.nextTag, (matchLoop now ⟨prepared now order ob, ob.asks, ob.orders⟩).1.incoming,
           (matchLoop now ⟨prepared now order ob, ob.asks, ob.orders⟩).1.incoming.side = Side.Buy⟩) :=
        WFQueue_push true ob.bids _ (by simp [hsideb]) h.1
      have htr := trimDepth_WF true _ _ le_rfl
        (mapInsert (matchLoop now ⟨prepared now order ob, ob.asks, ob.orders⟩).1.orders
          (matchLoop now ⟨prepared now order ob, ob.asks, ob.orders⟩).1.incoming.id ob.nextTag)
        ob.cfg.maxDepth hpushWF
      refine ⟨htr.1, hWFopp, ?_⟩
      intro b hb a ha
      have hbc := (heapPush_perm entryLess ob.bids _).mem_iff.mp (htr.2 b hb)
      obtain ⟨f, hf, hkey⟩ := hkeysub a ha
      rcases List.mem_cons.mp hbc with hbe | hbo
      · have hbprice : b.order.price =
            (matchLoop now ⟨prepared now order ob, ob.asks, ob.orders⟩).1.incoming.price := by
          rw [hbe]
        rcases matchStep_none_cases now _ (matchLoop_final now
            ⟨prepared now order ob, ob.asks, ob.orders⟩) with hr | hpe | ⟨best, hpk, hlim, hdisj⟩
        · exact absurd hc.1 (by omega)
        · rw [peek_none _ hpe] at ha
          exact absurd ha (List.not_mem_nil a)
        · rcases hdisj with ⟨_, hlt⟩ | ⟨hss, _⟩
          · have hmax := WFQueue_root_max false _ best hWFopp hpk a ha
            have hcons := (sideLess_false_consequences false a best hmax).2.1 rfl
            rw [hbprice]
            omega
          · rw [hsidel] at hss
            exact absurd hss (by simp)
      · rw [(keyEq_fields hkey).2.2.2.2.2.2.1]
        exact h.2.2 b hbo f hf
    · exact absurd hsidel hsides
  · rw [processAdd_state_sell now order ob herr hbuy]
    have hfields := matchLoop_incoming_fields now ⟨prepared now order ob, ob.bids, ob.orders⟩
    have hsidel : ¬ (matchLoop now ⟨prepared now order ob, ob.bids, ob.orders⟩).1.incoming.side = Side.Buy := by
      rw [hfields.2.2.1]
      exact hbuy
    have hpricel : (matchLoop now ⟨prepared now order ob, ob.bids, ob.orders⟩).1.incoming.price = order.price :=
      hfields.2.2.2.2.1
    have hWFopp : WFQueue true (matchLoop now ⟨prepared now order ob, ob.bids, ob.orders⟩).1.opposing :=
      matchLoop_WF now true _ h.1
    have hkeysub := matchLoop_opposing_keyEq now ⟨prepared now order ob, ob.bids, ob.orders⟩
    rcases matchFn_cases now (prepared now order ob) ob.bids ob.asks ob.orders
        ob.cfg.maxDepth ob.nextTag with ⟨hnc, heq⟩ | ⟨hc, hsideb, heq⟩ | ⟨hc, hsides, heq⟩
    · rw [heq]
      refine ⟨hWFopp, h.2.1, ?_⟩
      intro b hb a ha
      obtain ⟨f, hf, hkey⟩ := hkeysub b hb
      rw [(keyEq_fields hkey).2.2.2.2.2.2.1]
      exact h.2.2 f hf a ha
    · exact absurd hsideb hsidel
    · rw [heq]
      dsimp only
      have hpushWF : WFQueue false (heapPush entryLess ob.asks
          ⟨ob.nextTag, (matchLoop now ⟨prepared now order ob, ob.bids, ob.orders⟩).1.incoming,
           (matchLoop now ⟨prepared now order ob, ob.bids, ob.orders⟩).1.incoming.side = Side.Buy⟩) :=
        WFQueue_push false ob.asks _ (by simp [hsides]) h.2.1
      have htr := trimDepth_WF false _ _ le_rfl
        (mapInsert (matchLoop now ⟨prepared now order ob, ob.bids, ob.orders⟩).1.orders
          (matchLoop now ⟨prepared now order ob, ob.bids, ob.orders⟩).1.incoming.id ob.nextTag)
        ob.cfg.maxDepth hpushWF
      refine ⟨hWFopp, htr.1, ?_⟩
      intro b hb a ha
      have hac := (heapPush_perm entryLess ob.asks _).mem_iff.mp (htr.2 a ha)
      obtain ⟨f, hf, hkey⟩ := hkeysub b hb
      rcases List.mem_cons.mp hac with hae | hao
      · have haprice : a.order.price =
            (matchLoop now ⟨prepared now order ob, ob.bids, ob.orders⟩).1.incoming.price := by
          rw [hae]
        rcases matchStep_none_cases now _ (matchLoop_final now
            ⟨prepared now order ob, ob.bids, ob.orders⟩) with hr | hpe | ⟨best, hpk, hlim, hdisj⟩
        · exact absurd hc.1 (by omega)
        · rw [peek_none _ hpe] at hb
          exact absurd hb (List.not_mem_nil b)
        · rcases hdisj with ⟨hss, _⟩ | ⟨_, hgt⟩
          · exact absurd hss hsidel
          · have hmax := WFQueue_root_max true _ best hWFopp hpk b hb
            have hcons := (sideLess_false_consequences true b best hmax).1 rfl
            rw [haprice]
            omega
      · rw [(keyEq_fields hkey).2.2.2.2.2.2.1]
        exact h.2.2 f hf a hao

theorem step_BookWF (now : Nat) (c : Command) (ob : OrderBook)
    (hc : isAmend c = false) (h : BookWF ob) : BookWF (step now c ob).1 := by
  rcases c with o | id | ⟨id, p, q⟩
  · exact processAdd_BookWF now o ob h
  · exact processCancel_BookWF id ob h
  · exact absurd hc (by rw [isAmend]; simp)

theorem runCommands_BookWF (cmds : List (Nat × Command)) :
    ∀ ob : OrderBook, BookWF ob → (∀ nc ∈ cmds, isAmend nc.2 = false) →
      BookWF (runCommands cmds ob) := by
  induction cmds with
  | nil => intro ob h _; exact h
  | cons nc rest ih =>
    intro ob h hna
    rw [runCommands]
    exact ih _ (step_BookWF nc.1 nc.2 ob (hna nc (List.mem_cons_self nc rest)) h)
      (fun mc hmc => hna mc (List.mem_cons_of_mem nc hmc))

/-- C4 (amended): after any sequence of amend-free commands the resting
book is well ordered and uncrossed: the top bid has the highest bid price,
the top ask the lowest ask price, and every resting bid prices strictly
below every resting ask.  The restriction to amend-free sequences is
necessary: an amend re-heapifies but never matches, so it can cross the
resting book (see the counterexample). -/
theorem claim_resting_book_uncrossed (cfg : OrderBookConfig)
    (cmds : List (Nat × Command)) (ob : OrderBook)
    (hna : ∀ nc ∈ cmds, isAmend nc.2 = false)
    (hob : ob = runCommands cmds (NewOrderBook cfg)) :
    (∀ b, peek ob.bids = some b → ∀ x ∈ ob.bids, x.order.price ≤ b.order.price) ∧
    (∀ a, peek ob.asks = some a → ∀ x ∈ ob.asks, a.order.price ≤ x.order.price) ∧
    (∀ b ∈ ob.bids, ∀ a ∈ ob.asks, b.order.price < a.order.price) ∧
    (∀ b a, peek ob.bids = some b → peek ob.asks = some a →
      b.order.price < a.order.price) := by
  have hwf : BookWF ob := by
    rw [hob]
    exact runCommands_BookWF cmds (NewOrderBook cfg) (BookWF_new cfg) hna
  refine ⟨?_, ?_, hwf.2.2, ?_⟩
  · intro b hpk x hx
    exact (sideLess_false_consequences true x b
      (WFQueue_root_max true ob.bids b hwf.1 hpk x hx)).1 rfl
  · intro a hpk x hx
    exact (sideLess_false_consequences false x a
      (WFQueue_root_max false ob.asks a hwf.2.1 hpk x hx)).2.1 rfl
  · intro b a hpb hpa
    exact hwf.2.2 b (peek_mem ob.bids b hpb) a (peek_mem ob.asks a hpa)

/-- C4 witness: a two-sided amend-free run keeps the book uncrossed. -/
theorem claim_resting_book_uncrossed_witness :
    (∀ b, peek bookC4w.bids = some b →
      ∀ x ∈ bookC4w.bids, x.order.price ≤ b.order.price) ∧
    (∀ a, peek bookC4w.asks = some a →
      ∀ x ∈ bookC4w.asks, a.order.price ≤ x.order.price) ∧
    (∀ b ∈ bookC4w.bids, ∀ a ∈ bookC4w.asks, b.order.price < a.order.price) ∧
    (∀ b a, peek bookC4w.bids = some b → peek bookC4w.asks = some a →
      b.order.price < a.order.price) :=
  claim_resting_book_uncrossed cfgS cmdsC4w bookC4w (by decide) rfl

/-- C4 counterexample to the original claim: submitting bid `b1` at 5 and
ask `a1` at 10 leaves an uncrossed book, but amending `b1`'s price to 12
crosses it — the best bid then prices above the best ask, and no trade
occurs. -/
theorem claim_resting_book_uncrossed_counterexample :
    ((runCommands
        [(0, Command.submit (mkOrder "b1" Side.Buy OrderType.Limit 5 1)),
         (1, Command.submit (mkOrder "a1" Side.Sell OrderType.Limit 10 1)),
         (2, Command.amend "b1" (some 12) none)]
        (NewOrderBook cfgS)).bids.map (fun e => e.order.price) = [12]) ∧
    ((runCommands
        [(0, Command.submit (mkOrder "b1" Side.Buy OrderType.Limit 5 1)),
         (1, Command.submit (mkOrder "a1" Side.Sell OrderType.Limit 10 1)),
         (2, Command.amend "b1" (some 12) none)]
        (NewOrderBook cfgS)).asks.map (fun e => e.order.price) = [10]) ∧
    (step 2 (Command.amend "b1" (some 12) none)
      (runCommands
        [(0, Command.submit (mkOrder "b1" Side.Buy OrderType.Limit 5 1)),
         (1, Command.submit (mkOrder "a1" Side.Sell OrderType.Limit 10 1))]
        (NewOrderBook cfgS))).2.1 = [] := by decide

theorem processAmend_noop (now : Nat) (id : String) (ob : OrderBook)
    (tag : Nat) (entry : Entry) (hm : mapLookup ob.orders id = some tag)
    (hd : derefTag ob tag = some entry) :
    processAmend now id none none ob =
      (amendFinish now ob tag entry entry.order, none) := by
  rw [processAmend, hm]
  dsimp only
  rw [hd]
  dsimp only
  rw [amendFinish]
  split <;> rfl

theorem processAmend_qtyOnly (now : Nat) (id : String) (qv : Int)
    (ob : OrderBook) (tag : Nat) (entry : Entry)
    (hm : mapLookup ob.orders id = some tag) (hd : derefTag ob tag = some entry)
    (hq : ¬ qv ≤ 0) :
    processAmend now id none (some qv) ob =
      (amendFinish now ob tag entry (amendQty entry.order qv), none) := by
  rw [processAmend, hm]
  dsimp only
  rw [hd]
  dsimp only
  rw [if_neg hq]
  rw [amendFinish]
  split <;> rfl

theorem processAmend_priceOnly (now : Nat) (id : String) (pv : Int)
    (ob : OrderBook) (tag : Nat) (entry : Entry)
    (hm : mapLookup ob.orders id = some tag) (hd : derefTag ob tag = some entry)
    (hp : ¬ (pv ≤ 0 ∨ ob.cfg.tickSize ≤ 0 ∨ pv % ob.cfg.tickSize ≠ 0)) :
    processAmend now id (some pv) none ob =
      (amendFinish now ob tag entry { entry.order with price := pv }, none) := by
  rw [processAmend, hm]
  dsimp only
  rw [hd]
  dsimp only
  rw [if_neg hp]
  rw [amendFinish]
  split <;> rfl

theorem processAmend_both (now : Nat) (id : String) (pv qv : Int)
    (ob : OrderBook) (tag : Nat) (entry : Entry)
    (hm : mapLookup ob.orders id = some tag) (hd : derefTag ob tag = some entry)
    (hq : ¬ qv ≤ 0)
    (hp : ¬ (pv ≤ 0 ∨ ob.cfg.tickSize ≤ 0 ∨ pv % ob.cfg.tickSize ≠ 0)) :
    processAmend now id (some pv) (some qv) ob =
      (amendFinish now ob tag entry { amendQty entry.order qv with price := pv },
        none) := by
  rw [processAmend, hm]
  dsimp only
  rw [hd]
  dsimp only
  rw [if_neg hq]
  rw [if_neg hp]
  rw [amendFinish]
  split <;> rfl

theorem find?_findIdx [Inhabited α] (q : List α) (p : α → Bool) (e : α)
    (h : q.find? p = some e) :
    q.findIdx p < q.length ∧ lget q (q.findIdx p) = e := by
  induction q with
  | nil => exact absurd h (by simp)
  | cons a t ih =>
    by_cases hpa : p a
    · rw [List.find?_cons_of_pos _ hpa] at h
      injection h with he
      subst he
      rw [List.findIdx_cons]
      simp only [hpa, cond_true]
      exact ⟨by simp, rfl⟩
    · have hf : p a = false := by simpa using hpa
      rw [List.find?_cons_of_neg _ (by simpa using hpa)] at h
      obtain ⟨h1, h2⟩ := ih h
      rw [List.findIdx_cons]
      simp only [hf, cond_false]
      refine ⟨by simpa using h1, ?_⟩
      rw [lget_cons_succ]
      exact h2

/-- On a book with homogeneous queues, a dereferenced entry sits at its
`findTagIdx` position on the side its flag names. -/
theorem derefTag_at (ob : OrderBook) (tag : Nat) (entry : Entry)
    (hwb : homog true ob.bids) (hwa : homog false ob.asks)
    (hd : derefTag ob tag = some entry) :
    (entry.isBid = true →
      findTagIdx ob.bids tag < ob.bids.length ∧
        lget ob.bids (findTagIdx ob.bids tag) = entry) ∧
    (entry.isBid = false →
      findTagIdx ob.asks tag < ob.asks.length ∧
        lget ob.asks (findTagIdx ob.asks tag) = entry) := by
  rw [derefTag] at hd
  rcases hfb : ob.bids.find? (fun e => e.tag = tag) with _ | e
  · rw [hfb] at hd
    dsimp only at hd
    have hmem := List.mem_of_find?_eq_some hd
    have hbid := hwa entry hmem
    constructor
    · intro hb
      rw [hbid] at hb
      exact absurd hb (by simp)
    · intro _
      exact find?_findIdx ob.asks _ entry hd
  · rw [hfb] at hd
    dsimp only at hd
    injection hd with he
    rw [he] at hfb
    have hmem := List.mem_of_find?_eq_some hfb
    have hbid := hwb entry hmem
    constructor
    · intro _
      exact find?_findIdx ob.bids _ entry hfb
    · intro hb
      rw [hbid] at hb
      exact absurd hb (by simp)

theorem trimDepth_noop (maxDepth : Int) (isBid : Bool) (q : List Entry)
    (orders : OrdersMap) (h : ¬(maxDepth > 0 ∧ (q.length : Int) > maxDepth)) :
    trimDepth maxDepth isBid q orders = (q, orders) := by
  rw [trimDepth_eq, if_neg h]

/-- What a successful amend does to the book: sequence bumped, orders map
and the opposite queue untouched, and the amended side a permutation of
the original queue with the entry's order rewritten in place — the
queue's (tag, id) multiset is unchanged. -/
theorem amendFinish_props (now : Nat) (ob : OrderBook) (tag : Nat)
    (entry : Entry) (o0 : Order)
    (hwb : homog true ob.bids) (hwa : homog false ob.asks)
    (hd : derefTag ob tag = some entry)
    (hdepth : ob.cfg.maxDepth ≤ 0 ∨
      ((ob.bids.length : Int) ≤ ob.cfg.maxDepth ∧
       (ob.asks.length : Int) ≤ ob.cfg.maxDepth))
    (hid : o0.id = entry.order.id) :
    (amendFinish now ob tag entry o0).orders = ob.orders ∧
    (amendFinish now ob tag entry o0).seq = ob.seq + 1 ∧
    (amendFinish now ob tag entry o0).cfg = ob.cfg ∧
    (if entry.isBid = true then
      (amendFinish now ob tag entry o0).asks = ob.asks ∧
      (amendFinish now ob tag entry o0).bids.Perm
        (ob.bids.set (findTagIdx ob.bids tag)
          { entry with order := { o0 with sequence := ob.seq + 1, timestamp := now } }) ∧
      ((amendFinish now ob tag entry o0).bids.map
        (fun e => (e.tag, e.order.id))).Perm
        (ob.bids.map (fun e => (e.tag, e.order.id)))
     else
      (amendFinish now ob tag entry o0).bids = ob.bids ∧
      (amendFinish now ob tag entry o0).asks.Perm
        (ob.asks.set (findTagIdx ob.asks tag)
          { entry with order := { o0 with sequence := ob.seq + 1, timestamp := now } }) ∧
      ((amendFinish now ob tag entry o0).asks.map
        (fun e => (e.tag, e.order.id))).Perm
        (ob.asks.map (fun e => (e.tag, e.order.id)))) := by
  have hat := derefTag_at ob tag entry hwb hwa hd
  have htagv := (derefTag_mem ob tag entry hd).2
  by_cases hbid : entry.isBid
  · obtain ⟨hidx, hlg⟩ := hat.1 hbid
    rw [amendFinish, if_pos hbid]
    have hlen : (heapFix entryLess
        (ob.bids.set (findTagIdx ob.bids tag)
          { entry with order := { o0 with sequence := ob.seq + 1, timestamp := now } })
        (findTagIdx ob.bids tag)).length = ob.bids.length := by
      rw [heapFix_length, List.length_set]
    have hnt : ¬(ob.cfg.maxDepth > 0 ∧
        ((heapFix entryLess
          (ob.bids.set (findTagIdx ob.bids tag)
            { entry with order := { o0 with sequence := ob.seq + 1, timestamp := now } })
          (findTagIdx ob.bids tag)).length : Int) > ob.cfg.maxDepth) := by
      rw [hlen]
      rcases hdepth with hh | hh
      · rintro ⟨h1, _⟩; omega
      · rintro ⟨_, h2⟩; omega
    rw [trimDepth_noop _ _ _ _ hnt]
    dsimp only
    have hperm := heapFix_perm entryLess
      (ob.bids.set (findTagIdx ob.bids tag)
        { entry with order := { o0 with sequence := ob.seq + 1, timestamp := now } })
      (findTagIdx ob.bids tag) (by rw [List.length_set]; exact hidx)
    rw [if_pos hbid]
    refine ⟨rfl, rfl, rfl, rfl, hperm, ?_⟩
    refine (hperm.map (fun e => (e.tag, e.order.id))).trans ?_
    rw [List.map_set]
    dsimp only
    rw [hid]
    have hgm : (entry.tag, entry.order.id) =
        lget (ob.bids.map (fun e => (e.tag, e.order.id))) (findTagIdx ob.bids tag) := by
      rw [lget_eq_getElem _ _ (by rw [List.length_map]; exact hidx),
        List.getElem_map, ← lget_eq_getElem _ _ hidx, hlg]
    rw [hgm, set_lget_self]
  · have hbid' : entry.isBid = false := by simpa using hbid
    obtain ⟨hidx, hlg⟩ := hat.2 hbid'
    rw [amendFinish, if_neg hbid]
    have hlen : (heapFix entryLess
        (ob.asks.set (findTagIdx ob.asks tag)
          { entry with order := { o0 with sequence := ob.seq + 1, timestamp := now } })
        (findTagIdx ob.asks tag)).length = ob.asks.length := by
      rw [heapFix_length, List.length_set]
    have hnt : ¬(ob.cfg.maxDepth > 0 ∧
        ((heapFix entryLess
          (ob.asks.set (findTagIdx ob.asks tag)
            { entry with order := { o0 with sequence := ob.seq + 1, timestamp := now } })
          (findTagIdx ob.asks tag)).length : Int) > ob.cfg.maxDepth) := by
      rw [hlen]
      rcases hdepth with hh | hh
      · rintro ⟨h1, _⟩; omega
      · rintro ⟨_, h2⟩; omega
    rw [trimDepth_noop _ _ _ _ hnt]
    dsimp only
    have hperm := heapFix_perm entryLess
      (ob.asks.set (findTagIdx ob.asks tag)
        { entry with order := { o0 with sequence := ob.seq + 1, timestamp := now } })
      (findTagIdx ob.asks tag) (by rw [List.length_set]; exact hidx)
    rw [if_neg hbid]
    refine ⟨rfl, rfl, rfl, rfl, hperm, ?_⟩
    refine (hperm.map (fun e => (e.tag, e.order.id))).trans ?_
    rw [List.map_set]
    dsimp only
    rw [hid]
    have hgm : (entry.tag, entry.order.id) =
        lget (ob.asks.map (fun e => (e.tag, e.order.id))) (findTagIdx ob.asks tag) := by
      rw [lget_eq_getElem _ _ (by rw [List.length_map]; exact hidx),
        List.getElem_map, ← lget_eq_getElem _ _ hidx, hlg]
    rw [hgm, set_lget_self]

theorem processAmend_success_shape (now : Nat) (id : String) (p q : Option Int)
    (ob : OrderBook) (hsucc : (processAmend now id p q ob).2 = none) :
    (processAmend now id p q ob).1 = ob ∨
    ∃ tag entry o0, mapLookup ob.orders id = some tag ∧
      derefTag ob tag = some entry ∧
      o0.id = entry.order.id ∧ o0.symbol = entry.order.symbol ∧
      o0.side = entry.order.side ∧ o0.type = entry.order.type ∧
      (processAmend now id p q ob).1 = amendFinish now ob tag entry o0 := by
  rcases hm : mapLookup ob.orders id with _ | tag
  · rw [processAmend_notFound now id p q ob hm] at hsucc
    exact absurd hsucc (by simp)
  · rcases hd : derefTag ob tag with _ | entry
    · exact Or.inl (by rw [processAmend_stale now id p q ob tag hm hd])
    · rcases q with _ | qv
      · rcases p with _ | pv
        · exact Or.inr ⟨tag, entry, entry.order, rfl, hd, rfl, rfl, rfl, rfl,
            by rw [processAmend_noop now id ob tag entry hm hd]⟩
        · by_cases hp : pv ≤ 0 ∨ ob.cfg.tickSize ≤ 0 ∨ pv % ob.cfg.tickSize ≠ 0
          · rw [processAmend_badPriceOnly now id pv ob tag entry hm hd hp] at hsucc
            exact absurd hsucc (by simp)
          · exact Or.inr ⟨tag, entry, { entry.order with price := pv }, rfl, hd,
              rfl, rfl, rfl, rfl,
              by rw [processAmend_priceOnly now id pv ob tag entry hm hd hp]⟩
      · by_cases hq0 : qv ≤ 0
        · rw [processAmend_badQty now id p qv ob tag entry hm hd hq0] at hsucc
          exact absurd hsucc (by simp)
        · rcases p with _ | pv
          · exact Or.inr ⟨tag, entry, amendQty entry.order qv, rfl, hd,
              rfl, rfl, rfl, rfl,
              by rw [processAmend_qtyOnly now id qv ob tag entry hm hd hq0]⟩
          · by_cases hp : pv ≤ 0 ∨ ob.cfg.tickSize ≤ 0 ∨ pv % ob.cfg.tickSize ≠ 0
            · rw [processAmend_qtyBadPrice now id pv qv ob tag entry hm hd hq0 hp]
                at hsucc
              exact absurd hsucc (by simp)
            · exact Or.inr ⟨tag, entry,
                { amendQty entry.order qv with price := pv }, rfl, hd,
                rfl, rfl, rfl, rfl,
                by rw [processAmend_both now id pv qv ob tag entry hm hd hq0 hp]⟩

/-- C9: an amend never matches — it emits no trades even when the new
price is marketable — and a successful amend leaves the book unchanged
apart from bumping the sequence counter and rewriting the amended entry's
order in place: the orders index, the opposite queue, and each queue's
(tag, id) multiset are untouched, and the rewritten order keeps its id,
symbol, side and type (only price, quantity, remaining, sequence,
timestamp and heap position can change).  Stated for books whose queues
are within the depth bound, so depth trimming does not fire. -/
theorem claim_amend_never_matches (now : Nat) (id : String) (p q : Option Int)
    (ob : OrderBook)
    (hwb : homog true ob.bids) (hwa : homog false ob.asks)
    (hdepth : ob.cfg.maxDepth ≤ 0 ∨
      ((ob.bids.length : Int) ≤ ob.cfg.maxDepth ∧
       (ob.asks.length : Int) ≤ ob.cfg.maxDepth))
    (hsucc : (step now (Command.amend id p q) ob).2.2.2 = none) :
    (step now (Command.amend id p q) ob).2.1 = [] ∧
    ((step now (Command.amend id p q) ob).1 = ob ∨
      ∃ tag entry o, mapLookup ob.orders id = some tag ∧
        derefTag ob tag = some entry ∧
        o.id = entry.order.id ∧ o.symbol = entry.order.symbol ∧
        o.side = entry.order.side ∧ o.type = entry.order.type ∧
        o.sequence = ob.seq + 1 ∧ o.timestamp = now ∧
        (step now (Command.amend id p q) ob).1.orders = ob.orders ∧
        (step now (Command.amend id p q) ob).1.seq = ob.seq + 1 ∧
        (step now (Command.amend id p q) ob).1.cfg = ob.cfg ∧
        (if entry.isBid = true then
          (step now (Command.amend id p q) ob).1.asks = ob.asks ∧
          (step now (Command.amend id p q) ob).1.bids.Perm
            (ob.bids.set (findTagIdx ob.bids tag) { entry with order := o }) ∧
          ((step now (Command.amend id p q) ob).1.bids.map
            (fun e => (e.tag, e.order.id))).Perm
            (ob.bids.map (fun e => (e.tag, e.order.id)))
         else
          (step now (Command.amend id p q) ob).1.bids = ob.bids ∧
          (step now (Command.amend id p q) ob).1.asks.Perm
            (ob.asks.set (findTagIdx ob.asks tag) { entry with order := o }) ∧
          ((step now (Command.amend id p q) ob).1.asks.map
            (fun e => (e.tag, e.order.id))).Perm
            (ob.asks.map (fun e => (e.tag, e.order.id))))) := by
  refine ⟨rfl, ?_⟩
  have hs2 : (processAmend now id p q ob).2 = none := hsucc
  rcases processAmend_success_shape now id p q ob hs2 with h0 |
    ⟨tag, entry, o0, hm, hd, hid, hsym, hside, htype, heq⟩
  · exact Or.inl h0
  · right
    have hprops := amendFinish_props now ob tag entry o0 hwb hwa hd hdepth hid
    have hst : (step now (Command.amend id p q) ob).1 =
        amendFinish now ob tag entry o0 := heq
    refine ⟨tag, entry, { o0 with sequence := ob.seq + 1, timestamp := now },
      hm, hd, hid, hsym, hside, htype, rfl, rfl, ?_, ?_, ?_, ?_⟩
    · rw [hst]; exact hprops.1
    · rw [hst]; exact hprops.2.1
    · rw [hst]; exact hprops.2.2.1
    · rw [hst]; exact hprops.2.2.2

/-- C9 witness: amending the sole resting ask to a marketable price and a
new quantity emits no trade and rewrites it in place. -/
theorem claim_amend_never_matches_witness :
    (step 1 (Command.amend "ask1" (some 102) (some 4)) bookAsk1).2.1 = [] ∧
    ((step 1 (Command.amend "ask1" (some 102) (some 4)) bookAsk1).1 = bookAsk1 ∨
      ∃ tag entry o, mapLookup bookAsk1.orders "ask1" = some tag ∧
        derefTag bookAsk1 tag = some entry ∧
        o.id = entry.order.id ∧ o.symbol = entry.order.symbol ∧
        o.side = entry.order.side ∧ o.type = entry.order.type ∧
        o.sequence = bookAsk1.seq + 1 ∧ o.timestamp = 1 ∧
        (step 1 (Command.amend "ask1" (some 102) (some 4)) bookAsk1).1.orders =
          bookAsk1.orders ∧
        (step 1 (Command.amend "ask1" (some 102) (some 4)) bookAsk1).1.seq =
          bookAsk1.seq + 1 ∧
        (step 1 (Command.amend "ask1" (some 102) (some 4)) bookAsk1).1.cfg =
          bookAsk1.cfg ∧
        (if entry.isBid = true then
          (step 1 (Command.amend "ask1" (some 102) (some 4)) bookAsk1).1.asks =
            bookAsk1.asks ∧
          (step 1 (Command.amend "ask1" (some 102) (some 4)) bookAsk1).1.bids.Perm
            (bookAsk1.bids.set (findTagIdx bookAsk1.bids tag)
              { entry with order := o }) ∧
          ((step 1 (Command.amend "ask1" (some 102) (some 4)) bookAsk1).1.bids.map
            (fun e => (e.tag, e.order.id))).Perm
            (bookAsk1.bids.map (fun e => (e.tag, e.order.id)))
         else
          (step 1 (Command.amend "ask1" (some 102) (some 4)) bookAsk1).1.bids =
            bookAsk1.bids ∧
          (step 1 (Command.amend "ask1" (some 102) (some 4)) bookAsk1).1.asks.Perm
            (bookAsk1.asks.set (findTagIdx bookAsk1.asks tag)
              { entry with order := o }) ∧
          ((step 1 (Command.amend "ask1" (some 102) (some 4)) bookAsk1).1.asks.map
            (fun e => (e.tag, e.order.id))).Perm
            (bookAsk1.asks.map (fun e => (e.tag, e.order.id))))) :=
  claim_amend_never_matches 1 "ask1" (some 102) (some 4) bookAsk1
    (homog_of_all true bookAsk1.bids (by decide))
    (homog_of_all false bookAsk1.asks (by decide))
    (by decide) (by decide)

/-- C10: for a resting order id, an amend supplying neither a new price
nor a new quantity succeeds, leaves the order's price, quantity and
remaining unchanged, yet increments the book's sequence counter, stamps
the order with that fresh sequence and the current clock, publishes a
view — and thereby forfeits the order's time priority at its price level:
any same-price entry with an earlier timestamp now compares strictly
better under the queue comparator.  Stated for books within the depth
bound, so depth trimming does not fire. -/
theorem claim_noop_amend_forfeits_priority (now : Nat) (id : String)
    (ob : OrderBook) (tag : Nat) (entry : Entry)
    (hwb : homog true ob.bids) (hwa : homog false ob.asks)
    (hm : mapLookup ob.orders id = some tag)
    (hd : derefTag ob tag = some entry)
    (hdepth : ob.cfg.maxDepth ≤ 0 ∨
      ((ob.bids.length : Int) ≤ ob.cfg.maxDepth ∧
       (ob.asks.length : Int) ≤ ob.cfg.maxDepth)) :
    (step now (Command.amend id none none) ob).2.2.2 = none ∧
    (step now (Command.amend id none none) ob).2.1 = [] ∧
    (step now (Command.amend id none none) ob).2.2.1 =
      [snapshotView (step now (Command.amend id none none) ob).1] ∧
    (step now (Command.amend id none none) ob).1.seq = ob.seq + 1 ∧
    (step now (Command.amend id none none) ob).1.orders = ob.orders ∧
    (({ entry.order with sequence := ob.seq + 1, timestamp := now } : Order).price =
        entry.order.price ∧
     ({ entry.order with sequence := ob.seq + 1, timestamp := now } : Order).quantity =
        entry.order.quantity ∧
     ({ entry.order with sequence := ob.seq + 1, timestamp := now } : Order).remaining =
        entry.order.remaining) ∧
    (if entry.isBid = true then
      (step now (Command.amend id none none) ob).1.asks = ob.asks ∧
      (step now (Command.amend id none none) ob).1.bids.Perm
        (ob.bids.set (findTagIdx ob.bids tag)
          { entry with order :=
            { entry.order with sequence := ob.seq + 1, timestamp := now } })
     else
      (step now (Command.amend id none none) ob).1.bids = ob.bids ∧
      (step now (Command.amend id none none) ob).1.asks.Perm
        (ob.asks.set (findTagIdx ob.asks tag)
          { entry with order :=
            { entry.order with sequence := ob.seq + 1, timestamp := now } })) ∧
    (∀ f : Entry, f.order.price = entry.order.price →
      f.order.timestamp < now →
      entryLess f { entry with order :=
        { entry.order with sequence := ob.seq + 1, timestamp := now } } = true) := by
  have hpa := processAmend_noop now id ob tag entry hm hd
  have hprops := amendFinish_props now ob tag entry entry.order hwb hwa hd hdepth rfl
  have hstep : step now (Command.amend id none none) ob =
      (amendFinish now ob tag entry entry.order, [],
        [snapshotView (amendFinish now ob tag entry entry.order)], none) := by
    rw [step, hpa]
    rfl
  rw [hstep]
  refine ⟨rfl, rfl, rfl, hprops.2.1, hprops.1, ⟨rfl, rfl, rfl⟩, ?_, ?_⟩
  · by_cases hbid : entry.isBid
    · rw [if_pos hbid]
      have := hprops.2.2.2
      rw [if_pos hbid] at this
      exact ⟨this.1, this.2.1⟩
    · rw [if_neg hbid]
      have := hprops.2.2.2
      rw [if_neg hbid] at this
      exact ⟨this.1, this.2.1⟩
  · intro f hfp hft
    rw [entryLess]
    rw [if_neg (by
      intro hne
      exact hne (by
        show f.order.price = ({ entry.order with sequence := ob.seq + 1, timestamp := now } : Order).price
        exact hfp))]
    rw [if_pos (by
      show f.order.timestamp ≠ ({ entry.order with sequence := ob.seq + 1, timestamp := now } : Order).timestamp
      intro hte
      rw [hte] at hft
      exact absurd hft (by simp))]
    simpa using hft

/-- C10 witness: a no-op amend of the sole resting ask. -/
theorem claim_noop_amend_forfeits_priority_witness :
    (step 1 (Command.amend "ask1" none none) bookAsk1).2.2.2 = none ∧
    (step 1 (Command.amend "ask1" none none) bookAsk1).2.1 = [] ∧
    (step 1 (Command.amend "ask1" none none) bookAsk1).2.2.1 =
      [snapshotView (step 1 (Command.amend "ask1" none none) bookAsk1).1] ∧
    (step 1 (Command.amend "ask1" none none) bookAsk1).1.seq = bookAsk1.seq + 1 ∧
    (step 1 (Command.amend "ask1" none none) bookAsk1).1.orders = bookAsk1.orders ∧
    (({ entryC10.order with sequence := bookAsk1.seq + 1, timestamp := 1 } : Order).price =
        entryC10.order.price ∧
     ({ entryC10.order with sequence := bookAsk1.seq + 1, timestamp := 1 } : Order).quantity =
        entryC10.order.quantity ∧
     ({ entryC10.order with sequence := bookAsk1.seq + 1, timestamp := 1 } : Order).remaining =
        entryC10.order.remaining) ∧
    (if entryC10.isBid = true then
      (step 1 (Command.amend "ask1" none none) bookAsk1).1.asks = bookAsk1.asks ∧
      (step 1 (Command.amend "ask1" none none) bookAsk1).1.bids.Perm
        (bookAsk1.bids.set (findTagIdx bookAsk1.bids 0)
          { entryC10 with order :=
            { entryC10.order with sequence := bookAsk1.seq + 1, timestamp := 1 } })
     else
      (step 1 (Command.amend "ask1" none none) bookAsk1).1.bids = bookAsk1.bids ∧
      (step 1 (Command.amend "ask1" none none) bookAsk1).1.asks.Perm
        (bookAsk1.asks.set (findTagIdx bookAsk1.asks 0)
          { entryC10 with order :=
            { entryC10.order with sequence := bookAsk1.seq + 1, timestamp := 1 } })) ∧
    (∀ f : Entry, f.order.price = entryC10.order.price →
      f.order.timestamp < 1 →
      entryLess f { entryC10 with order :=
        { entryC10.order with sequence := bookAsk1.seq + 1, timestamp := 1 } } = true) :=
  claim_noop_amend_forfeits_priority 1 "ask1" bookAsk1 0 entryC10
    (homog_of_all true bookAsk1.bids (by decide))
    (homog_of_all false bookAsk1.asks (by decide))
    (by decide) (by decide) (by decide)

theorem worseThan_trans {isBid : Bool} {a b c : Entry}
    (h1 : worseThan isBid a b) (h2 : worseThan isBid b c) :
    worseThan isBid a c := by
  rw [worseThan] at h1 h2 ⊢
  cases isBid <;> simp at h1 h2 ⊢ <;> omega

theorem findWorstIndex_eq_worstFoldN (q : List Entry) (isBid : Bool)
    (h : q.length ≠ 0) :
    findWorstIndex q isBid = (worstFoldN q isBid q.length : Int) := by
  rw [findWorstIndex, if_neg h, worstFoldN]

theorem worstFoldN_succ (q : List Entry) (isBid : Bool) (n : Nat) :
    worstFoldN q isBid (n + 1) =
      (if isBid then
        if (lget q n).order.price < (lget q (worstFoldN q isBid n)).order.price then n
        else if (lget q n).order.price = (lget q (worstFoldN q isBid n)).order.price ∧
            (lget q n).order.timestamp > (lget q (worstFoldN q isBid n)).order.timestamp then n
        else worstFoldN q isBid n
      else
        if (lget q n).order.price > (lget q (worstFoldN q isBid n)).order.price then n
        else if (lget q n).order.price = (lget q (worstFoldN q isBid n)).order.price ∧
            (lget q n).order.timestamp > (lget q (worstFoldN q isBid n)).order.timestamp then n
        else worstFoldN q isBid n) := by
  rw [worstFoldN, List.range_succ, List.foldl_append, List.foldl_cons,
    List.foldl_nil, worstFoldN]

theorem worstFoldN_succ_worse (q : List Entry) (isBid : Bool) (n : Nat)
    (h : worseThan isBid (lget q n) (lget q (worstFoldN q isBid n))) :
    worstFoldN q isBid (n + 1) = n := by
  rw [worstFoldN_succ]
  rw [worseThan] at h
  cases isBid <;> simp at h ⊢ <;>
    first | omega | (split_ifs <;> omega) | (intros <;> omega)

theorem worstFoldN_succ_notworse (q : List Entry) (isBid : Bool) (n : Nat)
    (h : ¬ worseThan isBid (lget q n) (lget q (worstFoldN q isBid n))) :
    worstFoldN q isBid (n + 1) = worstFoldN q isBid n := by
  rw [worstFoldN_succ]
  rw [worseThan] at h
  cases isBid <;> simp at h ⊢ <;>
    first | omega | (split_ifs <;> omega) | (intros <;> omega)

theorem worseThan_irrefl (isBid : Bool) (e : Entry) : ¬ worseThan isBid e e := by
  rw [worseThan]
  cases isBid <;> simp

theorem worstFoldN_argmin (q : List Entry) (isBid : Bool) :
    ∀ n, n ≤ q.length → ∀ j, j < n →
      ¬ worseThan isBid (lget q j) (lget q (worstFoldN q isBid n)) := by
  intro n
  induction n with
  | zero => intro _ j hj; exact absurd hj (by omega)
  | succ m ih =>
    intro hm j hj
    by_cases hwm : worseThan isBid (lget q m) (lget q (worstFoldN q isBid m))
    · rw [worstFoldN_succ_worse q isBid m hwm]
      rcases Nat.lt_succ_iff_lt_or_eq.mp hj with hjm | hjm
      · intro hcon
        exact ih (by omega) j hjm (worseThan_trans hcon hwm)
      · subst hjm
        exact worseThan_irrefl isBid _
    · rw [worstFoldN_succ_notworse q isBid m hwm]
      rcases Nat.lt_succ_iff_lt_or_eq.mp hj with hjm | hjm
      · exact ih (by omega) j hjm
      · subst hjm
        exact hwm

theorem findWorstIndex_argmin (q : List Entry) (isBid : Bool)
    (h : q.length ≠ 0) :
    ∀ j, j < q.length →
      ¬ worseThan isBid (lget q j) (lget q (findWorstIndex q isBid).toNat) := by
  rw [findWorstIndex_eq_worstFoldN q isBid h, Int.toNat_natCast]
  exact worstFoldN_argmin q isBid q.length le_rfl

theorem trimDepth_length_le (isBid : Bool) :
    ∀ (n : Nat) (q : List Entry), q.length ≤ n →
      ∀ (orders : OrdersMap) (maxDepth : Int), 0 < maxDepth →
      ((trimDepth maxDepth isBid q orders).1.length : Int) ≤ maxDepth := by
  intro n
  induction n with
  | zero =>
    intro q hq orders maxDepth hpos
    have hq0 : q.length = 0 := by omega
    rw [trimDepth_eq, if_neg (by rw [hq0]; rintro ⟨h1, h2⟩; simp at h2; omega)]
    dsimp only
    omega
  | succ m ih =>
    intro q hq orders maxDepth hpos
    rw [trimDepth_eq]
    by_cases hcond : maxDepth > 0 ∧ (q.length : Int) > maxDepth
    · rw [if_pos hcond]
      have hlen : q.length ≠ 0 := by
        intro h0
        rw [h0] at hcond
        simp at hcond
        omega
      rw [if_neg (by
        have := findWorstIndex_nonneg q isBid hlen
        omega)]
      have hshort : (heapRemove entryLess q (findWorstIndex q isBid).toNat).1.length =
          q.length - 1 := heapRemove_length ..
      exact ih _ (by omega) _ maxDepth hpos
    · rw [if_neg hcond]
      dsimp only
      omega

theorem matchLoop_opposing_le (now : Nat) :
    ∀ s : LoopState,
      (matchLoop now s).1.opposing.length ≤ s.opposing.length := by
  intro s
  induction s using matchLoop_ind now with
  | case1 s h =>
    rw [matchLoop_eq]
    split
    · exact le_rfl
    · next t s' hs => rw [hs] at h; exact absurd h (by simp)
  | case2 s t s' h ih =>
    rw [matchLoop_eq]
    split
    · next hn => exact absurd (hn.symm.trans h) (by simp)
    · next t2 s2 hs =>
      rw [hs] at h
      injection h with hx
      injection hx with h1 h2
      subst h1
      subst h2
      dsimp only
      rcases matchStep_measure now s t2 s2 hs with hlt | ⟨heq, _⟩
      · omega
      · omega

theorem amendFinish_cfg (now : Nat) (ob : OrderBook) (tag : Nat)
    (entry : Entry) (o : Order) : (amendFinish now ob tag entry o).cfg = ob.cfg := by
  rw [amendFinish]
  split <;> rfl

theorem amendWrite_cfg (ob : OrderBook) (tag : Nat) (entry : Entry) (q : Int) :
    (amendWrite ob tag entry q).cfg = ob.cfg := by
  rw [amendWrite]
  split <;> rfl

theorem amendWrite_lengths (ob : OrderBook) (tag : Nat) (entry : Entry)
    (q : Int) :
    (amendWrite ob tag entry q).bids.length = ob.bids.length ∧
    (amendWrite ob tag entry q).asks.length = ob.asks.length := by
  rw [amendWrite]
  split <;> exact ⟨by simp, by simp⟩

/-- Any amend leaves the book unchanged, rewrites one entry in place
(failed price validation after a quantity write), or runs the success
tail. -/
theorem processAmend_state_cases (now : Nat) (id : String) (p q : Option Int)
    (ob : OrderBook) :
    (processAmend now id p q ob).1 = ob ∨
    (∃ tag entry qv, derefTag ob tag = some entry ∧
      (processAmend now id p q ob).1 = amendWrite ob tag entry qv) ∨
    (∃ tag entry o0, derefTag ob tag = some entry ∧
      (processAmend now id p q ob).1 = amendFinish now ob tag entry o0) := by
  rcases herr : (processAmend now id p q ob).2 with _ | e
  · rcases processAmend_success_shape now id p q ob herr with h0 |
      ⟨tag, entry, o0, _, hd, _, _, _, _, heq⟩
    · exact Or.inl h0
    · exact Or.inr (Or.inr ⟨tag, entry, o0, hd, heq⟩)
  · rcases processAmend_err_cases now id p q ob e herr with h0 |
      ⟨id', pv, qv, tag, entry, _, _, hd, _, _, _, heq⟩
    · exact Or.inl h0
    · exact Or.inr (Or.inl ⟨tag, entry, qv, hd, heq⟩)

theorem step_cfg (now : Nat) (c : Command) (ob : OrderBook) :
    (step now c ob).1.cfg = ob.cfg := by
  rcases c with o | id | ⟨id, p, q⟩
  · show (processAdd now o ob).1.cfg = ob.cfg
    rcases herr : (processAdd now o ob).2.2 with _ | e
    · by_cases hbuy : o.side = Side.Buy
      · rw [processAdd_state_buy now o ob herr hbuy]
      · rw [processAdd_state_sell now o ob herr hbuy]
    · rw [(processAdd_err_frame now o ob e herr).1]
  · show (processCancel id ob).1.cfg = ob.cfg
    rw [processCancel]
    rcases hm : mapLookup ob.orders id with _ | tag
    · rfl
    · dsimp only
      rcases hd : derefTag ob tag with _ | entry
      · rfl
      · dsimp only
        split <;> rfl
  · show (processAmend now id p q ob).1.cfg = ob.cfg
    rcases processAmend_state_cases now id p q ob with h0 |
      ⟨tag, entry, qv, _, hw⟩ | ⟨tag, entry, o0, _, hf⟩
    · rw [h0]
    · rw [hw]
      exact amendWrite_cfg ..
    · rw [hf]
      exact amendFinish_cfg ..

theorem step_DepthOK (now : Nat) (c : Command) (ob : OrderBook)
    (h : DepthOK ob) : DepthOK (step now c ob).1 := by
  intro hpos
  rw [step_cfg] at hpos ⊢
  obtain ⟨hb, ha⟩ := h hpos
  rcases c with o | id | ⟨id, p, q⟩
  · show ((processAdd now o ob).1.bids.length : Int) ≤ ob.cfg.maxDepth ∧
      ((processAdd now o ob).1.asks.length : Int) ≤ ob.cfg.maxDepth
    rcases herr : (processAdd now o ob).2.2 with _ | e
    · have hople := matchLoop_opposing_le now
      by_cases hbuy : o.side = Side.Buy
      · rw [processAdd_state_buy now o ob herr hbuy]
        rcases matchFn_cases now (prepared now o ob) ob.asks ob.bids ob.orders
            ob.cfg.maxDepth ob.nextTag with ⟨_, heq⟩ | ⟨_, _, heq⟩ | ⟨_, _, heq⟩ <;>
          rw [heq] <;> dsimp only
        · have := hople ⟨prepared now o ob, ob.asks, ob.orders⟩
          refine ⟨hb, ?_⟩
          have hcast : ((matchLoop now ⟨prepared now o ob, ob.asks, ob.orders⟩).1.opposing.length : Int) ≤ (ob.asks.length : Int) := by
            exact_mod_cast this
          omega
        · refine ⟨trimDepth_length_le true _ _ le_rfl _ _ hpos, ?_⟩
          have := hople ⟨prepared now o ob, ob.asks, ob.orders⟩
          have hcast : ((matchLoop now ⟨prepared now o ob, ob.asks, ob.orders⟩).1.opposing.length : Int) ≤ (ob.asks.length : Int) := by
            exact_mod_cast this
          omega
        · refine ⟨trimDepth_length_le false _ _ le_rfl _ _ hpos, ?_⟩
          have := hople ⟨prepared now o ob, ob.asks, ob.orders⟩
          have hcast : ((matchLoop now ⟨prepared now o ob, ob.asks, ob.orders⟩).1.opposing.length : Int) ≤ (ob.asks.length : Int) := by
            exact_mod_cast this
          omega
      · rw [processAdd_state_sell now o ob herr hbuy]
        rcases matchFn_cases now (prepared now o ob) ob.bids ob.asks ob.orders
            ob.cfg.maxDepth ob.nextTag with ⟨_, heq⟩ | ⟨_, _, heq⟩ | ⟨_, _, heq⟩ <;>
          rw [heq] <;> dsimp only
        · have := hople ⟨prepared now o ob, ob.bids, ob.orders⟩
          refine ⟨?_, ha⟩
          have hcast : ((matchLoop now ⟨prepared now o ob, ob.bids, ob.orders⟩).1.opposing.length : Int) ≤ (ob.bids.length : Int) := by
            exact_mod_cast this
          omega
        · refine ⟨?_, trimDepth_length_le true _ _ le_rfl _ _ hpos⟩
          have := hople ⟨prepared now o ob, ob.bids, ob.orders⟩
          have hcast : ((matchLoop now ⟨prepared now o ob, ob.bids, ob.orders⟩).1.opposing.length : Int) ≤ (ob.bids.length : Int) := by
            exact_mod_cast this
          omega
        · refine ⟨?_, trimDepth_length_le false _ _ le_rfl _ _ hpos⟩
          have := hople ⟨prepared now o ob, ob.bids, ob.orders⟩
          have hcast : ((matchLoop now ⟨prepared now o ob, ob.bids, ob.orders⟩).1.opposing.length : Int) ≤ (ob.bids.length : Int) := by
            exact_mod_cast this
          omega
    · rw [(processAdd_err_frame now o ob e herr).1]
      exact ⟨hb, ha⟩
  · show ((processCancel id ob).1.bids.length : Int) ≤ ob.cfg.maxDepth ∧
      ((processCancel id ob).1.asks.length : Int) ≤ ob.cfg.maxDepth
    rw [processCancel]
    rcases hm : mapLookup ob.orders id with _ | tag
    · exact ⟨hb, ha⟩
    · dsimp only
      rcases hd : derefTag ob tag with _ | entry
      · exact ⟨hb, ha⟩
      · dsimp only
        split
        · dsimp only
          rw [heapRemove_length]
          constructor
          · have : (ob.bids.length - 1 : Nat) ≤ ob.bids.length := Nat.sub_le ..
            have hcast : ((ob.bids.length - 1 : Nat) : Int) ≤ (ob.bids.length : Int) := by
              exact_mod_cast this
            omega
          · exact ha
        · dsimp only
          rw [heapRemove_length]
          constructor
          · exact hb
          · have : (ob.asks.length - 1 : Nat) ≤ ob.asks.length := Nat.sub_le ..
            have hcast : ((ob.asks.length - 1 : Nat) : Int) ≤ (ob.asks.length : Int) := by
              exact_mod_cast this
            omega
  · show ((processAmend now id p q ob).1.bids.length : Int) ≤ ob.cfg.maxDepth ∧
      ((processAmend now id p q ob).1.asks.length : Int) ≤ ob.cfg.maxDepth
    rcases processAmend_state_cases now id p q ob with h0 |
      ⟨tag, entry, qv, _, hw⟩ | ⟨tag, entry, o0, _, hf⟩
    · rw [h0]
      exact ⟨hb, ha⟩
    · rw [hw]
      obtain ⟨h1, h2⟩ := amendWrite_lengths ob tag entry qv
      rw [h1, h2]
      exact ⟨hb, ha⟩
    · rw [hf]
      rw [amendFinish]
      split
      · exact ⟨trimDepth_length_le true _ _ le_rfl _ _ hpos, ha⟩
      · exact ⟨hb, trimDepth_length_le false _ _ le_rfl _ _ hpos⟩

theorem runCommands_cfg (cmds : List (Nat × Command)) :
    ∀ ob : OrderBook, (runCommands cmds ob).cfg = ob.cfg := by
  induction cmds with
  | nil => intro ob; rfl
  | cons nc rest ih =>
    intro ob
    rw [runCommands, ih, step_cfg]

theorem runCommands_DepthOK (cmds : List (Nat × Command)) :
    ∀ ob : OrderBook, DepthOK ob → DepthOK (runCommands cmds ob) := by
  induction cmds with
  | nil => intro ob h; exact h
  | cons nc rest ih =>
    intro ob h
    rw [runCommands]
    exact ih _ (step_DepthOK nc.1 nc.2 ob h)

/-- C8: with a positive `max_depth`, every reachable book keeps both
queues within the bound; while a queue is over the bound, one trimming
step removes exactly the `findWorstIndex` entry — an entry no other entry
is strictly worse than (worse price: lower for bids, higher for asks;
ties broken towards the later timestamp) — from both the queue and the
orders index; and trimming is silent: a submit's emitted trades and its
returned error are unchanged under any reconfiguration of `max_depth`. -/
theorem claim_depth_bound (cfg : OrderBookConfig)
    (cmds : List (Nat × Command)) (hpos : 0 < cfg.maxDepth) :
    (((runCommands cmds (NewOrderBook cfg)).bids.length : Int) ≤ cfg.maxDepth ∧
     ((runCommands cmds (NewOrderBook cfg)).asks.length : Int) ≤ cfg.maxDepth) ∧
    (∀ (maxDepth : Int) (isBid : Bool) (q : List Entry) (orders : OrdersMap),
      0 < maxDepth → (q.length : Int) > maxDepth →
      trimDepth maxDepth isBid q orders =
        trimDepth maxDepth isBid
          (heapRemove entryLess q (findWorstIndex q isBid).toNat).1
          (mapErase orders (lget q (findWorstIndex q isBid).toNat).order.id) ∧
      (heapRemove entryLess q (findWorstIndex q isBid).toNat).1.Perm
        (q.eraseIdx (findWorstIndex q isBid).toNat) ∧
      (heapRemove entryLess q (findWorstIndex q isBid).toNat).2 =
        lget q (findWorstIndex q isBid).toNat ∧
      (∀ j, j < q.length → ¬ worseThan isBid (lget q j)
        (lget q (findWorstIndex q isBid).toNat))) ∧
    (∀ (now : Nat) (order : Order) (ob : OrderBook) (d : Int),
      (processAdd now order { ob with cfg := { ob.cfg with maxDepth := d } }).2.1 =
        (processAdd now order ob).2.1 ∧
      (processAdd now order { ob with cfg := { ob.cfg with maxDepth := d } }).2.2 =
        (processAdd now order ob).2.2) := by
  refine ⟨?_, ?_, ?_⟩
  · have hok := runCommands_DepthOK cmds (NewOrderBook cfg)
      (fun hp => ⟨by simpa using le_of_lt hp, by simpa using le_of_lt hp⟩)
    rw [DepthOK, runCommands_cfg] at hok
    exact hok hpos
  · intro maxDepth isBid q orders hmd hql
    have hlen : q.length ≠ 0 := by
      intro h0
      rw [h0] at hql
      simp at hql
      omega
    have hidx := findWorstIndex_toNat_lt q isBid hlen
    have hsnd := heapRemove_snd entryLess q (findWorstIndex q isBid).toNat hidx
    refine ⟨?_, heapRemove_perm entryLess q _ hidx, hsnd,
      findWorstIndex_argmin q isBid hlen⟩
    rw [trimDepth_eq, if_pos ⟨hmd, hql⟩,
      if_neg (by have := findWorstIndex_nonneg q isBid hlen; omega), hsnd]
  · intro now order ob d
    have herr : (processAdd now order
        { ob with cfg := { ob.cfg with maxDepth := d } }).2.2 =
        (processAdd now order ob).2.2 := by
      rw [processAdd_err_spec, processAdd_err_spec]
    refine ⟨?_, herr⟩
    rcases he : (processAdd now order ob).2.2 with _ | e
    · rw [processAdd_trades_eq now order ob he,
        processAdd_trades_eq now order _ (by rw [herr, he])]
      rfl
    · rw [(processAdd_err_frame now order ob e he).2]
      exact (processAdd_err_frame now order _ e (by rw [herr, he])).2

/-- C8 witness: with depth 2, three resting bids are trimmed to two. -/
theorem claim_depth_bound_witness :
    (((runCommands
        [(0, Command.submit (mkOrder "b1" Side.Buy OrderType.Limit 10 1)),
         (1, Command.submit (mkOrder "b2" Side.Buy OrderType.Limit 9 1)),
         (2, Command.submit (mkOrder "b3" Side.Buy OrderType.Limit 8 1))]
        (NewOrderBook ⟨"S", 1, 2⟩)).bids.length : Int) ≤ 2 ∧
     ((runCommands
        [(0, Command.submit (mkOrder "b1" Side.Buy OrderType.Limit 10 1)),
         (1, Command.submit (mkOrder "b2" Side.Buy OrderType.Limit 9 1)),
         (2, Command.submit (mkOrder "b3" Side.Buy OrderType.Limit 8 1))]
        (NewOrderBook ⟨"S", 1, 2⟩)).asks.length : Int) ≤ 2) :=
  (claim_depth_bound ⟨"S", 1, 2⟩
    [(0, Command.submit (mkOrder "b1" Side.Buy OrderType.Limit 10 1)),
     (1, Command.submit (mkOrder "b2" Side.Buy OrderType.Limit 9 1)),
     (2, Command.submit (mkOrder "b3" Side.Buy OrderType.Limit 8 1))]
    (by decide)).1

theorem nodup_map_inj {β : Type} (g : α → β) :
    ∀ (l : List α), (l.map g).Nodup →
      ∀ x ∈ l, ∀ y ∈ l, g x = g y → x = y := by
  intro l
  induction l with
  | nil => intro _ x hx; exact absurd hx (List.not_mem_nil x)
  | cons a t ih =>
    intro hnd x hx y hy hg
    rw [List.map_cons, List.nodup_cons] at hnd
    rcases List.mem_cons.mp hx with rfl | hxt
    · rcases List.mem_cons.mp hy with rfl | hyt
      · rfl
      · exact absurd (hg ▸ List.mem_map_of_mem g hyt) hnd.1
    · rcases List.mem_cons.mp hy with rfl | hyt
      · exact absurd (hg ▸ List.mem_map_of_mem g hxt) hnd.1
      · exact ih hnd.2 x hxt y hyt hg

theorem LInv_unique {other q : List Entry} {orders : OrdersMap} {bound : Nat}
    (h : LInv other q orders bound) :
    ∀ e f, (e ∈ other ∨ e ∈ q) → (f ∈ other ∨ f ∈ q) →
      e.order.id = f.order.id → e = f := by
  intro e f he hf hid
  have h1 := h.covers e he
  have h2 := h.covers f hf
  rw [hid] at h1
  rw [h1] at h2
  injection h2 with htag
  have hmem : ∀ g, (g ∈ other ∨ g ∈ q) → g ∈ other ++ q := by
    intro g hg
    rcases hg with hg | hg
    · exact List.mem_append.mpr (Or.inl hg)
    · exact List.mem_append.mpr (Or.inr hg)
  have hnd := h.nodup
  rw [tagsOf] at hnd
  exact nodup_map_inj (fun e => e.tag) (other ++ q) hnd e (hmem e he)
    f (hmem f hf) htag

theorem LInv_not_both {other q : List Entry} {orders : OrdersMap} {bound : Nat}
    (h : LInv other q orders bound) :
    ∀ e, ¬(e ∈ other ∧ e ∈ q) := by
  rintro e ⟨h1, h2⟩
  have := h.nodup
  rw [tagsOf, List.map_append, List.nodup_append] at this
  exact this.2.2 (List.mem_map_of_mem _ h1) (List.mem_map_of_mem _ h2)

theorem LInv_swap {other q : List Entry} {orders : OrdersMap} {bound : Nat}
    (h : LInv other q orders bound) : LInv q other orders bound := by
  refine ⟨?_, ?_, ?_, ?_⟩
  · have := h.nodup
    rw [tagsOf] at this ⊢
    exact (((List.perm_append_comm : List.Perm (other ++ q) (q ++ other))).map
      (fun e => e.tag)).nodup_iff.mp this
  · intro e he
    exact h.fresh e he.symm
  · intro id tag hl
    obtain ⟨e, he, h1, h2⟩ := h.lookup id tag hl
    exact ⟨e, he.symm, h1, h2⟩
  · intro e he
    exact h.covers e he.symm

theorem LInv_perm_q {other q q' : List Entry} {orders : OrdersMap} {bound : Nat}
    (hp : q.Perm q') (h : LInv other q orders bound) :
    LInv other q' orders bound := by
  refine ⟨?_, ?_, ?_, ?_⟩
  · have := h.nodup
    rw [tagsOf] at this ⊢
    exact (((List.Perm.refl other).append hp).map (fun e => e.tag)).nodup_iff.mp this
  · intro e he
    rcases he with he | he
    · exact h.fresh e (Or.inl he)
    · exact h.fresh e (Or.inr (hp.mem_iff.mpr he))
  · intro id tag hl
    obtain ⟨e, he, h1, h2⟩ := h.lookup id tag hl
    rcases he with he | he
    · exact ⟨e, Or.inl he, h1, h2⟩
    · exact ⟨e, Or.inr (hp.mem_iff.mp he), h1, h2⟩
  · intro e he
    rcases he with he | he
    · exact h.covers e (Or.inl he)
    · exact h.covers e (Or.inr (hp.mem_iff.mpr he))

theorem LInv_mono_bound {other q : List Entry} {orders : OrdersMap}
    {bound bound' : Nat} (hb : bound ≤ bound')
    (h : LInv other q orders bound) : LInv other q orders bound' :=
  ⟨h.nodup, fun e he => by have := h.fresh e he; omega, h.lookup, h.covers⟩

theorem mapLookup_erase_none (m : OrdersMap) (k id : String)
    (h : mapLookup m id = none) : mapLookup (mapErase m k) id = none := by
  by_cases hik : id = k
  · rw [hik]
    exact mapLookup_erase_self m k
  · rw [mapLookup_erase_ne m k id hik]
    exact h

theorem set_perm_cons_eraseIdx [Inhabited α] (l : List α) (i : Nat) (x : α)
    (hi : i < l.length) : (l.set i x).Perm (x :: l.eraseIdx i) := by
  have hp1 : (lget l i :: l.set i x).Perm (x :: l) := set_lget_cons_perm l i x hi
  have hp2 : l.Perm (lget l i :: l.eraseIdx i) := perm_lget_cons_eraseIdx l i hi
  have hp3 : (lget l i :: l.set i x).Perm (lget l i :: x :: l.eraseIdx i) :=
    hp1.trans ((hp2.cons x).trans (List.Perm.swap (lget l i) x (l.eraseIdx i)))
  exact hp3.cons_inv

/-- Replacing a queue entry with one carrying the same tag and id keeps
the index coupling. -/
theorem LInv_replace_head {other : List Entry} {w : Entry} {t : List Entry}
    {orders : OrdersMap} {bound : Nat} (h : LInv other (w :: t) orders bound)
    (e' : Entry) (htag : e'.tag = w.tag) (hid : e'.order.id = w.order.id) :
    LInv other (e' :: t) orders bound := by
  refine ⟨?_, ?_, ?_, ?_⟩
  · have hnd := h.nodup
    rw [tagsOf, List.map_append, List.map_cons] at hnd ⊢
    rw [htag]
    exact hnd
  · intro e he
    rcases he with he | he
    · exact h.fresh e (Or.inl he)
    · rcases List.mem_cons.mp he with rfl | het
      · rw [htag]
        exact h.fresh w (Or.inr (List.mem_cons_self w t))
      · exact h.fresh e (Or.inr (List.mem_cons_of_mem w het))
  · intro id tag hl
    obtain ⟨e, he, h1, h2⟩ := h.lookup id tag hl
    rcases he with he | he
    · exact ⟨e, Or.inl he, h1, h2⟩
    · rcases List.mem_cons.mp he with rfl | het
      · exact ⟨e', Or.inr (List.mem_cons_self e' t),
          htag.trans h1, hid.trans h2⟩
      · exact ⟨e, Or.inr (List.mem_cons_of_mem e' het), h1, h2⟩
  · intro e he
    rcases he with he | he
    · exact h.covers e (Or.inl he)
    · rcases List.mem_cons.mp he with rfl | het
      · rw [hid, htag]
        exact h.covers w (Or.inr (List.mem_cons_self w t))
      · exact h.covers e (Or.inr (List.mem_cons_of_mem w het))

theorem LInv_set {other q : List Entry} {orders : OrdersMap} {bound : Nat}
    (h : LInv other q orders bound) (i : Nat) (hi : i < q.length) (e' : Entry)
    (htag : e'.tag = (lget q i).tag) (hid : e'.order.id = (lget q i).order.id) :
    LInv other (q.set i e') orders bound := by
  have hq := LInv_perm_q (perm_lget_cons_eraseIdx q i hi) h
  have hrep := LInv_replace_head hq e' htag hid
  exact LInv_perm_q (set_perm_cons_eraseIdx q i e' hi).symm hrep

/-- Removing a queue entry and erasing its id drops one binding and keeps
the coupling. -/
theorem LInv_remove_head {other : List Entry} {w : Entry} {t : List Entry}
    {orders : OrdersMap} {bound : Nat} (h : LInv other (w :: t) orders bound) :
    LInv other t (mapErase orders w.order.id) bound := by
  have hwmem : w ∈ w :: t := List.mem_cons_self w t
  refine ⟨?_, ?_, ?_, ?_⟩
  · have hnd := h.nodup
    rw [tagsOf] at hnd ⊢
    exact List.Nodup.sublist
      (((List.sublist_cons_self w t).append_left other).map (fun e => e.tag)) hnd
  · intro e he
    rcases he with he | he
    · exact h.fresh e (Or.inl he)
    · exact h.fresh e (Or.inr (List.mem_cons_of_mem w he))
  · intro id tag hl
    by_cases hik : id = w.order.id
    · rw [hik, mapLookup_erase_self] at hl
      exact absurd hl (by simp)
    · rw [mapLookup_erase_ne orders w.order.id id hik] at hl
      obtain ⟨e, he, h1, h2⟩ := h.lookup id tag hl
      have hew : e ≠ w := by
        intro heq
        rw [heq] at h2
        exact hik h2.symm
      rcases he with he | he
      · exact ⟨e, Or.inl he, h1, h2⟩
      · rcases List.mem_cons.mp he with heq | het
        · exact absurd heq hew
        · exact ⟨e, Or.inr het, h1, h2⟩
  · intro e he
    have hcomb : e ∈ other ∨ e ∈ w :: t := by
      rcases he with he | he
      · exact Or.inl he
      · exact Or.inr (List.mem_cons_of_mem w he)
    have hew : e ≠ w := by
      intro heq
      rcases he with he | he
      · exact LInv_not_both h w ⟨heq ▸ he, hwmem⟩
      · have hnd := h.nodup
        rw [tagsOf, List.map_append] at hnd
        have hnd2 := hnd.of_append_right
        rw [List.map_cons, List.nodup_cons] at hnd2
        exact hnd2.1 (heq ▸ List.mem_map_of_mem (fun e => e.tag) he)
    have hids : e.order.id ≠ w.order.id := by
      intro hide
      exact hew (LInv_unique h e w hcomb (Or.inr hwmem) hide)
    rw [mapLookup_erase_ne orders w.order.id e.order.id hids]
    exact h.covers e hcomb

theorem LInv_erase_at {other q : List Entry} {orders : OrdersMap} {bound : Nat}
    (h : LInv other q orders bound) (i : Nat) (hi : i < q.length) :
    LInv other (q.eraseIdx i) (mapErase orders (lget q i).order.id) bound :=
  LInv_remove_head (LInv_perm_q (perm_lget_cons_eraseIdx q i hi) h)

/-- Pushing a freshly tagged entry under an unused id extends the
coupling. -/
theorem LInv_push_head {other q : List Entry} {orders : OrdersMap} {bound : Nat}
    (h : LInv other q orders bound) (x : Entry) (htag : x.tag = bound)
    (hnone : mapLookup orders x.order.id = none) :
    LInv other (x :: q) (mapInsert orders x.order.id bound) (bound + 1) := by
  refine ⟨?_, ?_, ?_, ?_⟩
  · have hnd := h.nodup
    rw [tagsOf] at hnd ⊢
    have hperm := (List.perm_middle :
      List.Perm (other ++ x :: q) (x :: (other ++ q))).map (fun e => e.tag)
    rw [hperm.nodup_iff, List.map_cons, List.nodup_cons]
    refine ⟨?_, hnd⟩
    intro hmem
    obtain ⟨e, he, hetag⟩ := List.mem_map.mp hmem
    have := h.fresh e (by
      rcases List.mem_append.mp he with hh | hh
      · exact Or.inl hh
      · exact Or.inr hh)
    rw [htag] at hetag
    omega
  · intro e he
    rcases he with he | he
    · have := h.fresh e (Or.inl he)
      omega
    · rcases List.mem_cons.mp he with rfl | het
      · omega
      · have := h.fresh e (Or.inr het)
        omega
  · intro id tag hl
    by_cases hik : id = x.order.id
    · rw [hik, mapLookup_insert_self] at hl
      injection hl with hb
      exact ⟨x, Or.inr (List.mem_cons_self x q), htag.trans hb,
        hik.symm ▸ rfl⟩
    · rw [mapLookup_insert_ne orders x.order.id id bound hik] at hl
      obtain ⟨e, he, h1, h2⟩ := h.lookup id tag hl
      rcases he with he | he
      · exact ⟨e, Or.inl he, h1, h2⟩
      · exact ⟨e, Or.inr (List.mem_cons_of_mem x he), h1, h2⟩
  · intro e he
    rcases he with he | he
    · have hne : e.order.id ≠ x.order.id := by
        intro hide
        have := h.covers e (Or.inl he)
        rw [hide, hnone] at this
        exact Option.noConfusion this
      rw [mapLookup_insert_ne orders x.order.id e.order.id bound hne]
      exact h.covers e (Or.inl he)
    · rcases List.mem_cons.mp he with rfl | het
      · rw [mapLookup_insert_self, htag]
      · have hne : e.order.id ≠ x.order.id := by
          intro hide
          have := h.covers e (Or.inr het)
          rw [hide, hnone] at this
          exact Option.noConfusion this
        rw [mapLookup_insert_ne orders x.order.id e.order.id bound hne]
        exact h.covers e (Or.inr het)

theorem set_zero_tail (l : List Entry) (a : Entry) :
    (l.set 0 a).tail = l.tail := by
  cases l <;> rfl

theorem trimDepth_subset (β : Bool) :
    ∀ (n : Nat) (q : List Entry), q.length ≤ n →
      ∀ (orders : OrdersMap) (maxDepth : Int),
      ∀ e ∈ (trimDepth maxDepth β q orders).1, e ∈ q := by
  intro n
  induction n with
  | zero =>
    intro q hq orders maxDepth
    have hq0 : q.length = 0 := by omega
    rw [trimDepth_eq, if_neg (by rw [hq0]; rintro ⟨h1, h2⟩; simp at h2; omega)]
    exact fun e he => he
  | succ m ih =>
    intro q hq orders maxDepth
    rw [trimDepth_eq]
    by_cases hcond : maxDepth > 0 ∧ (q.length : Int) > maxDepth
    · rw [if_pos hcond]
      have hlen : q.length ≠ 0 := by
        intro h0
        rw [h0] at hcond
        simp at hcond
        omega
      rw [if_neg (by have := findWorstIndex_nonneg q β hlen; omega)]
      have hidx := findWorstIndex_toNat_lt q β hlen
      have hshort : (heapRemove entryLess q (findWorstIndex q β).toNat).1.length =
          q.length - 1 := heapRemove_length ..
      intro e he
      have := ih _ (by omega) _ maxDepth e he
      exact List.mem_of_mem_eraseIdx
        ((heapRemove_perm entryLess q _ hidx).mem_iff.mp this)
    · rw [if_neg hcond]
      exact fun e he => he

theorem trimDepth_LInv (β : Bool) :
    ∀ (n : Nat) (q : List Entry), q.length ≤ n →
      ∀ (other : List Entry) (orders : OrdersMap) (maxDepth : Int) (bound : Nat),
      LInv other q orders bound →
      LInv other (trimDepth maxDepth β q orders).1
        (trimDepth maxDepth β q orders).2 bound := by
  intro n
  induction n with
  | zero =>
    intro q hq other orders maxDepth bound h
    have hq0 : q.length = 0 := by omega
    rw [trimDepth_eq, if_neg (by rw [hq0]; rintro ⟨h1, h2⟩; simp at h2; omega)]
    exact h
  | succ m ih =>
    intro q hq other orders maxDepth bound h
    rw [trimDepth_eq]
    by_cases hcond : maxDepth > 0 ∧ (q.length : Int) > maxDepth
    · rw [if_pos hcond]
      have hlen : q.length ≠ 0 := by
        intro h0
        rw [h0] at hcond
        simp at hcond
        omega
      rw [if_neg (by have := findWorstIndex_nonneg q β hlen; omega)]
      have hidx := findWorstIndex_toNat_lt q β hlen
      have hsnd := heapRemove_snd entryLess q (findWorstIndex q β).toNat hidx
      have hshort : (heapRemove entryLess q (findWorstIndex q β).toNat).1.length =
          q.length - 1 := heapRemove_length ..
      apply ih _ (by omega)
      rw [hsnd]
      exact LInv_perm_q (heapRemove_perm entryLess q _ hidx).symm
        (LInv_erase_at h _ hidx)
    · rw [if_neg hcond]
      exact h

theorem matchStep_LInv (now : Nat) (s : LoopState) (t : MatchResult)
    (s' : LoopState) (other : List Entry) (bound : Nat)
    (h : matchStep now s = some (t, s'))
    (hinv : LInv other s.opposing s.orders bound) :
    LInv other s'.opposing s'.orders bound := by
  obtain ⟨best, hpeek, hcases⟩ := matchStep_queues now s t s' h
  obtain ⟨hz, hne⟩ := peek_lget_zero s.opposing best hpeek
  have hlen : 0 < s.opposing.length := List.length_pos.mpr hne
  have hcons := head_eq_lget_zero s.opposing hne
  rw [hz] at hcons
  rcases hcases with ⟨_, hop, hord⟩ | ⟨_, hop, hord⟩
  · -- pop branch: remove the top and erase its id
    rw [hop, hord]
    have hpopsub := heapPop_perm entryLess
      (s.opposing.set 0 { best with order :=
        { best.order with remaining := best.order.remaining - t.quantity } })
      (by
        intro hnil
        have := congrArg List.length hnil
        rw [List.length_set, List.length_nil] at this
        omega)
    rw [set_zero_tail] at hpopsub
    have hq : LInv other (best :: s.opposing.tail) s.orders bound := by
      rw [← hcons]
      exact hinv
    exact LInv_perm_q hpopsub.symm (LInv_remove_head hq)
  · -- fix branch: replace the top in place
    rw [hop, hord]
    have hset := LInv_set hinv 0 hlen
      { best with order :=
        { best.order with remaining := best.order.remaining - t.quantity } }
      (by rw [hz]) (by rw [hz])
    exact LInv_perm_q (heapFix_perm entryLess _ 0
      (by rw [List.length_set]; exact hlen)).symm hset

theorem matchLoop_LInv (now : Nat) (other : List Entry) (bound : Nat) :
    ∀ s : LoopState, LInv other s.opposing s.orders bound →
      LInv other (matchLoop now s).1.opposing (matchLoop now s).1.orders bound := by
  intro s
  induction s using matchLoop_ind now with
  | case1 s h =>
    intro hinv
    rw [matchLoop_eq]
    split
    · exact hinv
    · next t s' hs => rw [hs] at h; exact absurd h (by simp)
  | case2 s t s' h ih =>
    intro hinv
    rw [matchLoop_eq]
    split
    · next hn => exact absurd (hn.symm.trans h) (by simp)
    · next t2 s2 hs =>
      rw [hs] at h
      injection h with hx
      injection hx with h1 h2
      subst h1
      subst h2
      exact ih (matchStep_LInv now s t2 s2 other bound hs hinv)

theorem matchLoop_homog (now : Nat) (β : Bool) (s : LoopState)
    (h : homog β s.opposing) : homog β (matchLoop now s).1.opposing := by
  intro e he
  obtain ⟨f, hf, hkey⟩ := matchLoop_opposing_keyEq now s e he
  rw [(keyEq_fields hkey).2.1]
  exact h f hf

theorem matchLoop_lookup_none (now : Nat) (id : String) :
    ∀ s : LoopState, mapLookup s.orders id = none →
      mapLookup (matchLoop now s).1.orders id = none := by
  intro s
  induction s using matchLoop_ind now with
  | case1 s h =>
    intro hn
    rw [matchLoop_eq]
    split
    · exact hn
    · next t s' hs => rw [hs] at h; exact absurd h (by simp)
  | case2 s t s' h ih =>
    intro hn
    rw [matchLoop_eq]
    split
    · next hnn => exact absurd (hnn.symm.trans h) (by simp)
    · next t2 s2 hs =>
      rw [hs] at h
      injection h with hx
      injection hx with h1 h2
      subst h1
      subst h2
      apply ih
      obtain ⟨best, _, hcases⟩ := matchStep_queues now s t2 s2 hs
      rcases hcases with ⟨_, _, hord⟩ | ⟨_, _, hord⟩
      · rw [hord]
        exact mapLookup_erase_none s.orders best.order.id id hn
      · rw [hord]
        exact hn

theorem processAdd_IndexInv (now : Nat) (o : Order) (ob : OrderBook)
    (h : IndexInv ob) (hn0 : mapLookup ob.orders o.id = none) :
    IndexInv (processAdd now o ob).1 := by
  obtain ⟨hhb, hha, hL⟩ := h
  rcases herr : (processAdd now o ob).2.2 with _ | e
  case some =>
    rw [(processAdd_err_frame now o ob e herr).1]
    exact ⟨hhb, hha, hL⟩
  case none =>
  by_cases hbuy : o.side = Side.Buy
  · rw [processAdd_state_buy now o ob herr hbuy]
    have hfields := matchLoop_incoming_fields now ⟨prepared now o ob, ob.asks, ob.orders⟩
    have hloop := matchLoop_LInv now ob.bids ob.nextTag
      ⟨prepared now o ob, ob.asks, ob.orders⟩ hL
    have hda : homog false (matchLoop now ⟨prepared now o ob, ob.asks, ob.orders⟩).1.opposing :=
      matchLoop_homog now false _ hha
    have hnone' : mapLookup (matchLoop now ⟨prepared now o ob, ob.asks, ob.orders⟩).1.orders
        (matchLoop now ⟨prepared now o ob, ob.asks, ob.orders⟩).1.incoming.id = none := by
      rw [hfields.1]
      exact matchLoop_lookup_none now _ _ hn0
    rcases matchFn_cases now (prepared now o ob) ob.asks ob.bids ob.orders
        ob.cfg.maxDepth ob.nextTag with ⟨hnc, heq⟩ | ⟨hc, hsideb, heq⟩ | ⟨hc, hsides, heq⟩
    · rw [heq]
      exact ⟨hhb, hda, hloop⟩
    · rw [heq]
      dsimp only
      have hpushinv := LInv_push_head (LInv_swap hloop)
        ⟨ob.nextTag, (matchLoop now ⟨prepared now o ob, ob.asks, ob.orders⟩).1.incoming,
         (matchLoop now ⟨prepared now o ob, ob.asks, ob.orders⟩).1.incoming.side = Side.Buy⟩
        rfl hnone'
      have hpushperm := heapPush_perm entryLess ob.bids
        ⟨ob.nextTag, (matchLoop now ⟨prepared now o ob, ob.asks, ob.orders⟩).1.incoming,
         (matchLoop now ⟨prepared now o ob, ob.asks, ob.orders⟩).1.incoming.side = Side.Buy⟩
      have hpushinv2 := LInv_perm_q hpushperm.symm hpushinv
      have htr := trimDepth_LInv true _ _ le_rfl _ _ ob.cfg.maxDepth _ hpushinv2
      refine ⟨?_, hda, LInv_swap htr⟩
      intro e he
      have hsub := trimDepth_subset true _ _ le_rfl _ ob.cfg.maxDepth e he
      rcases List.mem_cons.mp (hpushperm.mem_iff.mp hsub) with rfl | hmem
      · simp [hsideb]
      · exact hhb e hmem
    · exact absurd (by rw [hfields.2.2.1]; exact hbuy) hsides
  · rw [processAdd_state_sell now o ob herr hbuy]
    have hfields := matchLoop_incoming_fields now ⟨prepared now o ob, ob.bids, ob.orders⟩
    have hloop := matchLoop_LInv now ob.asks ob.nextTag
      ⟨prepared now o ob, ob.bids, ob.orders⟩ (LInv_swap hL)
    have hdb : homog true (matchLoop now ⟨prepared now o ob, ob.bids, ob.orders⟩).1.opposing :=
      matchLoop_homog now true _ hhb
    have hnone' : mapLookup (matchLoop now ⟨prepared now o ob, ob.bids, ob.orders⟩).1.orders
        (matchLoop now ⟨prepared now o ob, ob.bids, ob.orders⟩).1.incoming.id = none := by
      rw [hfields.1]
      exact matchLoop_lookup_none now _ _ hn0
    rcases matchFn_cases now (prepared now o ob) ob.bids ob.asks ob.orders
        ob.cfg.maxDepth ob.nextTag with ⟨hnc, heq⟩ | ⟨hc, hsideb, heq⟩ | ⟨hc, hsides, heq⟩
    · rw [heq]
      exact ⟨hdb, hha, LInv_swap hloop⟩
    · exact absurd (by rw [hfields.2.2.1] at hsideb; exact hsideb) hbuy
    · rw [heq]
      dsimp only
      have hpushinv := LInv_push_head (LInv_swap hloop)
        ⟨ob.nextTag, (matchLoop now ⟨prepared now o ob, ob.bids, ob.orders⟩).1.incoming,
         (matchLoop now ⟨prepared now o ob, ob.bids, ob.orders⟩).1.incoming.side = Side.Buy⟩
        rfl hnone'
      have hpushperm := heapPush_perm entryLess ob.asks
        ⟨ob.nextTag, (matchLoop now ⟨prepared now o ob, ob.bids, ob.orders⟩).1.incoming,
         (matchLoop now ⟨prepared now o ob, ob.bids, ob.orders⟩).1.incoming.side = Side.Buy⟩
      have hpushinv2 := LInv_perm_q hpushperm.symm hpushinv
      have htr := trimDepth_LInv false _ _ le_rfl _ _ ob.cfg.maxDepth _ hpushinv2
      refine ⟨hdb, ?_, htr⟩
      intro e he
      have hsub := trimDepth_subset false _ _ le_rfl _ ob.cfg.maxDepth e he
      rcases List.mem_cons.mp (hpushperm.mem_iff.mp hsub) with rfl | hmem
      · simp [hsides]
      · exact hha e hmem

theorem processCancel_IndexInv (id : String) (ob : OrderBook)
    (h : IndexInv ob) : IndexInv (processCancel id ob).1 := by
  obtain ⟨hhb, hha, hL⟩ := h
  rw [processCancel]
  rcases hm : mapLookup ob.orders id with _ | tag
  · exact ⟨hhb, hha, hL⟩
  · dsimp only
    rcases hd : derefTag ob tag with _ | entry
    · exact ⟨hhb, hha, hL⟩
    · dsimp only
      obtain ⟨hmem, htagv⟩ := derefTag_mem ob tag entry hd
      obtain ⟨e, he, hetag, heid⟩ := hL.lookup id tag hm
      have hnd := hL.nodup
      rw [tagsOf] at hnd
      have hee : e = entry := by
        apply nodup_map_inj (fun e => e.tag) (ob.bids ++ ob.asks) hnd
        · rcases he with hh | hh
          · exact List.mem_append.mpr (Or.inl hh)
          · exact List.mem_append.mpr (Or.inr hh)
        · rcases hmem with hh | hh
          · exact List.mem_append.mpr (Or.inl hh)
          · exact List.mem_append.mpr (Or.inr hh)
        · rw [hetag, htagv]
      have hid2 : entry.order.id = id := by
        rw [← hee]
        exact heid
      by_cases hb : entry.isBid
      · rw [if_pos hb]
        obtain ⟨hidx, hlg⟩ := (derefTag_at ob tag entry hhb hha hd).1 hb
        have herase := LInv_erase_at (LInv_swap hL) (findTagIdx ob.bids tag) hidx
        rw [hlg, hid2] at herase
        have hrm := heapRemove_perm entryLess ob.bids (findTagIdx ob.bids tag) hidx
        refine ⟨?_, hha, LInv_swap (LInv_perm_q hrm.symm herase)⟩
        intro f hf
        exact hhb f (List.mem_of_mem_eraseIdx (hrm.mem_iff.mp hf))
      · rw [if_neg hb]
        obtain ⟨hidx, hlg⟩ := (derefTag_at ob tag entry hhb hha hd).2 (by simpa using hb)
        have herase := LInv_erase_at hL (findTagIdx ob.asks tag) hidx
        rw [hlg, hid2] at herase
        have hrm := heapRemove_perm entryLess ob.asks (findTagIdx ob.asks tag) hidx
        refine ⟨hhb, ?_, LInv_perm_q hrm.symm herase⟩
        intro f hf
        exact hha f (List.mem_of_mem_eraseIdx (hrm.mem_iff.mp hf))

theorem processAmend_IndexInv (now : Nat) (id : String) (p q : Option Int)
    (ob : OrderBook) (h : IndexInv ob) :
    IndexInv (processAmend now id p q ob).1 := by
  obtain ⟨hhb, hha, hL⟩ := h
  rcases herr2 : (processAmend now id p q ob).2 with _ | e
  case some =>
    rcases processAmend_err_cases now id p q ob e herr2 with h0 |
      ⟨id', pv, qv, tag, entry, _, hm, hd, _, _, _, heq⟩
    · rw [h0]
      exact ⟨hhb, hha, hL⟩
    · rw [heq, amendWrite]
      by_cases hb : entry.isBid
      · rw [if_pos hb]
        obtain ⟨hidx, hlg⟩ := (derefTag_at ob tag entry hhb hha hd).1 hb
        have hset := LInv_set (LInv_swap hL) (findTagIdx ob.bids tag) hidx
          { entry with order := amendQty entry.order qv }
          (by rw [hlg]) (by rw [hlg, amendQty])
        refine ⟨?_, hha, LInv_swap hset⟩
        intro f hf
        rcases List.mem_or_eq_of_mem_set hf with hh | hh
        · exact hhb f hh
        · rw [hh]
          exact hb
      · rw [if_neg hb]
        obtain ⟨hidx, hlg⟩ := (derefTag_at ob tag entry hhb hha hd).2 (by simpa using hb)
        have hset := LInv_set hL (findTagIdx ob.asks tag) hidx
          { entry with order := amendQty entry.order qv }
          (by rw [hlg]) (by rw [hlg, amendQty])
        refine ⟨hhb, ?_, hset⟩
        intro f hf
        rcases List.mem_or_eq_of_mem_set hf with hh | hh
        · exact hha f hh
        · rw [hh]
          simpa using hb
  case none =>
    rcases processAmend_success_shape now id p q ob herr2 with h0 |
      ⟨tag, entry, o0, hm, hd, hid0, _, _, _, heq⟩
    · rw [h0]
      exact ⟨hhb, hha, hL⟩
    · rw [heq, amendFinish]
      by_cases hb : entry.isBid
      · rw [if_pos hb]
        obtain ⟨hidx, hlg⟩ := (derefTag_at ob tag entry hhb hha hd).1 hb
        have hset := LInv_set (LInv_swap hL) (findTagIdx ob.bids tag) hidx
          { entry with order := { o0 with sequence := ob.seq + 1, timestamp := now } }
          (by rw [hlg]) (by rw [hlg]; exact hid0)
        have hfixp := heapFix_perm entryLess
          (ob.bids.set (findTagIdx ob.bids tag)
            { entry with order := { o0 with sequence := ob.seq + 1, timestamp := now } })
          (findTagIdx ob.bids tag) (by rw [List.length_set]; exact hidx)
        have hfix := LInv_perm_q hfixp.symm hset
        have htr := trimDepth_LInv true _ _ le_rfl _ _ ob.cfg.maxDepth _ hfix
        refine ⟨?_, hha, LInv_swap htr⟩
        intro f hf
        have hsub := trimDepth_subset true _ _ le_rfl _ ob.cfg.maxDepth f hf
        rcases List.mem_or_eq_of_mem_set (hfixp.mem_iff.mp hsub) with hh | hh
        · exact hhb f hh
        · rw [hh]
          exact hb
      · rw [if_neg hb]
        obtain ⟨hidx, hlg⟩ := (derefTag_at ob tag entry hhb hha hd).2 (by simpa using hb)
        have hset := LInv_set hL (findTagIdx ob.asks tag) hidx
          { entry with order := { o0 with sequence := ob.seq + 1, timestamp := now } }
          (by rw [hlg]) (by rw [hlg]; exact hid0)
        have hfixp := heapFix_perm entryLess
          (ob.asks.set (findTagIdx ob.asks tag)
            { entry with order := { o0 with sequence := ob.seq + 1, timestamp := now } })
          (findTagIdx ob.asks tag) (by rw [List.length_set]; exact hidx)
        have hfix := LInv_perm_q hfixp.symm hset
        have htr := trimDepth_LInv false _ _ le_rfl _ _ ob.cfg.maxDepth _ hfix
        refine ⟨hhb, ?_, htr⟩
        intro f hf
        have hsub := trimDepth_subset false _ _ le_rfl _ ob.cfg.maxDepth f hf
        rcases List.mem_or_eq_of_mem_set (hfixp.mem_iff.mp hsub) with hh | hh
        · exact hha f hh
        · rw [hh]
          simpa using hb

theorem step_IndexInv (now : Nat) (c : Command) (ob : OrderBook)
    (h : IndexInv ob)
    (hnr : ∀ o, c = Command.submit o → mapLookup ob.orders o.id = none) :
    IndexInv (step now c ob).1 := by
  rcases c with o | id | ⟨id, p, q⟩
  · exact processAdd_IndexInv now o ob h (hnr o rfl)
  · exact processCancel_IndexInv id ob h
  · exact processAmend_IndexInv now id p q ob h

theorem NewOrderBook_IndexInv (cfg : OrderBookConfig) :
    IndexInv (NewOrderBook cfg) := by
  refine ⟨fun e he => absurd he (List.not_mem_nil e),
    fun e he => absurd he (List.not_mem_nil e), ?_, ?_, ?_, ?_⟩
  · simp [tagsOf, NewOrderBook]
  · rintro e (he | he) <;> exact absurd he (List.not_mem_nil e)
  · intro id tag hl
    rw [show mapLookup (NewOrderBook cfg).orders id = none from rfl] at hl
    exact absurd hl (by simp)
  · rintro e (he | he) <;> exact absurd he (List.not_mem_nil e)

theorem runCommands_IndexInv :
    ∀ (cmds : List (Nat × Command)) (ob : OrderBook), IndexInv ob →
      goodRunB cmds ob = true → IndexInv (runCommands cmds ob) := by
  intro cmds
  induction cmds with
  | nil => intro ob h _; exact h
  | cons nc rest ih =>
    intro ob h hg
    obtain ⟨now, c⟩ := nc
    rw [runCommands]
    rcases c with o | id | ⟨id, p, q⟩
    · have hg2 : ((mapLookup ob.orders o.id == none) &&
          goodRunB rest (step now (Command.submit o) ob).1) = true := hg
      rw [Bool.and_eq_true] at hg2
      refine ih _ (step_IndexInv now (Command.submit o) ob h ?_) hg2.2
      intro o' hco
      injection hco with ho
      subst ho
      exact eq_of_beq hg2.1
    · have hg2 : (true && goodRunB rest (step now (Command.cancel id) ob).1) = true := hg
      rw [Bool.and_eq_true] at hg2
      refine ih _ (step_IndexInv now (Command.cancel id) ob h ?_) hg2.2
      intro o' hco
      exact absurd hco (by simp)
    · have hg2 : (true && goodRunB rest (step now (Command.amend id p q) ob).1) = true := hg
      rw [Bool.and_eq_true] at hg2
      refine ih _ (step_IndexInv now (Command.amend id p q) ob h ?_) hg2.2
      intro o' hco
      exact absurd hco (by simp)

/-- C5 (amended): provided the run never submits an order whose id is
already bound in the index (`goodRunB`), the orders index is exactly the
set of resting entries: an id is bound iff exactly one resting entry on
exactly one of the two queues carries it, and the binding holds that
entry's tag.  Without that proviso the claim is false: a duplicate-id
submit overwrites the binding and orphans the previously resting entry
(see the counterexample). -/
theorem claim_orders_index_coupling (cfg : OrderBookConfig)
    (cmds : List (Nat × Command)) (ob : OrderBook)
    (hgood : goodRunB cmds (NewOrderBook cfg) = true)
    (hob : ob = runCommands cmds (NewOrderBook cfg)) :
    (∀ id tag, mapLookup ob.orders id = some tag →
      ∃ e, (e ∈ ob.bids ∨ e ∈ ob.asks) ∧ ¬(e ∈ ob.bids ∧ e ∈ ob.asks) ∧
        e.tag = tag ∧ e.order.id = id ∧
        (∀ f, (f ∈ ob.bids ∨ f ∈ ob.asks) → f.order.id = id → f = e)) ∧
    (∀ e, (e ∈ ob.bids ∨ e ∈ ob.asks) →
      mapLookup ob.orders e.order.id = some e.tag) := by
  have hinv : IndexInv ob := hob ▸ runCommands_IndexInv cmds (NewOrderBook cfg)
    (NewOrderBook_IndexInv cfg) hgood
  obtain ⟨_, _, hL⟩ := hinv
  constructor
  · intro id tag hl
    obtain ⟨e, he, h1, h2⟩ := hL.lookup id tag hl
    refine ⟨e, he, LInv_not_both hL e, h1, h2, ?_⟩
    intro f hf hfid
    exact LInv_unique hL f e hf he (by rw [hfid, h2])
  · exact fun e he => hL.covers e he

/-- C5 witness: after a one-bid one-ask run with distinct ids, the index
is the two resting entries. -/
theorem claim_orders_index_coupling_witness :
    (∀ id tag, mapLookup bookC5w.orders id = some tag →
      ∃ e, (e ∈ bookC5w.bids ∨ e ∈ bookC5w.asks) ∧
        ¬(e ∈ bookC5w.bids ∧ e ∈ bookC5w.asks) ∧
        e.tag = tag ∧ e.order.id = id ∧
        (∀ f, (f ∈ bookC5w.bids ∨ f ∈ bookC5w.asks) → f.order.id = id → f = e)) ∧
    (∀ e, (e ∈ bookC5w.bids ∨ e ∈ bookC5w.asks) →
      mapLookup bookC5w.orders e.order.id = some e.tag) :=
  claim_orders_index_coupling cfgS
    [(0, Command.submit (mkOrder "x" Side.Buy OrderType.Limit 10 1)),
     (1, Command.submit (mkOrder "y" Side.Sell OrderType.Limit 20 1))]
    bookC5w (by decide) rfl

/-- C5 counterexample to the original claim: submitting twice under id
`x` leaves two resting bids both named `x`, while the index binds `x`
only to the second entry's tag — the first rests unreachable by id. -/
theorem claim_orders_index_coupling_counterexample :
    ((runCommands
        [(0, Command.submit (mkOrder "x" Side.Buy OrderType.Limit 10 1)),
         (1, Command.submit (mkOrder "x" Side.Buy OrderType.Limit 9 1))]
        (NewOrderBook cfgS)).bids.map (fun e => (e.tag, e.order.id)) =
      [(0, "x"), (1, "x")]) ∧
    (mapLookup (runCommands
        [(0, Command.submit (mkOrder "x" Side.Buy OrderType.Limit 10 1)),
         (1, Command.submit (mkOrder "x" Side.Buy OrderType.Limit 9 1))]
        (NewOrderBook cfgS)).orders "x" = some 1) := by decide

end Limitless
